import Mathlib

/-!
# Correlation: a shallow embedding of `src/Cell.cpp`

The C++ `double` is idealised as an arbitrary linearly ordered field `K` with a floor
function (`ℚ` for evaluation, `ℝ` for the analytic statements); C++ `int` is `ℤ`
(conversions from `double` are assumed to be in range).  `std::vector` and `std::list`
are `List`; indexing outside a vector is a failure (`none`).
-/

set_option autoImplicit false

namespace Correlation

/-! ## Vectors -/

/-- A `std::array<double, 3>`: the fields `x`, `y`, `z` are the entries `[0]`, `[1]`, `[2]`. -/
@[ext]
structure Vec3 (K : Type) where
  x : K
  y : K
  z : K
deriving DecidableEq, Repr

namespace Vec3

variable {K : Type}

/-- Entrywise sum, the loop `for (m = 0; m < 3; m++) u[m] + v[m]`. -/
def add [Add K] (u v : Vec3 K) : Vec3 K := ⟨u.x + v.x, u.y + v.y, u.z + v.z⟩

/-- Entrywise difference, the loop `for (m = 0; m < 3; m++) u[m] - v[m]`. -/
def sub [Sub K] (u v : Vec3 K) : Vec3 K := ⟨u.x - v.x, u.y - v.y, u.z - v.z⟩

/-- Scaling, the loop `for (m = 0; m < 3; m++) t * v[m]`. -/
def smul [Mul K] (t : K) (v : Vec3 K) : Vec3 K := ⟨t * v.x, t * v.y, t * v.z⟩

/-- The combination `i * v_a + j * v_b + k * v_c` of three vectors. -/
def comb [Add K] [Mul K] (va vb vc : Vec3 K) (i j k : K) : Vec3 K :=
  add (add (smul i va) (smul j vb)) (smul k vc)

end Vec3

/-! ## Rounding -/

/-- The literal `0.000000000000001` of `Cell::CorrectPositions`. -/
def foldEps {K : Type} [LinearOrderedField K] : K := 1 / 10 ^ 15

section Rounding

variable {K : Type} [LinearOrderedField K] [FloorRing K]

/-- The C function `trunc` followed by the conversion to `int`: rounding toward zero. -/
def trunc (x : K) : ℤ := if 0 ≤ x then ⌊x⌋ else ⌈x⌉


/-- The integer part taken off a fractional coordinate in `Cell::CorrectPositions`:
`if (i >= -0.000000000000001) i_ = trunc(i); else i_ = trunc(i) - 1;`. -/
def foldShift (i : K) : ℤ := if i ≥ -foldEps then trunc i else trunc i - 1

/-- The fractional coordinates `(i, j, k)` as the body of `Cell::CorrectPositions`
computes them (lines 118-128): `k` first, then `j`, then `i`, each after the previous
contribution was subtracted from `aux_pos`. -/
def fractional (va vb vc p : Vec3 K) : K × K × K :=
  let k := p.z / vc.z
  let aux1 := Vec3.sub p (Vec3.smul k vc)
  let j := aux1.y / vb.y
  let aux2 := Vec3.sub aux1 (Vec3.smul j vb)
  let i := aux2.x / va.x
  (i, j, k)

/-- The body of the loop of `Cell::CorrectPositions` for one atom position. -/
def foldPosition (va vb vc p : Vec3 K) : Vec3 K :=
  let ijk := fractional va vb vc p
  let i_ : ℤ := foldShift ijk.1
  let j_ : ℤ := foldShift ijk.2.1
  let k_ : ℤ := foldShift ijk.2.2
  Vec3.sub p (Vec3.comb va vb vc (i_ : K) (j_ : K) (k_ : K))

end Rounding

/-! ## Atoms and the cell -/

/-- Modelled from the spec: `Atom.h` is not among the sources.  A bonded-neighbor record
("atom image") is a value copy of the neighbor's identity (`atom_id`), its element index
(`element_id`) and the position of the periodic image that was observed. -/
structure Atom_Img (K : Type) where
  atom_id : ℤ
  element_id : ℤ
  position : Vec3 K
deriving DecidableEq, Repr

/-- Modelled from the spec: `Atom.h` is not among the sources.  An atom has an element
symbol, an element index, a position, a unique numeric identity (`GetNumber()`) and a
dynamically grown list of bonded-neighbor records. -/
structure Atom (K : Type) where
  element : String
  element_id : ℤ
  position : Vec3 K
  number : ℤ
  bonded_atoms : List (Atom_Img K)
deriving DecidableEq, Repr

/-- The six lattice parameters, `lattice_parameters[0..5]`, under the names that
`Cell::SetLatticeVectors` gives them (angles in degrees). -/
structure LatticeParameters (K : Type) where
  A : K
  B : K
  C : K
  alpha : K
  beta : K
  gamma : K
deriving DecidableEq, Repr

/-- The data members of `Cell` that `Cell.cpp` reads and writes. -/
structure Cell (K : Type) where
  lattice_parameters : LatticeParameters K
  v_a_ : Vec3 K
  v_b_ : Vec3 K
  v_c_ : Vec3 K
  volume : K
  atoms : List (Atom K)
  elements : List String
  bond_length : List (List K)
  distances : List (List (List K))
  coordination : List (List (List ℤ))
  angles : List (List (List (List K)))
  J : List (List K)
  g : List (List K)
  g_theta : List (List K)
deriving DecidableEq, Repr

section Folding

variable {K : Type} [LinearOrderedField K] [FloorRing K]

/-- `Cell::CorrectPositions`: every atom's position is replaced by its folded position. -/
def CorrectPositions (c : Cell K) : Cell K :=
  { c with atoms := c.atoms.map fun a =>
      { a with position := foldPosition c.v_a_ c.v_b_ c.v_c_ a.position } }

end Folding


/-! ## The lattice -/

/-- The functions of `<cmath>` that `Cell.cpp` calls on `double`s.  The embedding takes them
as a parameter; the statements about the lattice instantiate them with the real functions
`Real.sqrt`, `Real.cos`, `Real.sin` and `Real.arccos`. -/
structure Libm (K : Type) where
  sqrt : K → K
  cos : K → K
  sin : K → K
  acos : K → K

namespace Vec3

variable {K : Type}

/-- The dot product of two vectors. -/
def dot [Add K] [Mul K] (u v : Vec3 K) : K := u.x * v.x + u.y * v.y + u.z * v.z

/-- The Euclidean norm of a vector, with the square root of `m`. -/
def norm [Add K] [Mul K] (m : Libm K) (v : Vec3 K) : K := m.sqrt (dot v v)

/-- The Euclidean distance between two points, with the square root of `m`. -/
def distance [Add K] [Sub K] [Monoid K] (m : Libm K) (p q : Vec3 K) : K :=
  m.sqrt ((p.x - q.x) ^ 2 + (p.y - q.y) ^ 2 + (p.z - q.z) ^ 2)

end Vec3

section Lattice

variable {K : Type} [LinearOrderedField K]

/-- `Cell::SetLatticeVectors`: the lattice vectors and the volume from the lattice
parameters.  `deg2rad` is `constants::deg2rad` (`Constants.h` is not among the sources). -/
def SetLatticeVectors (m : Libm K) (deg2rad : K) (c : Cell K) : Cell K :=
  let A := c.lattice_parameters.A
  let B := c.lattice_parameters.B
  let C := c.lattice_parameters.C
  let alpha := c.lattice_parameters.alpha * deg2rad
  let beta := c.lattice_parameters.beta * deg2rad
  let gamma := c.lattice_parameters.gamma * deg2rad
  let v_a : Vec3 K := ⟨A, 0, 0⟩
  let v_b : Vec3 K := ⟨B * m.cos gamma, B * m.sin gamma, 0⟩
  let v_c : Vec3 K :=
    ⟨C * m.cos beta,
     C * (m.cos alpha - m.cos beta * m.cos gamma) / m.sin gamma,
     C * m.sqrt (1 - m.cos alpha ^ 2 - m.cos beta ^ 2 - m.cos gamma ^ 2
          + 2 * m.cos alpha * m.cos beta * m.cos gamma) / m.sin gamma⟩
  { c with
    v_a_ := v_a
    v_b_ := v_b
    v_c_ := v_c
    volume := v_c.x * (v_a.y * v_b.z - v_a.z * v_b.y)
      - v_c.y * (v_a.x * v_b.z - v_a.z * v_b.x)
      + v_c.z * (v_a.x * v_b.y - v_a.y * v_b.x) }

variable [FloorRing K]

/-- `std::inner_product(u.begin(), u.end(), v.begin(), 0)` on vectors of three entries.
The initial value `0` is an `int`, so the accumulator is an `int`: after every step the
sum `acc + u[m] * v[m]` is converted back to `int`, that is, truncated. -/
def inner_product (u v : Vec3 K) : ℤ :=
  let acc0 : ℤ := 0
  let acc1 : ℤ := trunc ((acc0 : K) + u.x * v.x)
  let acc2 : ℤ := trunc ((acc1 : K) + u.y * v.y)
  trunc ((acc2 : K) + u.z * v.z)

/-- `Cell::SetFromVectors`: the lattice parameters from three vectors, then
`SetLatticeVectors`.  `rad2deg` and `deg2rad` are the constants of `Constants.h`. -/
def SetFromVectors (m : Libm K) (rad2deg deg2rad : K) (c : Cell K) (v1 v2 v3 : Vec3 K) :
    Cell K :=
  let v1_n := m.sqrt (inner_product v1 v1 : K)
  let v2_n := m.sqrt (inner_product v2 v2 : K)
  let v3_n := m.sqrt (inner_product v3 v3 : K)
  let aux : K := (inner_product v2 v3 : K)
  let a := m.acos (aux / (v2_n * v3_n)) * rad2deg
  let aux : K := (inner_product v1 v3 : K)
  let b := m.acos (aux / (v1_n * v3_n)) * rad2deg
  let aux : K := (inner_product v2 v1 : K)
  let c_ := m.acos (aux / (v2_n * v1_n)) * rad2deg
  SetLatticeVectors m deg2rad
    { c with
      lattice_parameters := ⟨v1_n, v2_n, v3_n, a, b, c_⟩
      atoms := []
      elements := [] }

end Lattice

/-- The members of a cell of the given lattice parameters before a constructor has
called `SetLatticeVectors`: no atoms, no elements, zero vectors, empty tables. -/
def blankCell {K : Type} [Zero K] (lat : LatticeParameters K) : Cell K :=
  { lattice_parameters := lat
    v_a_ := ⟨0, 0, 0⟩
    v_b_ := ⟨0, 0, 0⟩
    v_c_ := ⟨0, 0, 0⟩
    volume := 0
    atoms := []
    elements := []
    bond_length := []
    distances := []
    coordination := []
    angles := []
    J := []
    g := []
    g_theta := [] }

/-- A cubic cell of edge `1` holding the given atoms (the vectors are those of the lattice
parameters `(1, 1, 1, 90, 90, 90)`), with empty derived tables. -/
def cubicCell (K : Type) [Field K] (atoms : List (Atom K)) (elements : List String) :
    Cell K :=
  { lattice_parameters := ⟨1, 1, 1, 90, 90, 90⟩
    v_a_ := ⟨1, 0, 0⟩
    v_b_ := ⟨0, 1, 0⟩
    v_c_ := ⟨0, 0, 1⟩
    volume := 1
    atoms := atoms
    elements := elements
    bond_length := []
    distances := []
    coordination := []
    angles := []
    J := []
    g := []
    g_theta := [] }

/-- An atom of element `el` with identity `number` at `position`, element index
unresolved and no bonded neighbors. -/
def mkAtom {K : Type} (el : String) (number : ℤ) (position : Vec3 K) : Atom K :=
  { element := el, element_id := 0, position := position, number := number,
    bonded_atoms := [] }

/-! ## Vectors of vectors -/

/-- The element access `l[i]` with an `int` index: a failure outside `0 .. size - 1`. -/
def getAt {α : Type} (l : List α) (i : ℤ) : Option α :=
  if 0 ≤ i then l[i.toNat]? else none

/-- The in-place update `l[i] = f(l[i])` with an `int` index, where the update of the
element may itself fail: a failure outside `0 .. size - 1`. -/
def modifyAt {α : Type} (f : α → Option α) (l : List α) (i : ℤ) : Option (List α) :=
  match getAt l i with
  | some a => (f a).map fun b => l.set i.toNat b
  | none => none

/-- The statement `t[a][b][c]++` on a vector of vectors of vectors of `int`. -/
def incr3 (t : List (List (List ℤ))) (a b c : ℤ) : Option (List (List (List ℤ))) :=
  modifyAt (fun row => modifyAt (fun col => modifyAt (fun v => some (v + 1)) col c) row b) t a

/-- The entry `t[a][b][c]` of a table of counts, `0` outside the table. -/
def entry3 (t : List (List (List ℤ))) (a b c : ℕ) : ℤ :=
  (((t[a]?).getD [])[b]?.getD [])[c]?.getD 0

/-- A table has `n` rows of `n` columns of `m` entries. -/
def Shape3 (n m : ℕ) (t : List (List (List ℤ))) : Prop :=
  t.length = n ∧ ∀ row ∈ t, row.length = n ∧ ∀ col ∈ row, col.length = m

section CNdefs

variable {K : Type}

/-- The vector `aux` of `Cell::CN` for one atom: starting from `n` zeros, `aux[e]++` for
the element index `e` of every bonded-neighbor record. -/
def CN_aux (n : ℕ) (bonded : List (Atom_Img K)) : Option (List ℤ) :=
  bonded.foldlM (fun aux img => modifyAt (fun v => some (v + 1)) aux img.element_id)
    (List.replicate n 0)

/-- The body of the second loop of `Cell::CN` for one atom: the tally `aux`, then
`temp_cn[MyAtom->element_id][i][aux[i]]++` for `i = 0 .. n - 1`. -/
def CN_atom (n : ℕ) (t : List (List (List ℤ))) (a : Atom K) :
    Option (List (List (List ℤ))) :=
  (CN_aux n a.bonded_atoms).bind fun aux =>
    (List.range n).foldlM
      (fun t (i : ℕ) => (getAt aux (i : ℤ)).bind fun k => incr3 t a.element_id (i : ℤ) k) t

/-- The first loop of `Cell::CN`: the largest length of a bonded-neighbor list. -/
def CN_max (atoms : List (Atom K)) : ℤ :=
  atoms.foldl (fun max_CN a =>
    if max_CN < (a.bonded_atoms.length : ℤ) then (a.bonded_atoms.length : ℤ) else max_CN) 0

/-- The number of bonded-neighbor records of element index `e` in a list of records. -/
def neighborCount (bonded : List (Atom_Img K)) (e : ℕ) : ℕ :=
  bonded.countP fun img => img.element_id = (e : ℤ)

end CNdefs


section CNcell

variable {K : Type}

/-- `Cell::CN`: the coordination tensor, `n x n x (max_CN + 2)` zeros incremented once per
atom and neighbor element.  The result is `none` when an index is out of range. -/
def CN (c : Cell K) : Option (Cell K) :=
  let max_CN : ℤ := CN_max c.atoms
  let n : ℕ := c.elements.length
  let m : ℤ := max_CN + 2
  (c.atoms.foldlM (CN_atom n)
      (List.replicate n (List.replicate n (List.replicate m.toNat 0)))).map
    fun temp_cn => { c with coordination := temp_cn }

end CNcell


/-! ## Element indices and bond lengths -/

/-- The template `findInVector` on the element table: whether the symbol occurs, and the
index of its first occurrence, `-1` when it does not occur. -/
def findInVector (vecOfElements : List String) (element : String) : Bool × ℤ :=
  if vecOfElements.indexOf element < vecOfElements.length then
    (true, (vecOfElements.indexOf element : ℤ))
  else (false, -1)

section Bonds

variable {K : Type} [LinearOrderedField K]

/-- `Cell::PopulateBondLength`: every atom gets the index of its element in the element
table as `element_id`, and `bond_length[i][j]` becomes
`(Covalent_Radii(elements[i]) + Covalent_Radii(elements[j])) * Bond_Factor`.
`Covalent_Radii` is an external lookup and a parameter here. -/
def PopulateBondLength (Covalent_Radii : String → K) (c : Cell K) (Bond_Factor : K) :
    Cell K :=
  { c with
    atoms := c.atoms.map fun a =>
      { a with element_id := (findInVector c.elements a.element).2 }
    bond_length := c.elements.map fun ei =>
      c.elements.map fun ej => (Covalent_Radii ei + Covalent_Radii ej) * Bond_Factor }

/-- The entry `bond_length[a][b]` with `int` indices. -/
def bondLengthAt (bond_length : List (List K)) (a b : ℤ) : Option K :=
  (getAt bond_length a).bind fun row => getAt row b

end Bonds

/-! ## The radial distribution pass -/

/-- The values of a loop `for (i = lo; i <= hi; i++)` over `int`. -/
def intRange (lo hi : ℤ) : List ℤ :=
  (List.range (hi - lo + 1).toNat).map fun (n : ℕ) => lo + (n : ℤ)

/-- The triples `(i, j, k)` visited by the three nested loops of `Cell::RDF`, in the order
in which they are visited. -/
def offsets (i_ j_ k_ : ℤ) : List (ℤ × ℤ × ℤ) :=
  (intRange (-i_) i_).flatMap fun i =>
    (intRange (-j_) j_).flatMap fun j =>
      (intRange (-k_) k_).map fun k => (i, j, k)

/-- The opposite image offset. -/
def negOffset (off : ℤ × ℤ × ℤ) : ℤ × ℤ × ℤ := (-off.1, -off.2.1, -off.2.2)

section RDFdefs

variable {K : Type} [LinearOrderedField K]

/-- Modelled from the spec: `Atom::Distance` is not among the sources; it is the
Euclidean distance between the positions of the two atoms. -/
def Atom.Distance (m : Libm K) (a b : Atom K) : K :=
  Vec3.distance m a.position b.position

/-- Modelled from the spec: `Atom::GetImage` is not among the sources; the record is a
value copy of the identity, the element index and the position of the (image) atom. -/
def Atom.GetImage (a : Atom K) : Atom_Img K :=
  { atom_id := a.number, element_id := a.element_id, position := a.position }

/-- The atom `img_atom` of `Cell::RDF`: a copy of `atom_B` whose position is shifted by
the image offset `(i, j, k)` (lines 263-266). -/
def imageAtom (c : Cell K) (atom_B : Atom K) (off : ℤ × ℤ × ℤ) : Atom K :=
  { atom_B with position :=
      ⟨atom_B.position.x
        + ((off.1 : K) * c.v_a_.x + (off.2.1 : K) * c.v_b_.x + (off.2.2 : K) * c.v_c_.x),
       atom_B.position.y + ((off.2.1 : K) * c.v_b_.y + (off.2.2 : K) * c.v_c_.y),
       atom_B.position.z + (off.2.2 : K) * c.v_c_.z⟩ }

/-- The statement `temp_dist[x][y].push_back(d)`. -/
def push2 (t : List (List (List K))) (x y : ℤ) (d : K) : Option (List (List (List K))) :=
  modifyAt (fun row => modifyAt (fun bucket => some (bucket ++ [d])) row y) t x

/-- The bucket `t[x][y]` of a table of samples, empty outside the table. -/
def bucket (t : List (List (List K))) (x y : ℕ) : List K :=
  ((t[x]?).getD [])[y]?.getD []

/-- A table of samples has `n` rows of `n` buckets. -/
def Shape2 (n : ℕ) (t : List (List (List K))) : Prop :=
  t.length = n ∧ ∀ row ∈ t, row.length = n

/-- The body of the innermost loop of `Cell::RDF` (lines 263-271) on the state made of
`temp_dist` and the bonded-neighbor list of `atom_A`. -/
def RDF_step (m : Libm K) (c : Cell K) (atom_A atom_B : Atom K) (id_A id_B : ℤ)
    (st : List (List (List K)) × List (Atom_Img K)) (off : ℤ × ℤ × ℤ) :
    Option (List (List (List K)) × List (Atom_Img K)) :=
  let img_atom := imageAtom c atom_B off
  let aux_dist := Atom.Distance m atom_A img_atom
  (push2 st.1 id_A id_B aux_dist).bind fun temp_dist =>
    (bondLengthAt c.bond_length atom_A.element_id img_atom.element_id).map fun bl =>
      if aux_dist ≤ bl then (temp_dist, st.2 ++ [img_atom.GetImage]) else (temp_dist, st.2)

/-- The body of the loop over `atom_B` of `Cell::RDF` (lines 256-275): nothing for an
atom with the number of `atom_A`, otherwise the loops over the image offsets. -/
def RDF_inner (m : Libm K) (c : Cell K) (offs : List (ℤ × ℤ × ℤ)) (atom_A : Atom K)
    (id_A : ℤ) (st : List (List (List K)) × List (Atom_Img K)) (atom_B : Atom K) :
    Option (List (List (List K)) × List (Atom_Img K)) :=
  if atom_A.number ≠ atom_B.number then
    offs.foldlM (RDF_step m c atom_A atom_B id_A (findInVector c.elements atom_B.element).2) st
  else some st

/-- The loop over `atom_A` of `Cell::RDF` (lines 247-277).  The atoms before the iterator
(`done`) already carry their new bonded-neighbor lists; the loop over `atom_B` runs over
the whole list, and the records appended for `atom_A` are stored when it ends (the only
list node that differs meanwhile is `atom_A` itself, which that loop skips). -/
def RDF_outer (m : Libm K) (c : Cell K) (offs : List (ℤ × ℤ × ℤ)) :
    List (Atom K) → List (Atom K) → List (List (List K)) →
      Option (List (Atom K) × List (List (List K)))
  | done, [], temp_dist => some (done, temp_dist)
  | done, atom_A :: rest, temp_dist =>
    ((done ++ atom_A :: rest).foldlM
        (RDF_inner m c offs atom_A (findInVector c.elements atom_A.element).2)
        (temp_dist, atom_A.bonded_atoms)).bind fun st =>
      RDF_outer m c offs (done ++ [{ atom_A with bonded_atoms := st.2 }]) rest st.1

variable [FloorRing K]

/-- The replication counts `(i_, j_, k_)` of `Cell::RDF` (lines 229-231). -/
def replication (c : Cell K) (r_cut : K) : ℤ × ℤ × ℤ :=
  (⌈r_cut / c.v_a_.x⌉, ⌈r_cut / c.v_b_.y⌉, ⌈r_cut / c.v_c_.z⌉)

/-- The image offsets that the loops of `Cell::RDF` visit for the cutoff `r_cut`. -/
def imageOffsets (c : Cell K) (r_cut : K) : List (ℤ × ℤ × ℤ) :=
  offsets (replication c r_cut).1 (replication c r_cut).2.1 (replication c r_cut).2.2

/-- The cell on which the loops of `Cell::RDF` run: bond lengths and element indices
set, positions folded. -/
def preparedCell (Covalent_Radii : String → K) (c : Cell K) (bond_len : K) : Cell K :=
  CorrectPositions (PopulateBondLength Covalent_Radii c bond_len)

/-- `Cell::RDF`: bond lengths and element indices, folding, then all distances between
an atom and the images of the other atoms, with the bonded-neighbor records.  The result
is `none` when an index is out of range. -/
def RDF (m : Libm K) (Covalent_Radii : String → K) (c : Cell K) (r_cut bond_len : K) :
    Option (Cell K) :=
  let c1 := PopulateBondLength Covalent_Radii c bond_len
  let n := c1.elements.length
  let temp_dist : List (List (List K)) := List.replicate n (List.replicate n [])
  let c2 := CorrectPositions c1
  (RDF_outer m c2 (imageOffsets c2 r_cut) [] c2.atoms temp_dist).map fun res =>
    { c2 with atoms := res.1, distances := res.2 }

end RDFdefs


/-! ## What the radial distribution pass computes -/

section RDFspec

variable {K : Type} [LinearOrderedField K]

/-- The index `id_A` that `Cell::RDF` looks up for an atom: the position of its element
symbol in the element table (`-1` when it is not there). -/
def elementIndex (c : Cell K) (a : Atom K) : ℤ := (findInVector c.elements a.element).2

/-- The bond length that `Cell::RDF` compares a distance between `atom_A` and an image
of `atom_B` with: `bond_length[atom_A->element_id][img_atom.element_id]`. -/
def bondThreshold (c : Cell K) (atom_A atom_B : Atom K) : K :=
  (bondLengthAt c.bond_length atom_A.element_id atom_B.element_id).getD 0

/-- The distances from `atom_A` to the images of `atom_B`, one for every offset, in the
order of the loops; none when the two atoms have the same number. -/
def pairDistances (m : Libm K) (c : Cell K) (offs : List (ℤ × ℤ × ℤ))
    (atom_A atom_B : Atom K) : List K :=
  if atom_A.number ≠ atom_B.number then
    offs.map fun off => Atom.Distance m atom_A (imageAtom c atom_B off)
  else []

/-- The records of the images of `atom_B` whose distance to `atom_A` is at most the bond
length, one for every such offset, in the order of the loops; none when the two atoms
have the same number. -/
def pairBonds (m : Libm K) (c : Cell K) (offs : List (ℤ × ℤ × ℤ))
    (atom_A atom_B : Atom K) : List (Atom_Img K) :=
  if atom_A.number ≠ atom_B.number then
    (offs.filter fun off =>
      decide (Atom.Distance m atom_A (imageAtom c atom_B off) ≤ bondThreshold c atom_A atom_B)).map
      fun off => (imageAtom c atom_B off).GetImage
  else []

/-- All records that one pass appends to the bonded-neighbor list of `atom_A`. -/
def newBonds (m : Libm K) (c : Cell K) (offs : List (ℤ × ℤ × ℤ)) (atoms : List (Atom K))
    (atom_A : Atom K) : List (Atom_Img K) :=
  atoms.flatMap (pairBonds m c offs atom_A)

/-- The distances that one pass records for the atoms `as` as `atom_A`, in the bucket of
the element indices `(x, y)`. -/
def distancesFrom (m : Libm K) (c : Cell K) (offs : List (ℤ × ℤ × ℤ))
    (atoms : List (Atom K)) (x y : ℕ) (as : List (Atom K)) : List K :=
  as.flatMap fun atom_A =>
    if elementIndex c atom_A = (x : ℤ) then
      atoms.flatMap fun atom_B =>
        if elementIndex c atom_B = (y : ℤ) then pairDistances m c offs atom_A atom_B else []
    else []

/-- Two atoms that differ at most in their bonded-neighbor lists. -/
def SameCore (a b : Atom K) : Prop := a = { b with bonded_atoms := a.bonded_atoms }

end RDFspec


section BondPairs

variable {K : Type} [LinearOrderedField K]

/-- The pairs (atom, image offset) whose image is bonded to `atom_A`: for every atom `B`
of another number and every offset with the distance from `atom_A` to the image of `B` at
most the bond length, the pair of `g B` (the atom `B` as it is stored after the pass) and
the offset, in the order of the loops. -/
def bondPairs (m : Libm K) (c : Cell K) (offs : List (ℤ × ℤ × ℤ)) (g : Atom K → Atom K)
    (atoms : List (Atom K)) (atom_A : Atom K) : List (Atom K × ℤ × ℤ × ℤ) :=
  atoms.flatMap fun B =>
    if atom_A.number ≠ B.number then
      (offs.filter fun off =>
        decide (Atom.Distance m atom_A (imageAtom c B off) ≤ bondThreshold c atom_A B)).map
        fun off => (g B, off)
    else []

/-- The bonded-neighbor record of the image of an atom at an offset, for the lattice
`(va, vb, vc)`: identity, element index and the position `B + i va + j vb + k vc`. -/
def imageRecord (va vb vc : Vec3 K) (p : Atom K × ℤ × ℤ × ℤ) : Atom_Img K :=
  { atom_id := p.1.number
    element_id := p.1.element_id
    position := Vec3.add p.1.position
      (Vec3.comb va vb vc (p.2.1 : K) (p.2.2.1 : K) (p.2.2.2 : K)) }

end BondPairs


/-! ## The bond-angle pass -/

section BADdefs

variable {K : Type} [LinearOrderedField K]

/-- Modelled from the spec: `Atom::GetAngle` is not among the sources; it is the angle at
the central atom between the vectors to the two images, the arccosine of the normalized
dot product. -/
def Atom.GetAngle (m : Libm K) (MyAtom : Atom K) (atom_A atom_B : Atom_Img K) : K :=
  m.acos (Vec3.dot (Vec3.sub atom_A.position MyAtom.position)
      (Vec3.sub atom_B.position MyAtom.position)
    / (Vec3.norm m (Vec3.sub atom_A.position MyAtom.position)
        * Vec3.norm m (Vec3.sub atom_B.position MyAtom.position)))

/-- The statement `temp_bad[x][c][y].push_back(v)`. -/
def push3 (t : List (List (List (List K)))) (x c y : ℤ) (v : K) :
    Option (List (List (List (List K)))) :=
  modifyAt (fun a => modifyAt (fun b => modifyAt (fun bucket => some (bucket ++ [v])) b y) a c)
    t x

/-- The bucket `t[x][c][y]` of a tensor of samples, empty outside the tensor. -/
def bucket3 (t : List (List (List (List K)))) (x c y : ℕ) : List K :=
  (((t[x]?).getD [])[c]?.getD [])[y]?.getD []

/-- A tensor of samples has `n x n x n` buckets. -/
def ShapeCube (n : ℕ) (t : List (List (List (List K)))) : Prop :=
  t.length = n ∧ ∀ a ∈ t, a.length = n ∧ ∀ b ∈ a, b.length = n

/-- `Cell::BAD`: for every atom and every two of its bonded-neighbor records with
different atom ids, the angle at the atom (times `rad2deg` when `degree` is set) is
appended to `temp_bad[atom_A->element_id][MyAtom->element_id][atom_B->element_id]`.
The result is `none` when an index is out of range. -/
def BAD (m : Libm K) (rad2deg : K) (c : Cell K) (degree : Bool) : Option (Cell K) :=
  let factor : K := if degree then rad2deg else 1
  let n : ℕ := c.elements.length
  let temp_bad : List (List (List (List K))) :=
    List.replicate n (List.replicate n (List.replicate n []))
  (c.atoms.foldlM (fun temp_bad (MyAtom : Atom K) =>
      MyAtom.bonded_atoms.foldlM (fun temp_bad (atom_A : Atom_Img K) =>
        MyAtom.bonded_atoms.foldlM (fun temp_bad (atom_B : Atom_Img K) =>
          if atom_A.atom_id ≠ atom_B.atom_id then
            push3 temp_bad atom_A.element_id MyAtom.element_id atom_B.element_id
              (MyAtom.GetAngle m atom_A atom_B * factor)
          else some temp_bad) temp_bad) temp_bad) temp_bad).map
    fun temp_bad => { c with angles := temp_bad }

end BADdefs

/-! ## Histograms -/

section HistogramDefs

variable {K : Type}

/-- The statement `temp_hist[col][row] = v`. -/
def setEntry {α : Type} (t : List (List α)) (col row : ℤ) (v : α) : Option (List (List α)) :=
  modifyAt (fun column => modifyAt (fun _ => some v) column row) t col

/-- The loop `for (i = 0; i < m_; i++) temp_hist[0][i] = f(i)` that fills the axis. -/
def fillAxis {α : Type} (f : ℕ → α) (m_ : ℕ) (temp_hist : List (List α)) :
    Option (List (List α)) :=
  (List.range m_).foldlM (fun t (i : ℕ) => setEntry t 0 (i : ℤ) (f i)) temp_hist

/-- The statement `temp_hist[col][row]++` on a table of `double`. -/
def incr2 [Add K] [One K] (t : List (List K)) (col row : ℤ) : Option (List (List K)) :=
  modifyAt (fun column => modifyAt (fun v => some (v + 1)) column row) t col

/-- The entry `t[col][row]` of a table, `0` outside the table. -/
def entry2 [Zero K] (t : List (List K)) (col row : ℕ) : K :=
  ((t[col]?).getD [])[row]?.getD 0

/-- A table has `n_` columns of `m_` rows. -/
def ShapeTable {α : Type} (n_ m_ : ℕ) (t : List (List α)) : Prop :=
  t.length = n_ ∧ ∀ column ∈ t, column.length = m_

/-- The element pairs `(i, j)`, `i <= j < n`, in the order of the loops of
`Cell::RDF_Histogram`: the pair at position `p` has the column `p + 1`. -/
def pairColumns (n : ℕ) : List (ℕ × ℕ) :=
  (List.range n).flatMap fun i => (List.range' i (n - i)).map fun j => (i, j)

/-- The element triples `(i, j, k)`, `j <= k < n`, in the order of the loops of
`Cell::BAD_Histogram`: the triple at position `p` has the column `p + 1`. -/
def tripleColumns (n : ℕ) : List (ℕ × ℕ × ℕ) :=
  (List.range n).flatMap fun i =>
    (List.range n).flatMap fun j => (List.range' j (n - j)).map fun k => (i, j, k)

end HistogramDefs

section HistogramPasses

variable {K : Type} [LinearOrderedField K] [FloorRing K]

/-- The body of the loop over the distances of `Cell::RDF_Histogram` (lines 387-391). -/
def RDF_bin (bin_width : K) (m_ col : ℤ) (i j : ℕ) (temp_hist : List (List K)) (d : K) :
    Option (List (List K)) :=
  let row : ℤ := ⌊d / bin_width⌋
  if row < m_ then
    (incr2 temp_hist col row).bind fun t => if i ≠ j then incr2 t col row else some t
  else some temp_hist

/-- The body of the loop over `j` of `Cell::RDF_Histogram` after `col++` (lines 384-392):
the distances of the bucket `distances[i][j]` are binned into the column `col`. -/
def RDF_column (distances : List (List (List K))) (bin_width : K) (m_ col : ℤ)
    (temp_hist : List (List K)) (ij : ℕ × ℕ) : Option (List (List K)) :=
  ((getAt distances (ij.1 : ℤ)).bind fun row => getAt row (ij.2 : ℤ)).bind fun samples =>
    samples.foldlM (RDF_bin bin_width m_ col ij.1 ij.2) temp_hist

/-- The loops over the element pairs of `Cell::RDF_Histogram` (lines 379-394), on the
state made of `col` and `temp_hist`. -/
def RDF_Histogram_fill (distances : List (List (List K))) (bin_width : K) (m_ : ℤ) (n : ℕ)
    (temp_hist : List (List K)) : Option (ℤ × List (List K)) :=
  (List.range n).foldlM (fun st (i : ℕ) =>
    (List.range' i (n - i)).foldlM (fun st (j : ℕ) =>
      (RDF_column distances bin_width m_ (st.1 + 1) st.2 (i, j)).map fun t =>
        (st.1 + 1, t)) st) (0, temp_hist)

/-- The scaling of the columns `1 .. n_ - 1` by `1 / w_factor` (lines 401-408). -/
def scaleColumns (w_factor : K) (temp_hist : List (List K)) : List (List K) :=
  temp_hist.mapIdx fun (i : ℕ) column =>
    if i = 0 then column else column.map fun c => c / w_factor

/-- The loop that turns `J` into `g` (lines 435-439): every entry of a column `>= 1` and
a row `>= 1` is divided by `4 * pi * rho_0 * temp_hist[0][row] * temp_hist[0][row]`. -/
def rescaleG (pi rho_0 : K) (temp_hist : List (List K)) : List (List K) :=
  temp_hist.mapIdx fun (col : ℕ) column =>
    if col = 0 then column
    else column.mapIdx fun (row : ℕ) v =>
      if row = 0 then v
      else v / (4 * pi * rho_0 * entry2 temp_hist 0 row * entry2 temp_hist 0 row)

/-- `Cell::RDF_Histogram` without the file output: the tables `J` and `g`.  `pi` is
`constants::pi`.  The result is `none` when an index is out of range or the number of
rows is negative. -/
def RDF_Histogram (pi : K) (c : Cell K) (r_cut bin_width : K) : Option (Cell K) :=
  let n : ℕ := c.distances.length
  let m_ : ℤ := ⌈r_cut / bin_width⌉ + 1
  let n_ : ℕ := n * (n + 1) / 2 + 1
  if m_ < 0 then none
  else
    (fillAxis (fun i => (i : K) * bin_width) m_.toNat
        (List.replicate n_ (List.replicate m_.toNat 0))).bind fun t0 =>
      (RDF_Histogram_fill c.distances bin_width m_ n t0).map fun st =>
        let num_atoms : K := (c.atoms.length : K)
        let w_factor : K := num_atoms * bin_width
        let temp_hist := scaleColumns w_factor st.2
        let rho_0 : K := num_atoms / c.volume
        { c with J := temp_hist, g := rescaleG pi rho_0 temp_hist }

/-- The body of the loop over the angles of `Cell::BAD_Histogram` (lines 535-538). -/
def BAD_bin (bin_width : K) (m_ col : ℤ) (temp_hist : List (List K)) (a : K) :
    Option (List (List K)) :=
  let row : ℤ := ⌊a / bin_width⌋
  if row < m_ then incr2 temp_hist col row else some temp_hist

/-- The loop `for (h = 0; h < m_; h++) temp_hist[col][h] /= 2.0`. -/
def halveColumn (temp_hist : List (List K)) (col : ℤ) : Option (List (List K)) :=
  modifyAt (fun column => some (column.map fun v => v / 2)) temp_hist col

/-- The body of the loop over `k` of `Cell::BAD_Histogram` after `col++` (lines 532-544):
the angles of the bucket `angles[j][i][k]` are binned into the column `col`, which is
then halved when `i == j` and `i == k`. -/
def BAD_column (angles : List (List (List (List K)))) (bin_width : K) (m_ col : ℤ)
    (temp_hist : List (List K)) (ijk : ℕ × ℕ × ℕ) : Option (List (List K)) :=
  (((getAt angles (ijk.2.1 : ℤ)).bind fun a => getAt a (ijk.1 : ℤ)).bind fun b =>
      getAt b (ijk.2.2 : ℤ)).bind fun samples =>
    (samples.foldlM (BAD_bin bin_width m_ col) temp_hist).bind fun t =>
      if ijk.1 = ijk.2.1 ∧ ijk.1 = ijk.2.2 then halveColumn t col else some t

/-- The loops over the element triples of `Cell::BAD_Histogram` (lines 524-547), on the
state made of `col` and `temp_hist`. -/
def BAD_Histogram_fill (angles : List (List (List (List K)))) (bin_width : K) (m_ : ℤ)
    (n : ℕ) (temp_hist : List (List K)) : Option (ℤ × List (List K)) :=
  (List.range n).foldlM (fun st (i : ℕ) =>
    (List.range n).foldlM (fun st (j : ℕ) =>
      (List.range' j (n - j)).foldlM (fun st (k : ℕ) =>
        (BAD_column angles bin_width m_ (st.1 + 1) st.2 (i, j, k)).map fun t =>
          (st.1 + 1, t)) st) st) (0, temp_hist)

/-- `Cell::BAD_Histogram` without the file output: the table `g_theta` (the argument
`theta_cut` is not used by the source either).  The result is `none` when an index is out
of range. -/
def BAD_Histogram (c : Cell K) (_theta_cut bin_width : K) : Option (Cell K) :=
  let n : ℕ := c.elements.length
  let n_ : ℕ := 1 + n * n * (n + 1) / 2
  let m_ : ℤ := 181
  (fillAxis (fun i => (i : K) * bin_width) 181
      (List.replicate n_ (List.replicate 181 0))).bind fun t0 =>
    (BAD_Histogram_fill c.angles bin_width m_ n t0).map fun st => { c with g_theta := st.2 }

end HistogramPasses

/-- `Cell::CN_Histogram` without the file output: the table that is written, whose number
of rows is read from `coordination[0][0]`.  The result is `none` when an index is out of
range. -/
def CN_Histogram {K : Type} (c : Cell K) : Option (List (List ℤ)) :=
  let n : ℕ := c.elements.length
  let n_ : ℕ := n * n + 1
  ((getAt c.coordination 0).bind fun row => getAt row 0).bind fun first =>
    let m_ : ℕ := first.length
    (fillAxis (fun i => (i : ℤ)) m_ (List.replicate n_ (List.replicate m_ 0))).bind fun t0 =>
      ((List.range n).foldlM (fun st (i : ℕ) =>
          (List.range n).foldlM (fun st (j : ℕ) =>
            ((getAt c.coordination (i : ℤ)).bind fun row => getAt row (j : ℤ)).bind
              fun column =>
                (modifyAt (fun _ => some column) st.2 st.1).map fun t => (st.1 + 1, t)) st)
        ((1 : ℤ), t0)).map fun st => st.2

/-! ## Angle samples and neighbor pairs -/

/-- The triples `(MyAtom, atom_A, atom_B)` in the order in which the three loops of
`Cell::BAD` (lines 344-354) visit them. -/
def angleEvents {K : Type} (atoms : List (Atom K)) :
    List (Atom K × Atom_Img K × Atom_Img K) :=
  atoms.flatMap fun MyAtom =>
    MyAtom.bonded_atoms.flatMap fun atom_A =>
      MyAtom.bonded_atoms.map fun atom_B => (MyAtom, atom_A, atom_B)

section BADsteps

variable {K : Type} [LinearOrderedField K]

/-- The body of the innermost loop of `Cell::BAD` (lines 356-359) on one triple. -/
def BAD_step (m : Libm K) (factor : K) (temp_bad : List (List (List (List K))))
    (e : Atom K × Atom_Img K × Atom_Img K) : Option (List (List (List (List K)))) :=
  if e.2.1.atom_id ≠ e.2.2.atom_id then
    push3 temp_bad e.2.1.element_id e.1.element_id e.2.2.element_id
      (e.1.GetAngle m e.2.1 e.2.2 * factor)
  else some temp_bad

end BADsteps

/-- The ordered pairs of entries of a list, in the order of two nested loops over it;
an entry is also paired with itself. -/
def orderedPairs {α : Type} (l : List α) : List (α × α) :=
  l.flatMap fun x => l.map fun y => (x, y)

/-- The unordered pairs of occurrences in a list: every two positions `a < b` once. -/
def unorderedPairs {α : Type} : List α → List (α × α)
  | [] => []
  | x :: rest => (rest.map fun y => (x, y)) ++ unorderedPairs rest

section AngleCounts

variable {K : Type} [LinearOrderedField K] [FloorRing K]

/-- The count that the spec gives for the column `(i, j, k)` and the row `r` of the angle
histogram: the number of unordered pairs of bonded-neighbor records with different atom
ids of the atoms of element `i`, one record of element `j` and the other of element `k`,
whose angle `a` (scaled by `factor`) has `floor(a / w) = r`. -/
def unorderedAngleCount (m : Libm K) (factor w : K) (atoms : List (Atom K))
    (i j k r : ℕ) : ℕ :=
  ((atoms.filter fun M => decide (M.element_id = (i : ℤ))).map fun M =>
    (unorderedPairs M.bonded_atoms).countP fun p =>
      decide (p.1.atom_id ≠ p.2.atom_id ∧
        ((p.1.element_id = (j : ℤ) ∧ p.2.element_id = (k : ℤ)) ∨
          (p.1.element_id = (k : ℤ) ∧ p.2.element_id = (j : ℤ))) ∧
        ⌊M.GetAngle m p.1 p.2 * factor / w⌋ = (r : ℤ))).sum

end AngleCounts

/-! ## Folding: scalar facts -/

section FoldEps

variable {K : Type} [LinearOrderedField K]

theorem foldEps_pos : (0 : K) < foldEps := by
  unfold foldEps; positivity

theorem foldEps_lt_one : (foldEps : K) < 1 := by
  unfold foldEps
  rw [div_lt_one (by positivity)]
  norm_num

end FoldEps

section FoldScalar

variable {K : Type} [LinearOrderedField K] [FloorRing K]

theorem foldShift_of_nonneg {i : K} (h : 0 ≤ i) : foldShift i = ⌊i⌋ := by
  have h1 : i ≥ -foldEps := le_trans (neg_nonpos.mpr foldEps_pos.le) h
  simp [foldShift, trunc, h1, h]

theorem foldShift_of_small {i : K} (h1 : -foldEps ≤ i) (h2 : i < 0) : foldShift i = 0 := by
  have h3 : ¬ (0 ≤ i) := not_le.mpr h2
  have h4 : ⌈i⌉ = 0 := by
    rw [Int.ceil_eq_iff]
    constructor
    · have := foldEps_lt_one (K := K)
      push_cast
      linarith
    · push_cast
      exact h2.le
  simp [foldShift, trunc, h1, h3, h4]

theorem foldShift_of_neg {i : K} (h : i < -foldEps) : foldShift i = ⌈i⌉ - 1 := by
  have h1 : ¬ (i ≥ -foldEps) := not_le.mpr h
  have h3 : ¬ (0 ≤ i) := not_le.mpr (lt_trans h (neg_neg_of_pos foldEps_pos))
  simp [foldShift, trunc, h1, h3]

/-- The folded coordinate always lies in `[-eps, 1]`. -/
theorem sub_foldShift_mem (i : K) :
    -foldEps ≤ i - (foldShift i : K) ∧ i - (foldShift i : K) ≤ 1 := by
  rcases le_or_lt 0 i with h | h
  · rw [foldShift_of_nonneg h]
    have h1 := Int.floor_le i
    have h2 := Int.lt_floor_add_one i
    have h3 := foldEps_pos (K := K)
    constructor <;> linarith
  · rcases le_or_lt (-foldEps) i with h' | h'
    · rw [foldShift_of_small h' h]
      simp only [Int.cast_zero, sub_zero]
      exact ⟨h', by linarith⟩
    · rw [foldShift_of_neg h']
      have h1 := Int.le_ceil i
      have h2 := Int.ceil_lt_add_one i
      have h3 := foldEps_pos (K := K)
      push_cast
      constructor <;> linarith

/-- Outside the tolerance window `[-eps, 0)` the folded coordinate is non-negative. -/
theorem sub_foldShift_nonneg {i : K} (h : ¬ (-foldEps ≤ i ∧ i < 0)) :
    0 ≤ i - (foldShift i : K) := by
  rcases le_or_lt 0 i with h0 | h0
  · rw [foldShift_of_nonneg h0]
    have h1 := Int.floor_le i
    linarith
  · have h' : i < -foldEps := by
      by_contra hc
      exact h ⟨not_lt.mp hc, h0⟩
    rw [foldShift_of_neg h']
    have h2 := Int.ceil_lt_add_one i
    push_cast
    linarith

/-- Unless the coordinate is a negative integer, the folded coordinate is below `1`. -/
theorem sub_foldShift_lt_one {i : K} (h : ¬ ∃ n : ℤ, n < 0 ∧ i = (n : K)) :
    i - (foldShift i : K) < 1 := by
  rcases le_or_lt 0 i with h0 | h0
  · rw [foldShift_of_nonneg h0]
    have h2 := Int.lt_floor_add_one i
    linarith
  · rcases le_or_lt (-foldEps) i with h' | h'
    · rw [foldShift_of_small h' h0]
      simp only [Int.cast_zero, sub_zero]
      linarith
    · rw [foldShift_of_neg h']
      have h1 := Int.le_ceil i
      have hne : i ≠ (⌈i⌉ : K) := by
        intro heq
        apply h
        refine ⟨⌈i⌉, ?_, heq⟩
        have : ((⌈i⌉ : ℤ) : K) < 0 := by rw [← heq]; exact h0
        exact_mod_cast this
      have hlt : i < (⌈i⌉ : K) := lt_of_le_of_ne h1 hne
      push_cast
      linarith

/-- A coordinate already in `[-eps, 1)` is left alone. -/
theorem foldShift_eq_zero {i : K} (h1 : -foldEps ≤ i) (h2 : i < 1) : foldShift i = 0 := by
  rcases le_or_lt 0 i with h0 | h0
  · rw [foldShift_of_nonneg h0, Int.floor_eq_iff]
    push_cast
    exact ⟨h0, by linarith⟩
  · exact foldShift_of_small h1 h0

end FoldScalar

/-! ## Folding: vectors -/

section FoldVector

variable {K : Type} [LinearOrderedField K]

theorem Vec3.sub_comb (va vb vc : Vec3 K) (i j k a b c : K) :
    Vec3.sub (Vec3.comb va vb vc i j k) (Vec3.comb va vb vc a b c)
      = Vec3.comb va vb vc (i - a) (j - b) (k - c) := by
  ext <;> simp only [Vec3.sub, Vec3.comb, Vec3.add, Vec3.smul] <;> ring

/-- For a lattice in the triangular convention the coordinates computed by the folding
loop are the coefficients of the position in the lattice basis. -/
theorem fractional_comb (va vb vc : Vec3 K) (hax : va.x ≠ 0) (hay : va.y = 0)
    (haz : va.z = 0) (hby : vb.y ≠ 0) (hbz : vb.z = 0) (hcz : vc.z ≠ 0) (i j k : K) :
    fractional va vb vc (Vec3.comb va vb vc i j k) = (i, j, k) := by
  have hk : (i * va.z + j * vb.z + k * vc.z) / vc.z = k := by
    rw [haz, hbz]; field_simp
  have hj : (i * va.y + j * vb.y + k * vc.y - k * vc.y) / vb.y = j := by
    rw [hay]; field_simp
  have hi : (i * va.x + j * vb.x + k * vc.x - k * vc.x - j * vb.x) / va.x = i := by
    field_simp
  simp only [fractional, Vec3.comb, Vec3.add, Vec3.smul, Vec3.sub, hk, hj, hi]

theorem comb_fractional (va vb vc : Vec3 K) (hax : va.x ≠ 0) (hay : va.y = 0)
    (haz : va.z = 0) (hby : vb.y ≠ 0) (hbz : vb.z = 0) (hcz : vc.z ≠ 0) (p : Vec3 K) :
    Vec3.comb va vb vc (fractional va vb vc p).1 (fractional va vb vc p).2.1
      (fractional va vb vc p).2.2 = p := by
  ext
  · simp only [fractional, Vec3.comb, Vec3.add, Vec3.smul, Vec3.sub]
    field_simp
    ring
  · simp only [fractional, Vec3.comb, Vec3.add, Vec3.smul, Vec3.sub, hay]
    field_simp
    ring
  · simp only [fractional, Vec3.comb, Vec3.add, Vec3.smul, Vec3.sub, haz, hbz]
    field_simp

/-- The coefficients of a vector in a triangular lattice basis are unique. -/
theorem comb_injective (va vb vc : Vec3 K) (hax : va.x ≠ 0) (hay : va.y = 0)
    (haz : va.z = 0) (hby : vb.y ≠ 0) (hbz : vb.z = 0) (hcz : vc.z ≠ 0)
    {i j k a b c : K} (h : Vec3.comb va vb vc i j k = Vec3.comb va vb vc a b c) :
    i = a ∧ j = b ∧ k = c := by
  have h1 := fractional_comb va vb vc hax hay haz hby hbz hcz i j k
  have h2 := fractional_comb va vb vc hax hay haz hby hbz hcz a b c
  rw [h, h2] at h1
  simp only [Prod.mk.injEq] at h1
  exact ⟨h1.1.symm, h1.2.1.symm, h1.2.2.symm⟩

end FoldVector

section FoldVectorShift

variable {K : Type} [LinearOrderedField K] [FloorRing K]

/-- The folded position, in lattice coordinates. -/
theorem foldPosition_eq_comb (va vb vc : Vec3 K) (hax : va.x ≠ 0) (hay : va.y = 0)
    (haz : va.z = 0) (hby : vb.y ≠ 0) (hbz : vb.z = 0) (hcz : vc.z ≠ 0) (p : Vec3 K) :
    foldPosition va vb vc p = Vec3.comb va vb vc
      ((fractional va vb vc p).1 - (foldShift (fractional va vb vc p).1 : K))
      ((fractional va vb vc p).2.1 - (foldShift (fractional va vb vc p).2.1 : K))
      ((fractional va vb vc p).2.2 - (foldShift (fractional va vb vc p).2.2 : K)) := by
  rw [← Vec3.sub_comb, comb_fractional va vb vc hax hay haz hby hbz hcz p]
  rfl

/-- The fractional coordinates of the folded position. -/
theorem fractional_foldPosition (va vb vc : Vec3 K) (hax : va.x ≠ 0) (hay : va.y = 0)
    (haz : va.z = 0) (hby : vb.y ≠ 0) (hbz : vb.z = 0) (hcz : vc.z ≠ 0) (p : Vec3 K) :
    fractional va vb vc (foldPosition va vb vc p) =
      ((fractional va vb vc p).1 - (foldShift (fractional va vb vc p).1 : K),
       (fractional va vb vc p).2.1 - (foldShift (fractional va vb vc p).2.1 : K),
       (fractional va vb vc p).2.2 - (foldShift (fractional va vb vc p).2.2 : K)) := by
  rw [foldPosition_eq_comb va vb vc hax hay haz hby hbz hcz p,
    fractional_comb va vb vc hax hay haz hby hbz hcz]

/-- A position whose fractional coordinates all lie in `[-eps, 1)` is a fixed point of
the folding. -/
theorem foldPosition_fixed (va vb vc p : Vec3 K)
    (h1 : -foldEps ≤ (fractional va vb vc p).1 ∧ (fractional va vb vc p).1 < 1)
    (h2 : -foldEps ≤ (fractional va vb vc p).2.1 ∧ (fractional va vb vc p).2.1 < 1)
    (h3 : -foldEps ≤ (fractional va vb vc p).2.2 ∧ (fractional va vb vc p).2.2 < 1) :
    foldPosition va vb vc p = p := by
  simp only [foldPosition, foldShift_eq_zero h1.1 h1.2, foldShift_eq_zero h2.1 h2.2,
    foldShift_eq_zero h3.1 h3.2]
  ext <;> simp [Vec3.sub, Vec3.comb, Vec3.add, Vec3.smul]

end FoldVectorShift

/-! ## Folding: the claims -/

section FoldClaims

variable {K : Type} [LinearOrderedField K] [FloorRing K]

/-- On an integer the folding takes off the integer itself when it is non-negative and
one less than it when it is negative. -/
theorem foldShift_intCast (n : ℤ) :
    foldShift (n : K) = if 0 ≤ n then n else n - 1 := by
  split_ifs with h
  · rw [foldShift_of_nonneg (by exact_mod_cast h), Int.floor_intCast]
  · have h1 : (n : K) ≤ -1 := by
      have : n ≤ -1 := by omega
      exact_mod_cast this
    have h2 : (n : K) < -foldEps := by
      have := foldEps_lt_one (K := K)
      linarith
    rw [foldShift_of_neg h2, Int.ceil_intCast]

theorem CorrectPositions_atoms_getElem? (c : Cell K) (n : ℕ) :
    (CorrectPositions c).atoms[n]? = (c.atoms[n]?).map fun a =>
      { a with position := foldPosition c.v_a_ c.v_b_ c.v_c_ a.position } := by
  simp [CorrectPositions]

/-- C1 (amended): for a lattice in the triangular convention with positive `v_a[0]`,
`v_b[1]`, `v_c[2]` and an atom none of whose fractional coordinates is a negative
integer, the position stored by `Cell::CorrectPositions` has unique fractional
coordinates, each in `[-1e-15, 1)`; a coordinate is in `[0, 1)` unless the coordinate it
comes from lies in the tolerance window `[-1e-15, 0)`. -/
theorem CorrectPositions_fractional_range (c : Cell K)
    (hax : 0 < c.v_a_.x) (hay : c.v_a_.y = 0) (haz : c.v_a_.z = 0)
    (hby : 0 < c.v_b_.y) (hbz : c.v_b_.z = 0) (hcz : 0 < c.v_c_.z)
    (n : ℕ) (a : Atom K) (ha : c.atoms[n]? = some a)
    (hi : ¬ ∃ m : ℤ, m < 0 ∧ (fractional c.v_a_ c.v_b_ c.v_c_ a.position).1 = (m : K))
    (hj : ¬ ∃ m : ℤ, m < 0 ∧ (fractional c.v_a_ c.v_b_ c.v_c_ a.position).2.1 = (m : K))
    (hk : ¬ ∃ m : ℤ, m < 0 ∧ (fractional c.v_a_ c.v_b_ c.v_c_ a.position).2.2 = (m : K)) :
    ∃ a' : Atom K, (CorrectPositions c).atoms[n]? = some a' ∧
      ∃ i' j' k' : K,
        a'.position = Vec3.comb c.v_a_ c.v_b_ c.v_c_ i' j' k' ∧
        (∀ x y z : K, a'.position = Vec3.comb c.v_a_ c.v_b_ c.v_c_ x y z →
          x = i' ∧ y = j' ∧ z = k') ∧
        (-foldEps ≤ i' ∧ i' < 1) ∧ (-foldEps ≤ j' ∧ j' < 1) ∧ (-foldEps ≤ k' ∧ k' < 1) ∧
        (¬ (-foldEps ≤ (fractional c.v_a_ c.v_b_ c.v_c_ a.position).1 ∧
            (fractional c.v_a_ c.v_b_ c.v_c_ a.position).1 < 0) → 0 ≤ i') ∧
        (¬ (-foldEps ≤ (fractional c.v_a_ c.v_b_ c.v_c_ a.position).2.1 ∧
            (fractional c.v_a_ c.v_b_ c.v_c_ a.position).2.1 < 0) → 0 ≤ j') ∧
        (¬ (-foldEps ≤ (fractional c.v_a_ c.v_b_ c.v_c_ a.position).2.2 ∧
            (fractional c.v_a_ c.v_b_ c.v_c_ a.position).2.2 < 0) → 0 ≤ k') := by
  have h := foldPosition_eq_comb c.v_a_ c.v_b_ c.v_c_ hax.ne' hay haz hby.ne' hbz hcz.ne'
    a.position
  refine ⟨{ a with position := foldPosition c.v_a_ c.v_b_ c.v_c_ a.position }, ?_,
    _, _, _, h, ?_, ?_, ?_, ?_, ?_, ?_, ?_⟩
  · rw [CorrectPositions_atoms_getElem?, ha]; rfl
  · intro x y z hxyz
    have hxyz' : Vec3.comb c.v_a_ c.v_b_ c.v_c_ x y z = _ := hxyz.symm.trans h
    exact comb_injective c.v_a_ c.v_b_ c.v_c_ hax.ne' hay haz hby.ne' hbz hcz.ne' hxyz'
  · exact ⟨(sub_foldShift_mem _).1, sub_foldShift_lt_one hi⟩
  · exact ⟨(sub_foldShift_mem _).1, sub_foldShift_lt_one hj⟩
  · exact ⟨(sub_foldShift_mem _).1, sub_foldShift_lt_one hk⟩
  · exact sub_foldShift_nonneg
  · exact sub_foldShift_nonneg
  · exact sub_foldShift_nonneg

/-- Folding twice is folding once for a position none of whose fractional coordinates
is a negative integer. -/
theorem foldPosition_idempotent (va vb vc : Vec3 K) (hax : va.x ≠ 0) (hay : va.y = 0)
    (haz : va.z = 0) (hby : vb.y ≠ 0) (hbz : vb.z = 0) (hcz : vc.z ≠ 0) (p : Vec3 K)
    (hi : ¬ ∃ m : ℤ, m < 0 ∧ (fractional va vb vc p).1 = (m : K))
    (hj : ¬ ∃ m : ℤ, m < 0 ∧ (fractional va vb vc p).2.1 = (m : K))
    (hk : ¬ ∃ m : ℤ, m < 0 ∧ (fractional va vb vc p).2.2 = (m : K)) :
    foldPosition va vb vc (foldPosition va vb vc p) = foldPosition va vb vc p := by
  apply foldPosition_fixed <;>
    rw [fractional_foldPosition va vb vc hax hay haz hby hbz hcz p]
  · exact ⟨(sub_foldShift_mem _).1, sub_foldShift_lt_one hi⟩
  · exact ⟨(sub_foldShift_mem _).1, sub_foldShift_lt_one hj⟩
  · exact ⟨(sub_foldShift_mem _).1, sub_foldShift_lt_one hk⟩

end FoldClaims

theorem foldShift_neg_two : foldShift (-2 : ℚ) = -3 := by
  have h := foldShift_intCast (K := ℚ) (-2)
  simpa using h

theorem foldShift_one : foldShift (1 : ℚ) = 1 := by
  have h := foldShift_intCast (K := ℚ) 1
  simpa using h

theorem foldShift_zero : foldShift (0 : ℚ) = 0 := by
  have h := foldShift_intCast (K := ℚ) 0
  simpa using h

theorem foldShift_tiny : foldShift (-1 / 2 ^ 60 : ℚ) = 0 := by
  apply foldShift_of_small
  · unfold foldEps; norm_num
  · norm_num

/-- C1, witness: the folding of `(-7/2, 9/4, -11/3)` in the skewed rational lattice
`v_a = (1, 0, 0)`, `v_b = (1/2, 1, 0)`, `v_c = (0, 0, 1)`: the fractional coordinates are
`(-37/8, 9/4, -11/3)`, the shifts `(-5, 2, -4)`, and the stored position is
`(1/2, 1/4, 1/3)`, with the fractional coordinates `(3/8, 1/4, 1/3)`. -/
theorem CorrectPositions_fractional_range_witness :
    ∃ a' : Atom ℚ, (CorrectPositions
        { cubicCell ℚ [mkAtom "Si" 0 ⟨-7 / 2, 9 / 4, -11 / 3⟩] ["Si"] with
          v_b_ := ⟨1 / 2, 1, 0⟩ }).atoms[0]? = some a' ∧
      a'.position = ⟨1 / 2, 1 / 4, 1 / 3⟩ ∧
      ∃ i' j' k' : ℚ,
        a'.position = Vec3.comb ⟨1, 0, 0⟩ ⟨1 / 2, 1, 0⟩ ⟨0, 0, 1⟩ i' j' k' ∧
        (∀ x y z : ℚ, a'.position = Vec3.comb ⟨1, 0, 0⟩ ⟨1 / 2, 1, 0⟩ ⟨0, 0, 1⟩ x y z →
          x = i' ∧ y = j' ∧ z = k') ∧
        (-foldEps ≤ i' ∧ i' < 1) ∧ (-foldEps ≤ j' ∧ j' < 1) ∧ (-foldEps ≤ k' ∧ k' < 1) ∧
        (¬ (-foldEps ≤ (fractional (⟨1, 0, 0⟩ : Vec3 ℚ) ⟨1 / 2, 1, 0⟩ ⟨0, 0, 1⟩
              ⟨-7 / 2, 9 / 4, -11 / 3⟩).1 ∧
            (fractional (⟨1, 0, 0⟩ : Vec3 ℚ) ⟨1 / 2, 1, 0⟩ ⟨0, 0, 1⟩
              ⟨-7 / 2, 9 / 4, -11 / 3⟩).1 < 0) → 0 ≤ i') ∧
        (¬ (-foldEps ≤ (fractional (⟨1, 0, 0⟩ : Vec3 ℚ) ⟨1 / 2, 1, 0⟩ ⟨0, 0, 1⟩
              ⟨-7 / 2, 9 / 4, -11 / 3⟩).2.1 ∧
            (fractional (⟨1, 0, 0⟩ : Vec3 ℚ) ⟨1 / 2, 1, 0⟩ ⟨0, 0, 1⟩
              ⟨-7 / 2, 9 / 4, -11 / 3⟩).2.1 < 0) → 0 ≤ j') ∧
        (¬ (-foldEps ≤ (fractional (⟨1, 0, 0⟩ : Vec3 ℚ) ⟨1 / 2, 1, 0⟩ ⟨0, 0, 1⟩
              ⟨-7 / 2, 9 / 4, -11 / 3⟩).2.2 ∧
            (fractional (⟨1, 0, 0⟩ : Vec3 ℚ) ⟨1 / 2, 1, 0⟩ ⟨0, 0, 1⟩
              ⟨-7 / 2, 9 / 4, -11 / 3⟩).2.2 < 0) → 0 ≤ k') := by
  obtain ⟨a', h1, h2⟩ := CorrectPositions_fractional_range
    { cubicCell ℚ [mkAtom "Si" 0 ⟨-7 / 2, 9 / 4, -11 / 3⟩] ["Si"] with v_b_ := ⟨1 / 2, 1, 0⟩ }
    (by norm_num [cubicCell]) rfl rfl (by norm_num) rfl (by norm_num [cubicCell])
    0 (mkAtom "Si" 0 ⟨-7 / 2, 9 / 4, -11 / 3⟩) rfl
    (by
      rintro ⟨m, _, h⟩
      have h8 : (8 : ℚ) * (m : ℚ) = -37 := by
        rw [← h]; norm_num [fractional, cubicCell, mkAtom, Vec3.sub, Vec3.smul]
      have h8' : 8 * m = -37 := by exact_mod_cast h8
      omega)
    (by
      rintro ⟨m, hm, h⟩
      have h0 : (0 : ℚ) ≤ (m : ℚ) := by
        rw [← h]; norm_num [fractional, cubicCell, mkAtom, Vec3.sub, Vec3.smul]
      have : (m : ℚ) < 0 := by exact_mod_cast hm
      linarith)
    (by
      rintro ⟨m, _, h⟩
      have h3 : (3 : ℚ) * (m : ℚ) = -11 := by
        rw [← h]; norm_num [fractional, cubicCell, mkAtom, Vec3.sub, Vec3.smul]
      have h3' : 3 * m = -11 := by exact_mod_cast h3
      omega)
  have hval : (CorrectPositions
      { cubicCell ℚ [mkAtom "Si" 0 ⟨-7 / 2, 9 / 4, -11 / 3⟩] ["Si"] with
        v_b_ := ⟨1 / 2, 1, 0⟩ }).atoms[0]?
      = some ({ mkAtom "Si" 0 (⟨-7 / 2, 9 / 4, -11 / 3⟩ : Vec3 ℚ) with
          position := ⟨1 / 2, 1 / 4, 1 / 3⟩ } : Atom ℚ) := by
    decide!
  have ha' : a' = ({ mkAtom "Si" 0 (⟨-7 / 2, 9 / 4, -11 / 3⟩ : Vec3 ℚ) with
      position := ⟨1 / 2, 1 / 4, 1 / 3⟩ } : Atom ℚ) :=
    Option.some.inj (h1.symm.trans hval)
  exact ⟨a', h1, by rw [ha'], h2⟩

/-- C1, counterexample: in the cubic cell of edge `1`, `Cell::CorrectPositions` leaves an
atom at `(-2^-60, 0, 0)` where it is, with the negative fractional coordinate `-2^-60`,
and moves an atom at `(-2, 0, 0)` to `(1, 0, 0)`, with the fractional coordinate `1`:
neither coordinate is in `[0, 1)`. -/
theorem CorrectPositions_outside_unit_interval :
    (CorrectPositions (cubicCell ℚ
        [mkAtom "Si" 0 ⟨-1 / 2 ^ 60, 0, 0⟩, mkAtom "Si" 1 ⟨-2, 0, 0⟩] ["Si"])).atoms.map
          (fun a => a.position)
      = [Vec3.comb ⟨1, 0, 0⟩ ⟨0, 1, 0⟩ ⟨0, 0, 1⟩ (-1 / 2 ^ 60) 0 0,
         Vec3.comb ⟨1, 0, 0⟩ ⟨0, 1, 0⟩ ⟨0, 0, 1⟩ 1 0 0] ∧
      ¬ (0 ≤ (-1 / 2 ^ 60 : ℚ)) ∧ ¬ ((1 : ℚ) < 1) := by
  refine ⟨?_, by norm_num, by norm_num⟩
  simp only [CorrectPositions, cubicCell, mkAtom, List.map_cons, List.map_nil, foldPosition,
    fractional, Vec3.sub, Vec3.smul, Vec3.comb, Vec3.add, mul_zero, sub_zero, div_one,
    zero_div, mul_one, foldShift_neg_two, foldShift_zero, foldShift_tiny]
  norm_num

/-- C2, the code at the failing input: in the cubic cell of edge `1` an atom at
`(-2, 0, 0)` is folded to `(1, 0, 0)`, and folding again moves it to `(0, 0, 0)`, so the
second application of `Cell::CorrectPositions` changes the stored position. -/
theorem CorrectPositions_twice_differs :
    (CorrectPositions (cubicCell ℚ [mkAtom "Si" 0 ⟨-2, 0, 0⟩] ["Si"])).atoms.map
        (fun a => a.position) = [⟨1, 0, 0⟩] ∧
    (CorrectPositions (CorrectPositions
        (cubicCell ℚ [mkAtom "Si" 0 ⟨-2, 0, 0⟩] ["Si"]))).atoms.map
        (fun a => a.position) = [⟨0, 0, 0⟩] ∧
    CorrectPositions (CorrectPositions (cubicCell ℚ [mkAtom "Si" 0 ⟨-2, 0, 0⟩] ["Si"]))
      ≠ CorrectPositions (cubicCell ℚ [mkAtom "Si" 0 ⟨-2, 0, 0⟩] ["Si"]) := by
  have h1 : (CorrectPositions (cubicCell ℚ [mkAtom "Si" 0 ⟨-2, 0, 0⟩] ["Si"])).atoms.map
        (fun a => a.position) = [⟨1, 0, 0⟩] := by
    simp only [CorrectPositions, cubicCell, mkAtom, List.map_cons, List.map_nil,
      foldPosition, fractional, Vec3.sub, Vec3.smul, Vec3.comb, Vec3.add, mul_zero,
      sub_zero, div_one, zero_div, mul_one, foldShift_neg_two, foldShift_zero]
    norm_num
  have h2 : (CorrectPositions (CorrectPositions
        (cubicCell ℚ [mkAtom "Si" 0 ⟨-2, 0, 0⟩] ["Si"]))).atoms.map
        (fun a => a.position) = [⟨0, 0, 0⟩] := by
    simp only [CorrectPositions, cubicCell, mkAtom, List.map_cons, List.map_nil,
      foldPosition, fractional, Vec3.sub, Vec3.smul, Vec3.comb, Vec3.add, mul_zero,
      sub_zero, div_one, zero_div, mul_one, foldShift_neg_two, foldShift_zero]
    norm_num [foldShift_one, foldShift_zero]
  refine ⟨h1, h2, ?_⟩
  intro h
  rw [h, h1] at h2
  simp at h2


/-! ## The lattice vectors -/

theorem norm_sq_v_c (C ca cb cg sg W s : ℝ) (hsg : sg ≠ 0) (hsc : sg ^ 2 + cg ^ 2 = 1)
    (hW : W = 1 - ca ^ 2 - cb ^ 2 - cg ^ 2 + 2 * ca * cb * cg) (hs : s ^ 2 = W) :
    C * cb * (C * cb) + C * (ca - cb * cg) / sg * (C * (ca - cb * cg) / sg)
      + C * s / sg * (C * s / sg) = C ^ 2 := by
  subst hW
  field_simp
  linear_combination (C ^ 2 * (cb ^ 2 - 1)) * hsc + C ^ 2 * hs

/-- C5: with the real `sqrt`, `cos` and `sin`, for non-negative lengths `A`, `B`, `C` and
angles with `sin(gamma) > 0` and a non-negative radicand, `Cell::SetLatticeVectors`
produces `v_a = (A, 0, 0)`, a `v_b` with zero `z` entry, `|v_a| = A`, `|v_b| = B`,
`|v_c| = C`, `v_b . v_c = B C cos(alpha)`, `v_a . v_c = A C cos(beta)` and
`v_a . v_b = A B cos(gamma)`. -/
theorem SetLatticeVectors_realises_parameters (deg2rad : ℝ) (c : Cell ℝ)
    (hA : 0 ≤ c.lattice_parameters.A) (hB : 0 ≤ c.lattice_parameters.B)
    (hC : 0 ≤ c.lattice_parameters.C)
    (hsin : 0 < Real.sin (c.lattice_parameters.gamma * deg2rad))
    (hrad : 0 ≤ 1 - Real.cos (c.lattice_parameters.alpha * deg2rad) ^ 2
        - Real.cos (c.lattice_parameters.beta * deg2rad) ^ 2
        - Real.cos (c.lattice_parameters.gamma * deg2rad) ^ 2
        + 2 * Real.cos (c.lattice_parameters.alpha * deg2rad)
            * Real.cos (c.lattice_parameters.beta * deg2rad)
            * Real.cos (c.lattice_parameters.gamma * deg2rad)) :
    (SetLatticeVectors ⟨Real.sqrt, Real.cos, Real.sin, Real.arccos⟩ deg2rad c).v_a_
        = ⟨c.lattice_parameters.A, 0, 0⟩ ∧
    (SetLatticeVectors ⟨Real.sqrt, Real.cos, Real.sin, Real.arccos⟩ deg2rad c).v_b_.z = 0 ∧
    Vec3.norm ⟨Real.sqrt, Real.cos, Real.sin, Real.arccos⟩
        (SetLatticeVectors ⟨Real.sqrt, Real.cos, Real.sin, Real.arccos⟩ deg2rad c).v_a_
      = c.lattice_parameters.A ∧
    Vec3.norm ⟨Real.sqrt, Real.cos, Real.sin, Real.arccos⟩
        (SetLatticeVectors ⟨Real.sqrt, Real.cos, Real.sin, Real.arccos⟩ deg2rad c).v_b_
      = c.lattice_parameters.B ∧
    Vec3.norm ⟨Real.sqrt, Real.cos, Real.sin, Real.arccos⟩
        (SetLatticeVectors ⟨Real.sqrt, Real.cos, Real.sin, Real.arccos⟩ deg2rad c).v_c_
      = c.lattice_parameters.C ∧
    Vec3.dot (SetLatticeVectors ⟨Real.sqrt, Real.cos, Real.sin, Real.arccos⟩ deg2rad c).v_b_
        (SetLatticeVectors ⟨Real.sqrt, Real.cos, Real.sin, Real.arccos⟩ deg2rad c).v_c_
      = c.lattice_parameters.B * c.lattice_parameters.C
          * Real.cos (c.lattice_parameters.alpha * deg2rad) ∧
    Vec3.dot (SetLatticeVectors ⟨Real.sqrt, Real.cos, Real.sin, Real.arccos⟩ deg2rad c).v_a_
        (SetLatticeVectors ⟨Real.sqrt, Real.cos, Real.sin, Real.arccos⟩ deg2rad c).v_c_
      = c.lattice_parameters.A * c.lattice_parameters.C
          * Real.cos (c.lattice_parameters.beta * deg2rad) ∧
    Vec3.dot (SetLatticeVectors ⟨Real.sqrt, Real.cos, Real.sin, Real.arccos⟩ deg2rad c).v_a_
        (SetLatticeVectors ⟨Real.sqrt, Real.cos, Real.sin, Real.arccos⟩ deg2rad c).v_b_
      = c.lattice_parameters.A * c.lattice_parameters.B
          * Real.cos (c.lattice_parameters.gamma * deg2rad) := by
  have hsc := Real.sin_sq_add_cos_sq (c.lattice_parameters.gamma * deg2rad)
  have hsq := Real.sq_sqrt hrad
  refine ⟨rfl, rfl, ?_, ?_, ?_, ?_, ?_, ?_⟩
  · simp only [Vec3.norm, Vec3.dot, SetLatticeVectors, mul_zero, add_zero]
    rw [← sq, Real.sqrt_sq hA]
  · simp only [Vec3.norm, Vec3.dot, SetLatticeVectors, mul_zero, add_zero]
    have h : c.lattice_parameters.B * Real.cos (c.lattice_parameters.gamma * deg2rad)
          * (c.lattice_parameters.B * Real.cos (c.lattice_parameters.gamma * deg2rad))
        + c.lattice_parameters.B * Real.sin (c.lattice_parameters.gamma * deg2rad)
          * (c.lattice_parameters.B * Real.sin (c.lattice_parameters.gamma * deg2rad))
        = c.lattice_parameters.B ^ 2 := by
      linear_combination c.lattice_parameters.B ^ 2 * hsc
    rw [h, Real.sqrt_sq hB]
  · simp only [Vec3.norm, Vec3.dot, SetLatticeVectors]
    rw [norm_sq_v_c _ _ _ _ _ _ _ hsin.ne' hsc rfl hsq, Real.sqrt_sq hC]
  · simp only [Vec3.dot, SetLatticeVectors]
    field_simp
    ring
  · simp only [Vec3.dot, SetLatticeVectors]
    ring
  · simp only [Vec3.dot, SetLatticeVectors]
    ring

theorem ninety_degrees : (90 : ℝ) * (Real.pi / 180) = Real.pi / 2 := by ring

/-- C5, witness: the cubic cell `(1, 1, 1, 90, 90, 90)` with `deg2rad = pi / 180`. -/
theorem SetLatticeVectors_realises_parameters_witness :
    (0 : ℝ) < Real.sin (90 * (Real.pi / 180)) ∧
    Vec3.norm ⟨Real.sqrt, Real.cos, Real.sin, Real.arccos⟩
        (SetLatticeVectors ⟨Real.sqrt, Real.cos, Real.sin, Real.arccos⟩ (Real.pi / 180)
          (blankCell ⟨1, 1, 1, 90, 90, 90⟩)).v_c_ = 1 ∧
    Vec3.dot
        (SetLatticeVectors ⟨Real.sqrt, Real.cos, Real.sin, Real.arccos⟩ (Real.pi / 180)
          (blankCell ⟨1, 1, 1, 90, 90, 90⟩)).v_b_
        (SetLatticeVectors ⟨Real.sqrt, Real.cos, Real.sin, Real.arccos⟩ (Real.pi / 180)
          (blankCell ⟨1, 1, 1, 90, 90, 90⟩)).v_c_
      = 1 * 1 * Real.cos (90 * (Real.pi / 180)) := by
  have h := SetLatticeVectors_realises_parameters (Real.pi / 180)
    (blankCell ⟨1, 1, 1, 90, 90, 90⟩)
    (by norm_num [blankCell]) (by norm_num [blankCell]) (by norm_num [blankCell])
    (by simp [blankCell, ninety_degrees])
    (by simp [blankCell, ninety_degrees])
  refine ⟨by simp [ninety_degrees], h.2.2.2.2.1, h.2.2.2.2.2.1⟩

theorem trunc_intCast {K : Type} [LinearOrderedField K] [FloorRing K] (n : ℤ) :
    trunc (n : K) = n := by
  unfold trunc
  split_ifs <;> simp

theorem trunc_nine_quarters : trunc (9 / 4 : ℝ) = 2 := by
  unfold trunc
  rw [if_pos (by norm_num), Int.floor_eq_iff]
  norm_num

/-- The accumulator of `std::inner_product` with the `int` initial value `0` truncates
`1.5 * 1.5 = 2.25` to `2`. -/
theorem inner_product_three_halves :
    inner_product (⟨3 / 2, 0, 0⟩ : Vec3 ℝ) ⟨3 / 2, 0, 0⟩ = 2 := by
  have h1 : ((0 : ℤ) : ℝ) + 3 / 2 * (3 / 2) = 9 / 4 := by norm_num
  have h2 : ((2 : ℤ) : ℝ) + 0 * 0 = ((2 : ℤ) : ℝ) := by norm_num
  simp only [inner_product, h1, trunc_nine_quarters, h2, trunc_intCast]

theorem sqrt_two_ne_three_halves : Real.sqrt 2 ≠ 3 / 2 := by
  intro h
  have h2 : Real.sqrt 2 ^ 2 = 2 := Real.sq_sqrt (by norm_num)
  rw [h] at h2
  norm_num at h2

/-- C7, the code at the failing input: for `v1 = (1.5, 0, 0)`, `v2 = (0, 1, 0)`,
`v3 = (0, 0, 1)` the parameter `a` stored by `Cell::SetFromVectors` is `sqrt 2`, while
the Euclidean norm of `v1` is `1.5`. -/
theorem SetFromVectors_norm_truncated :
    (SetFromVectors ⟨Real.sqrt, Real.cos, Real.sin, Real.arccos⟩ (180 / Real.pi)
        (Real.pi / 180) (blankCell ⟨1, 1, 1, 90, 90, 90⟩)
        ⟨3 / 2, 0, 0⟩ ⟨0, 1, 0⟩ ⟨0, 0, 1⟩).lattice_parameters.A = Real.sqrt 2 ∧
    Vec3.norm ⟨Real.sqrt, Real.cos, Real.sin, Real.arccos⟩ (⟨3 / 2, 0, 0⟩ : Vec3 ℝ) = 3 / 2 ∧
    (SetFromVectors ⟨Real.sqrt, Real.cos, Real.sin, Real.arccos⟩ (180 / Real.pi)
        (Real.pi / 180) (blankCell ⟨1, 1, 1, 90, 90, 90⟩)
        ⟨3 / 2, 0, 0⟩ ⟨0, 1, 0⟩ ⟨0, 0, 1⟩).lattice_parameters.A
      ≠ Vec3.norm ⟨Real.sqrt, Real.cos, Real.sin, Real.arccos⟩ (⟨3 / 2, 0, 0⟩ : Vec3 ℝ) := by
  have hA : (SetFromVectors ⟨Real.sqrt, Real.cos, Real.sin, Real.arccos⟩ (180 / Real.pi)
        (Real.pi / 180) (blankCell ⟨1, 1, 1, 90, 90, 90⟩)
        ⟨3 / 2, 0, 0⟩ ⟨0, 1, 0⟩ ⟨0, 0, 1⟩).lattice_parameters.A = Real.sqrt 2 := by
    simp only [SetFromVectors, SetLatticeVectors, inner_product_three_halves]
    norm_num
  have hn : Vec3.norm ⟨Real.sqrt, Real.cos, Real.sin, Real.arccos⟩
      (⟨3 / 2, 0, 0⟩ : Vec3 ℝ) = 3 / 2 := by
    simp only [Vec3.norm, Vec3.dot, mul_zero, add_zero]
    rw [← sq, Real.sqrt_sq (by norm_num)]
  refine ⟨hA, hn, ?_⟩
  rw [hA, hn]
  exact sqrt_two_ne_three_halves

/-- C8, the code at the failing input: `Cell::SetFromVectors` on `v1 = (1.5, 0, 0)`,
`v2 = (0, 1, 0)`, `v3 = (0, 0, 1)` leaves `v_a = (sqrt 2, 0, 0)`, which is not `v1`. -/
theorem SetFromVectors_round_trip_fails :
    (SetFromVectors ⟨Real.sqrt, Real.cos, Real.sin, Real.arccos⟩ (180 / Real.pi)
        (Real.pi / 180) (blankCell ⟨1, 1, 1, 90, 90, 90⟩)
        ⟨3 / 2, 0, 0⟩ ⟨0, 1, 0⟩ ⟨0, 0, 1⟩).v_a_ = ⟨Real.sqrt 2, 0, 0⟩ ∧
    (SetFromVectors ⟨Real.sqrt, Real.cos, Real.sin, Real.arccos⟩ (180 / Real.pi)
        (Real.pi / 180) (blankCell ⟨1, 1, 1, 90, 90, 90⟩)
        ⟨3 / 2, 0, 0⟩ ⟨0, 1, 0⟩ ⟨0, 0, 1⟩).v_a_ ≠ ⟨3 / 2, 0, 0⟩ := by
  have hA : (SetFromVectors ⟨Real.sqrt, Real.cos, Real.sin, Real.arccos⟩ (180 / Real.pi)
        (Real.pi / 180) (blankCell ⟨1, 1, 1, 90, 90, 90⟩)
        ⟨3 / 2, 0, 0⟩ ⟨0, 1, 0⟩ ⟨0, 0, 1⟩).v_a_ = ⟨Real.sqrt 2, 0, 0⟩ := by
    simp only [SetFromVectors, SetLatticeVectors, inner_product_three_halves]
    norm_num
  refine ⟨hA, ?_⟩
  rw [hA]
  intro h
  have hx := congrArg Vec3.x h
  exact sqrt_two_ne_three_halves hx

/-! ## Tables of counts -/

theorem getAt_natCast {α : Type} (l : List α) (n : ℕ) : getAt l (n : ℤ) = l[n]? := by
  simp [getAt]

theorem getAt_eq_some {α : Type} {l : List α} {i : ℤ} {a : α} (h : getAt l i = some a) :
    0 ≤ i ∧ l[i.toNat]? = some a := by
  unfold getAt at h
  split_ifs at h with h0
  exact ⟨h0, h⟩

theorem modifyAt_natCast {α : Type} (f : α → Option α) (l : List α) (n : ℕ) (a b : α)
    (ha : l[n]? = some a) (hb : f a = some b) :
    modifyAt f l (n : ℤ) = some (l.set n b) := by
  simp [modifyAt, getAt_natCast, ha, hb]

theorem incr3_natCast (t : List (List (List ℤ))) (a b c : ℕ) (row : List (List ℤ))
    (col : List ℤ) (v : ℤ) (hrow : t[a]? = some row) (hcol : row[b]? = some col)
    (hv : col[c]? = some v) :
    incr3 t a b c = some (t.set a (row.set b (col.set c (v + 1)))) := by
  unfold incr3
  rw [modifyAt_natCast _ t a row (row.set b (col.set c (v + 1))) hrow]
  rw [modifyAt_natCast _ row b col (col.set c (v + 1)) hcol]
  rw [modifyAt_natCast _ col c v (v + 1) hv rfl]

theorem Shape3.getElem? {n m : ℕ} {t : List (List (List ℤ))} (h : Shape3 n m t)
    {a b c : ℕ} (ha : a < n) (hb : b < n) (hc : c < m) :
    ∃ row col v, t[a]? = some row ∧ row[b]? = some col ∧ col[c]? = some v ∧
      row.length = n ∧ col.length = m := by
  obtain ⟨hlen, hrows⟩ := h
  have ha' : a < t.length := by omega
  have hrow := hrows t[a] (List.getElem_mem ha')
  have hb' : b < t[a].length := by omega
  have hcol := hrow.2 t[a][b] (List.getElem_mem hb')
  have hc' : c < t[a][b].length := by omega
  exact ⟨t[a], t[a][b], t[a][b][c], List.getElem?_eq_getElem ha',
    List.getElem?_eq_getElem hb', List.getElem?_eq_getElem hc', hrow.1, hcol⟩

theorem incr3_spec {n m : ℕ} {t : List (List (List ℤ))} (h : Shape3 n m t)
    {a b c : ℕ} (ha : a < n) (hb : b < n) (hc : c < m) :
    ∃ t', incr3 t a b c = some t' ∧ Shape3 n m t' ∧
      ∀ i j k, entry3 t' i j k = entry3 t i j k + if i = a ∧ j = b ∧ k = c then 1 else 0 := by
  obtain ⟨row, col, v, hrow, hcol, hv, hrl, hcl⟩ := h.getElem? ha hb hc
  refine ⟨_, incr3_natCast t a b c row col v hrow hcol hv, ?_, ?_⟩
  · obtain ⟨hlen, hrows⟩ := h
    refine ⟨by simp [hlen], ?_⟩
    intro r hr
    rcases List.mem_or_eq_of_mem_set hr with hr | hr
    · exact hrows r hr
    · subst hr
      refine ⟨by simp [hrl], ?_⟩
      intro cl hcl'
      rcases List.mem_or_eq_of_mem_set hcl' with hcl' | hcl'
      · exact (hrows row (List.getElem?_mem hrow)).2 cl hcl'
      · subst hcl'
        simp [hcl]
  · intro i j k
    have hat : a < t.length := by rw [h.1]; exact ha
    have hbr : b < row.length := by omega
    have hcc : c < col.length := by omega
    unfold entry3
    by_cases hi : i = a
    · subst hi
      rw [List.getElem?_set_self hat, hrow]
      simp only [Option.getD_some, true_and]
      by_cases hj : j = b
      · subst hj
        rw [List.getElem?_set_self hbr, hcol]
        simp only [Option.getD_some, true_and]
        by_cases hk : k = c
        · subst hk
          rw [List.getElem?_set_self hcc, hv]
          simp
        · rw [List.getElem?_set_ne (Ne.symm hk)]
          simp [hk]
      · rw [List.getElem?_set_ne (Ne.symm hj)]
        simp [hj]
    · rw [List.getElem?_set_ne (Ne.symm hi)]
      simp [hi]


section CNlemmas

variable {K : Type}

theorem neighborCount_cons (img : Atom_Img K) (rest : List (Atom_Img K)) (e : ℕ) :
    neighborCount (img :: rest) e
      = neighborCount rest e + if img.element_id = (e : ℤ) then 1 else 0 := by
  simp [neighborCount, List.countP_cons]

theorem CN_aux_fold (n : ℕ) (bonded : List (Atom_Img K))
    (hb : ∀ img ∈ bonded, 0 ≤ img.element_id ∧ img.element_id < (n : ℤ)) :
    ∀ aux0 : List ℤ, aux0.length = n →
    ∃ aux, bonded.foldlM (fun aux img => modifyAt (fun v => some (v + 1)) aux img.element_id)
        aux0 = some aux ∧ aux.length = n ∧
      ∀ j, j < n → aux[j]?.getD 0 = aux0[j]?.getD 0 + (neighborCount bonded j : ℤ) := by
  induction bonded with
  | nil =>
    intro aux0 h0
    exact ⟨aux0, rfl, h0, by simp [neighborCount]⟩
  | cons img rest ih =>
    intro aux0 h0
    obtain ⟨h1, h2⟩ := hb img (List.mem_cons_self _ _)
    have hlt : img.element_id.toNat < aux0.length := by omega
    have hcast : img.element_id = ((img.element_id.toNat : ℕ) : ℤ) :=
      (Int.toNat_of_nonneg h1).symm
    have hstep : modifyAt (fun v => some (v + 1)) aux0 img.element_id
        = some (aux0.set img.element_id.toNat (aux0[img.element_id.toNat] + 1)) := by
      conv_lhs => rw [hcast]
      exact modifyAt_natCast _ aux0 _ _ _ (List.getElem?_eq_getElem hlt) rfl
    obtain ⟨aux, hf, hl, hent⟩ := ih (fun i hi => hb i (List.mem_cons_of_mem _ hi))
      (aux0.set img.element_id.toNat (aux0[img.element_id.toNat] + 1)) (by simp [h0])
    refine ⟨aux, ?_, hl, ?_⟩
    · rw [List.foldlM_cons, hstep]
      exact hf
    · intro j hj
      rw [hent j hj]
      by_cases hje : img.element_id = (j : ℤ)
      · have hj' : img.element_id.toNat = j := by omega
        subst hj'
        rw [List.getElem?_set_self hlt, List.getElem?_eq_getElem hlt, neighborCount_cons,
          if_pos hje]
        simp only [Option.getD_some]
        push_cast
        ring
      · have hj' : img.element_id.toNat ≠ j := by omega
        rw [List.getElem?_set_ne hj', neighborCount_cons, if_neg hje]
        simp

theorem CN_aux_spec (n : ℕ) (bonded : List (Atom_Img K))
    (hb : ∀ img ∈ bonded, 0 ≤ img.element_id ∧ img.element_id < (n : ℤ)) :
    ∃ aux, CN_aux n bonded = some aux ∧ aux.length = n ∧
      ∀ j, j < n → aux[j]? = some (neighborCount bonded j : ℤ) := by
  obtain ⟨aux, hf, hl, hent⟩ := CN_aux_fold n bonded hb (List.replicate n 0) (by simp)
  refine ⟨aux, hf, hl, ?_⟩
  intro j hj
  have h := hent j hj
  rw [List.getElem?_replicate_of_lt hj] at h
  have hj' : j < aux.length := by omega
  rw [List.getElem?_eq_getElem hj'] at h ⊢
  simp at h
  rw [h]

theorem neighborCount_le (bonded : List (Atom_Img K)) (e : ℕ) :
    neighborCount bonded e ≤ bonded.length :=
  List.countP_le_length _

theorem CN_range_fold (n m : ℕ) (el : ℕ) (hel : el < n) (aux : List ℤ) (cnt : ℕ → ℕ)
    (haux : ∀ j, j < n → aux[j]? = some (cnt j : ℤ)) (hcnt : ∀ j, j < n → cnt j < m)
    (is : List ℕ) (his : ∀ i ∈ is, i < n) :
    ∀ t, Shape3 n m t →
    ∃ t', is.foldlM
        (fun t (i : ℕ) => (getAt aux (i : ℤ)).bind fun k => incr3 t (el : ℤ) (i : ℤ) k) t
          = some t' ∧
      Shape3 n m t' ∧
      ∀ i j k, entry3 t' i j k
        = entry3 t i j k + if i = el ∧ k = cnt j then (is.count j : ℤ) else 0 := by
  induction is with
  | nil =>
    intro t ht
    exact ⟨t, rfl, ht, by simp⟩
  | cons i0 rest ih =>
    intro t ht
    have hi0 : i0 < n := his i0 (List.mem_cons_self _ _)
    obtain ⟨t1, h1, hs1, he1⟩ := incr3_spec ht hel hi0 (hcnt i0 hi0)
    obtain ⟨t', h2, hs2, he2⟩ := ih (fun i hi => his i (List.mem_cons_of_mem _ hi)) t1 hs1
    refine ⟨t', ?_, hs2, ?_⟩
    · rw [List.foldlM_cons, getAt_natCast, haux i0 hi0]
      simp only [Option.some_bind, Option.bind_eq_bind]
      rw [h1]
      exact h2
    · intro i j k
      rw [he2, he1]
      by_cases hik : i = el ∧ k = cnt j
      · obtain ⟨hi, hk⟩ := hik
        by_cases hj : j = i0
        · subst hj
          simp [hi, hk]
          ring
        · have hj' : ¬ (i0 = j) := fun h => hj h.symm
          simp [hi, hk, hj, List.count_cons, hj']
      · have h3 : ¬ (i = el ∧ j = i0 ∧ k = cnt i0) := by
          rintro ⟨h3, h4, h5⟩
          exact hik ⟨h3, by rw [h4]; exact h5⟩
        simp [hik, h3]

theorem CN_atom_spec (n m : ℕ) (a : Atom K)
    (hel : 0 ≤ a.element_id ∧ a.element_id < (n : ℤ))
    (hb : ∀ img ∈ a.bonded_atoms, 0 ≤ img.element_id ∧ img.element_id < (n : ℤ))
    (hm : a.bonded_atoms.length < m) (t : List (List (List ℤ))) (ht : Shape3 n m t) :
    ∃ t', CN_atom n t a = some t' ∧ Shape3 n m t' ∧
      ∀ i j k, j < n → entry3 t' i j k
        = entry3 t i j k
          + if (i : ℤ) = a.element_id ∧ k = neighborCount a.bonded_atoms j then 1 else 0 := by
  obtain ⟨aux, haux, _, hent⟩ := CN_aux_spec n a.bonded_atoms hb
  have hcast : a.element_id = ((a.element_id.toNat : ℕ) : ℤ) :=
    (Int.toNat_of_nonneg hel.1).symm
  have hlt : a.element_id.toNat < n := by omega
  obtain ⟨t', hf, hs, he⟩ := CN_range_fold n m a.element_id.toNat hlt aux
    (neighborCount a.bonded_atoms) hent
    (fun j _ => lt_of_le_of_lt (neighborCount_le _ _) hm) (List.range n)
    (fun i hi => List.mem_range.mp hi) t ht
  refine ⟨t', ?_, hs, ?_⟩
  · unfold CN_atom
    rw [haux]
    simp only [Option.some_bind]
    rw [hcast]
    exact hf
  · intro i j k hj
    rw [he]
    have hc : (List.range n).count j = 1 :=
      List.count_eq_one_of_mem (List.nodup_range n) (List.mem_range.mpr hj)
    have hiff : (i = a.element_id.toNat) ↔ ((i : ℤ) = a.element_id) := by omega
    simp only [hc, hiff, Nat.cast_one]

end CNlemmas


section CNfold

variable {K : Type}

theorem CN_max_fold (atoms : List (Atom K)) :
    ∀ init : ℤ, init ≤ atoms.foldl (fun max_CN a =>
        if max_CN < (a.bonded_atoms.length : ℤ) then (a.bonded_atoms.length : ℤ)
        else max_CN) init ∧
      ∀ a ∈ atoms, (a.bonded_atoms.length : ℤ) ≤ atoms.foldl (fun max_CN a =>
        if max_CN < (a.bonded_atoms.length : ℤ) then (a.bonded_atoms.length : ℤ)
        else max_CN) init := by
  induction atoms with
  | nil => intro init; simp
  | cons a rest ih =>
    intro init
    simp only [List.foldl_cons, List.mem_cons, forall_eq_or_imp]
    obtain ⟨h1, h2⟩ := ih (if init < (a.bonded_atoms.length : ℤ)
      then (a.bonded_atoms.length : ℤ) else init)
    refine ⟨?_, ?_, h2⟩
    · refine le_trans ?_ h1
      split_ifs with h <;> omega
    · refine le_trans ?_ h1
      split_ifs with h <;> omega

theorem CN_max_nonneg (atoms : List (Atom K)) : 0 ≤ CN_max atoms :=
  (CN_max_fold atoms 0).1

theorem length_le_CN_max (atoms : List (Atom K)) (a : Atom K) (ha : a ∈ atoms) :
    (a.bonded_atoms.length : ℤ) ≤ CN_max atoms :=
  (CN_max_fold atoms 0).2 a ha

theorem CN_atoms_fold (n m : ℕ) (atoms : List (Atom K))
    (hel : ∀ a ∈ atoms, 0 ≤ a.element_id ∧ a.element_id < (n : ℤ))
    (hb : ∀ a ∈ atoms, ∀ img ∈ a.bonded_atoms,
      0 ≤ img.element_id ∧ img.element_id < (n : ℤ))
    (hm : ∀ a ∈ atoms, a.bonded_atoms.length < m) :
    ∀ t, Shape3 n m t →
    ∃ t', atoms.foldlM (CN_atom n) t = some t' ∧ Shape3 n m t' ∧
      ∀ i j k, j < n → entry3 t' i j k
        = entry3 t i j k + (atoms.countP fun a =>
            decide (a.element_id = (i : ℤ) ∧ neighborCount a.bonded_atoms j = k) : ℕ) := by
  induction atoms with
  | nil =>
    intro t ht
    exact ⟨t, rfl, ht, by simp⟩
  | cons a rest ih =>
    intro t ht
    obtain ⟨t1, h1, hs1, he1⟩ := CN_atom_spec n m a (hel a (List.mem_cons_self _ _))
      (hb a (List.mem_cons_self _ _)) (hm a (List.mem_cons_self _ _)) t ht
    obtain ⟨t', h2, hs2, he2⟩ := ih (fun x hx => hel x (List.mem_cons_of_mem _ hx))
      (fun x hx => hb x (List.mem_cons_of_mem _ hx))
      (fun x hx => hm x (List.mem_cons_of_mem _ hx)) t1 hs1
    refine ⟨t', ?_, hs2, ?_⟩
    · rw [List.foldlM_cons, h1]
      exact h2
    · intro i j k hj
      rw [he2 i j k hj, he1 i j k hj, List.countP_cons]
      by_cases hc : a.element_id = (i : ℤ) ∧ neighborCount a.bonded_atoms j = k
      · have hc' : (i : ℤ) = a.element_id ∧ k = neighborCount a.bonded_atoms j :=
          ⟨hc.1.symm, hc.2.symm⟩
        rw [if_pos hc', if_pos (decide_eq_true hc)]
        push_cast
        ring
      · have hc' : ¬ ((i : ℤ) = a.element_id ∧ k = neighborCount a.bonded_atoms j) :=
          fun h => hc ⟨h.1.symm, h.2.symm⟩
        rw [if_neg hc', if_neg (by simpa using hc)]
        push_cast
        ring

theorem Shape3_replicate (n m : ℕ) :
    Shape3 n m (List.replicate n (List.replicate n (List.replicate m 0))) := by
  refine ⟨by simp, ?_⟩
  intro row hrow
  rw [List.eq_of_mem_replicate hrow]
  refine ⟨by simp, ?_⟩
  intro col hcol
  rw [List.eq_of_mem_replicate hcol]
  simp

theorem entry3_replicate (n m i j k : ℕ) :
    entry3 (List.replicate n (List.replicate n (List.replicate m 0))) i j k = 0 := by
  unfold entry3
  simp only [List.getElem?_replicate]
  by_cases hi : i < n
  · rw [if_pos hi]
    simp only [Option.getD_some, List.getElem?_replicate]
    by_cases hj : j < n
    · rw [if_pos hj]
      simp only [Option.getD_some, List.getElem?_replicate]
      split_ifs <;> simp
    · rw [if_neg hj]
      simp
  · rw [if_neg hi]
    simp

end CNfold



/-! ## The coordination tensor -/

section CNspec

variable {K : Type}

/-- The coordination tensor computed by `Cell::CN`: when all element indices are in
`[0, n)` the call succeeds, the tensor has shape `n x n x (max_CN + 2)` and its entry
`[c][e][k]` is the number of atoms of element index `c` with exactly `k`
bonded-neighbor records of element index `e`. -/
theorem CN_spec (c : Cell K)
    (hel : ∀ a ∈ c.atoms, 0 ≤ a.element_id ∧ a.element_id < (c.elements.length : ℤ))
    (hb : ∀ a ∈ c.atoms, ∀ img ∈ a.bonded_atoms,
      0 ≤ img.element_id ∧ img.element_id < (c.elements.length : ℤ)) :
    ∃ t, CN c = some { c with coordination := t } ∧
      Shape3 c.elements.length (CN_max c.atoms + 2).toNat t ∧
      ∀ i j k, j < c.elements.length → entry3 t i j k
        = (c.atoms.countP fun a =>
            decide (a.element_id = (i : ℤ) ∧ neighborCount a.bonded_atoms j = k) : ℕ) := by
  have hm : ∀ a ∈ c.atoms, a.bonded_atoms.length < (CN_max c.atoms + 2).toNat := by
    intro a ha
    have h1 := length_le_CN_max c.atoms a ha
    have h2 := CN_max_nonneg c.atoms
    omega
  obtain ⟨t, h1, hs, he⟩ := CN_atoms_fold c.elements.length (CN_max c.atoms + 2).toNat
    c.atoms hel hb hm _ (Shape3_replicate _ _)
  refine ⟨t, ?_, hs, ?_⟩
  · simp only [CN, h1, Option.map_some']
  · intro i j k hj
    rw [he i j k hj, entry3_replicate, zero_add]

/-- Summing, over the counts `k < m`, the number of members of a list with a property and
with `f = k` gives the number of members with the property, when `f < m` on the list. -/
theorem sum_countP_fiber {α : Type} (l : List α) (P : α → Prop) [DecidablePred P]
    (f : α → ℕ) (m : ℕ) (hf : ∀ a ∈ l, f a < m) :
    (∑ k in Finset.range m, ((l.countP fun a => decide (P a ∧ f a = k) : ℕ) : ℤ))
      = ((l.countP fun a => decide (P a) : ℕ) : ℤ) := by
  induction l with
  | nil => simp
  | cons a rest ih =>
    have ih' := ih (fun x hx => hf x (List.mem_cons_of_mem _ hx))
    have ha : f a < m := hf a (List.mem_cons_self _ _)
    simp only [List.countP_cons, Nat.cast_add, Finset.sum_add_distrib, ih']
    congr 1
    by_cases hP : P a
    · simp only [hP, true_and, decide_eq_true_eq, decide_True, if_true, Nat.cast_one]
      have : ∀ k, ((if f a = k then (1 : ℕ) else 0 : ℕ) : ℤ) = if k = f a then 1 else 0 := by
        intro k
        by_cases h : f a = k
        · simp [h]
        · have h' : ¬ k = f a := fun e => h e.symm
          simp [h, h']
      simp only [this, Finset.sum_ite_eq', Finset.mem_range, ha, if_true]
    · simp [hP]

/-- C3 (amended): after `Cell::CN` on a cell whose atoms and bonded-neighbor records
carry element indices in `[0, n)`, for every center element `c` and every neighbor
element `e` the sum of `coordination[c][e][k]` over all counts `k` is the number of atoms
of element index `c`; so the sum over all neighbor elements and all counts is `n` times
that number. -/
theorem CN_conservation (c : Cell K)
    (hel : ∀ a ∈ c.atoms, 0 ≤ a.element_id ∧ a.element_id < (c.elements.length : ℤ))
    (hb : ∀ a ∈ c.atoms, ∀ img ∈ a.bonded_atoms,
      0 ≤ img.element_id ∧ img.element_id < (c.elements.length : ℤ)) :
    ∃ c', CN c = some c' ∧
      Shape3 c.elements.length (CN_max c.atoms + 2).toNat c'.coordination ∧
      ∀ ce : ℕ,
        (∀ e, e < c.elements.length →
          (∑ k in Finset.range (CN_max c.atoms + 2).toNat, entry3 c'.coordination ce e k)
            = ((c.atoms.countP fun a => decide (a.element_id = (ce : ℤ)) : ℕ) : ℤ)) ∧
        (∑ e in Finset.range c.elements.length,
          ∑ k in Finset.range (CN_max c.atoms + 2).toNat, entry3 c'.coordination ce e k)
            = (c.elements.length : ℤ)
              * ((c.atoms.countP fun a => decide (a.element_id = (ce : ℤ)) : ℕ) : ℤ) := by
  obtain ⟨t, h1, hs, he⟩ := CN_spec c hel hb
  refine ⟨_, h1, hs, ?_⟩
  intro ce
  have hper : ∀ e, e < c.elements.length →
      (∑ k in Finset.range (CN_max c.atoms + 2).toNat, entry3 t ce e k)
        = ((c.atoms.countP fun a => decide (a.element_id = (ce : ℤ)) : ℕ) : ℤ) := by
    intro e hlt
    have hsum := sum_countP_fiber c.atoms (fun a => a.element_id = (ce : ℤ))
      (fun a => neighborCount a.bonded_atoms e) (CN_max c.atoms + 2).toNat (by
        intro a ha
        show neighborCount a.bonded_atoms e < (CN_max c.atoms + 2).toNat
        have h1 := length_le_CN_max c.atoms a ha
        have h2 := neighborCount_le a.bonded_atoms e
        have h3 := CN_max_nonneg c.atoms
        omega)
    rw [← hsum]
    exact Finset.sum_congr rfl fun k _ => he ce e k hlt
  refine ⟨hper, ?_⟩
  rw [Finset.sum_congr rfl fun e he' => hper e (Finset.mem_range.mp he')]
  simp

end CNspec

/-- C3, witness: a cell with the elements `Si`, `O` and one atom of element index `0`
without bonded neighbors. -/
theorem CN_conservation_witness :
    ∃ c', CN (cubicCell ℚ [mkAtom "Si" 0 ⟨0, 0, 0⟩] ["Si", "O"]) = some c' ∧
      (∑ e in Finset.range 2, ∑ k in Finset.range 2, entry3 c'.coordination 0 e k)
        = (2 : ℤ) * 1 := by
  obtain ⟨c', h1, _, h3⟩ := CN_conservation
    (cubicCell ℚ [mkAtom "Si" 0 ⟨0, 0, 0⟩] ["Si", "O"])
    (by simp [cubicCell, mkAtom]) (by simp [cubicCell, mkAtom])
  refine ⟨c', h1, ?_⟩
  have h := (h3 0).2
  simpa [cubicCell, mkAtom, CN_max] using h

/-- C3, counterexample: for a cell with the elements `Si`, `O` and a single atom, of
element index `0` and without bonded neighbors, `Cell::CN` stores
`coordination[0] = [[1, 0], [1, 0]]`: the counts for the center element `0` sum to `2`,
while there is `1` atom of element index `0`. -/
theorem CN_sum_counts_twice :
    (CN (cubicCell ℚ [mkAtom "Si" 0 ⟨0, 0, 0⟩] ["Si", "O"])).map (fun c => c.coordination)
      = some [[[1, 0], [1, 0]], [[0, 0], [0, 0]]] ∧
    (([[1, 0], [1, 0]] : List (List ℤ)).map List.sum).sum = 2 ∧
    (cubicCell ℚ [mkAtom "Si" 0 ⟨0, 0, 0⟩] ["Si", "O"]).atoms.countP
      (fun a => decide (a.element_id = 0)) = 1 ∧
    (([[1, 0], [1, 0]] : List (List ℤ)).map List.sum).sum
      ≠ (((cubicCell ℚ [mkAtom "Si" 0 ⟨0, 0, 0⟩] ["Si", "O"]).atoms.countP
        (fun a => decide (a.element_id = 0)) : ℕ) : ℤ) := by
  refine ⟨by rfl, by decide, by decide, by decide⟩


/-! ## Tables of samples -/

section Push

variable {K : Type}

theorem Shape2_replicate (n : ℕ) :
    Shape2 n (List.replicate n (List.replicate n ([] : List K))) := by
  refine ⟨by simp, ?_⟩
  intro row hrow
  rw [List.eq_of_mem_replicate hrow]
  simp

theorem bucket_replicate (n i j : ℕ) :
    bucket (List.replicate n (List.replicate n ([] : List K))) i j = [] := by
  unfold bucket
  simp only [List.getElem?_replicate]
  by_cases hi : i < n
  · rw [if_pos hi]
    simp only [Option.getD_some, List.getElem?_replicate]
    split_ifs <;> simp
  · rw [if_neg hi]
    simp

theorem push2_spec {n : ℕ} {t : List (List (List K))} (h : Shape2 n t) {x y : ℕ}
    (hx : x < n) (hy : y < n) (d : K) :
    ∃ t', push2 t (x : ℤ) (y : ℤ) d = some t' ∧ Shape2 n t' ∧
      ∀ i j, bucket t' i j = bucket t i j ++ if i = x ∧ j = y then [d] else [] := by
  obtain ⟨hlen, hrows⟩ := h
  have hx' : x < t.length := by omega
  have hrow := hrows t[x] (List.getElem_mem hx')
  have hy' : y < t[x].length := by omega
  refine ⟨t.set x (t[x].set y (t[x][y] ++ [d])), ?_, ?_, ?_⟩
  · unfold push2
    rw [modifyAt_natCast _ t x t[x] (t[x].set y (t[x][y] ++ [d]))
      (List.getElem?_eq_getElem hx')]
    rw [modifyAt_natCast _ t[x] y t[x][y] (t[x][y] ++ [d]) (List.getElem?_eq_getElem hy') rfl]
  · refine ⟨by simp [hlen], ?_⟩
    intro r hr
    rcases List.mem_or_eq_of_mem_set hr with hr | hr
    · exact hrows r hr
    · subst hr
      simp [hrow]
  · intro i j
    unfold bucket
    by_cases hi : i = x
    · subst hi
      rw [List.getElem?_set_self hx', List.getElem?_eq_getElem hx']
      simp only [Option.getD_some, true_and]
      by_cases hj : j = y
      · subst hj
        rw [List.getElem?_set_self hy', List.getElem?_eq_getElem hy']
        simp
      · rw [List.getElem?_set_ne (Ne.symm hj)]
        simp [hj]
    · rw [List.getElem?_set_ne (Ne.symm hi)]
      simp [hi]

end Push


section RDFloops

variable {K : Type} [LinearOrderedField K]

theorem imageAtom_element_id (c : Cell K) (b : Atom K) (off : ℤ × ℤ × ℤ) :
    (imageAtom c b off).element_id = b.element_id := rfl

theorem RDF_offsets_fold (m : Libm K) (c : Cell K) (A B : Atom K) (n x y : ℕ)
    (hx : x < n) (hy : y < n) (thr : K)
    (hbl : bondLengthAt c.bond_length A.element_id B.element_id = some thr)
    (offs : List (ℤ × ℤ × ℤ)) :
    ∀ (td : List (List (List K))) (bonded : List (Atom_Img K)), Shape2 n td →
    ∃ td', offs.foldlM (RDF_step m c A B (x : ℤ) (y : ℤ)) (td, bonded)
        = some (td', bonded ++ (offs.filter fun off =>
            decide (Atom.Distance m A (imageAtom c B off) ≤ thr)).map
              fun off => (imageAtom c B off).GetImage) ∧
      Shape2 n td' ∧
      ∀ i j, bucket td' i j = bucket td i j ++
        if i = x ∧ j = y then offs.map fun off => Atom.Distance m A (imageAtom c B off)
        else [] := by
  induction offs with
  | nil =>
    intro td bonded htd
    exact ⟨td, by simp, htd, by simp⟩
  | cons off rest ih =>
    intro td bonded htd
    obtain ⟨td1, h1, hs1, hb1⟩ := push2_spec htd hx hy
      (Atom.Distance m A (imageAtom c B off))
    by_cases hd : Atom.Distance m A (imageAtom c B off) ≤ thr
    · obtain ⟨td', h2, hs2, hb2⟩ := ih td1 (bonded ++ [(imageAtom c B off).GetImage]) hs1
      refine ⟨td', ?_, hs2, ?_⟩
      · rw [List.foldlM_cons]
        simp only [RDF_step, h1, imageAtom_element_id, hbl, Option.some_bind,
          Option.map_some', if_pos hd, Option.bind_eq_bind]
        rw [h2]
        simp [List.filter_cons, hd]
      · intro i j
        rw [hb2, hb1]
        by_cases hij : i = x ∧ j = y
        · simp [hij]
        · simp [hij]
    · obtain ⟨td', h2, hs2, hb2⟩ := ih td1 bonded hs1
      refine ⟨td', ?_, hs2, ?_⟩
      · rw [List.foldlM_cons]
        simp only [RDF_step, h1, imageAtom_element_id, hbl, Option.some_bind,
          Option.map_some', if_neg hd, Option.bind_eq_bind]
        rw [h2]
        simp [List.filter_cons, hd]
      · intro i j
        rw [hb2, hb1]
        by_cases hij : i = x ∧ j = y
        · simp [hij]
        · simp [hij]

theorem bondThreshold_eq {c : Cell K} {A B : Atom K} {thr : K}
    (h : bondLengthAt c.bond_length A.element_id B.element_id = some thr) :
    bondThreshold c A B = thr := by
  simp [bondThreshold, h]

/-- The loop over `atom_B` for one `atom_A`. -/
theorem RDF_inner_fold (m : Libm K) (c : Cell K) (offs : List (ℤ × ℤ × ℤ)) (A : Atom K)
    (n x : ℕ) (hx : x < n) (all : List (Atom K))
    (hidx : ∀ B ∈ all, ∃ y : ℕ, y < n ∧ elementIndex c B = (y : ℤ))
    (hbl : ∀ B ∈ all, ∃ thr, bondLengthAt c.bond_length A.element_id B.element_id
      = some thr) :
    ∀ (td : List (List (List K))) (bonded : List (Atom_Img K)), Shape2 n td →
    ∃ td', all.foldlM (RDF_inner m c offs A (x : ℤ)) (td, bonded)
        = some (td', bonded ++ all.flatMap (pairBonds m c offs A)) ∧
      Shape2 n td' ∧
      ∀ i j, bucket td' i j = bucket td i j ++
        if i = x then all.flatMap fun B =>
          if elementIndex c B = (j : ℤ) then pairDistances m c offs A B else []
        else [] := by
  induction all with
  | nil =>
    intro td bonded htd
    exact ⟨td, by simp, htd, by simp⟩
  | cons B rest ih =>
    intro td bonded htd
    have ih' := ih (fun b hb => hidx b (List.mem_cons_of_mem _ hb))
      (fun b hb => hbl b (List.mem_cons_of_mem _ hb))
    by_cases hnum : A.number ≠ B.number
    · obtain ⟨y, hy, hyB⟩ := hidx B (List.mem_cons_self _ _)
      obtain ⟨thr, hthr⟩ := hbl B (List.mem_cons_self _ _)
      obtain ⟨td1, h1, hs1, hb1⟩ := RDF_offsets_fold m c A B n x y hx hy thr hthr offs
        td bonded htd
      obtain ⟨td', h2, hs2, hb2⟩ := ih' td1 _ hs1
      refine ⟨td', ?_, hs2, ?_⟩
      · rw [List.foldlM_cons]
        have hyB' : (findInVector c.elements B.element).2 = (y : ℤ) := hyB
        simp only [RDF_inner, if_pos hnum, hyB', h1, Option.some_bind, Option.bind_eq_bind]
        rw [h2]
        simp [pairBonds, hnum, bondThreshold_eq hthr]
      · intro i j
        rw [hb2, hb1]
        by_cases hi : i = x
        · by_cases hj : j = y
          · subst hj
            simp [hi, hyB, pairDistances, hnum]
          · have hj' : ¬ elementIndex c B = (j : ℤ) := by
              rw [hyB]; intro h; exact hj (by exact_mod_cast h.symm)
            simp [hi, hj, hj']
        · simp [hi]
    · obtain ⟨td', h2, hs2, hb2⟩ := ih' td bonded htd
      refine ⟨td', ?_, hs2, ?_⟩
      · rw [List.foldlM_cons]
        simp only [RDF_inner, if_neg hnum, Option.some_bind, Option.bind_eq_bind]
        rw [h2]
        simp [pairBonds, hnum]
      · intro i j
        rw [hb2]
        have hpd : pairDistances m c offs A B = [] := by
          unfold pairDistances
          rw [if_neg hnum]
        have hf : (if elementIndex c B = (j : ℤ) then pairDistances m c offs A B else [])
            = [] := by
          rw [hpd]; simp
        rw [List.flatMap_cons, hf, List.nil_append]

end RDFloops


theorem SameCore.refl {K : Type} (a : Atom K) : SameCore a a := rfl

theorem SameCore.update {K : Type} (a : Atom K) (bonded : List (Atom_Img K)) :
    SameCore { a with bonded_atoms := bonded } a := rfl

theorem forall₂_sameCore_append {K : Type} {done pre : List (Atom K)}
    (h : List.Forall₂ SameCore done pre) (rest : List (Atom K)) :
    List.Forall₂ SameCore (done ++ rest) (pre ++ rest) := by
  apply List.rel_append h
  exact List.forall₂_same.mpr fun a _ => SameCore.refl a

section RDFouter

variable {K : Type} [LinearOrderedField K]

theorem RDF_inner_sameCore (m : Libm K) (c : Cell K) (offs : List (ℤ × ℤ × ℤ))
    (A : Atom K) (id_A : ℤ) (st : List (List (List K)) × List (Atom_Img K))
    {d o : Atom K} (h : SameCore d o) :
    RDF_inner m c offs A id_A st d = RDF_inner m c offs A id_A st o := by
  unfold SameCore at h
  rw [h]
  rfl

theorem foldlM_RDF_inner_sameCore (m : Libm K) (c : Cell K) (offs : List (ℤ × ℤ × ℤ))
    (A : Atom K) (id_A : ℤ) {l1 l2 : List (Atom K)} (h : List.Forall₂ SameCore l1 l2) :
    ∀ st, l1.foldlM (RDF_inner m c offs A id_A) st
      = l2.foldlM (RDF_inner m c offs A id_A) st := by
  induction h with
  | nil => intro st; rfl
  | cons hab _ ih =>
    intro st
    rw [List.foldlM_cons, List.foldlM_cons, RDF_inner_sameCore m c offs A id_A st hab]
    cases RDF_inner m c offs A id_A st _ with
    | none => rfl
    | some st' => exact ih st'

theorem distancesFrom_cons (m : Libm K) (c : Cell K) (offs : List (ℤ × ℤ × ℤ))
    (atoms : List (Atom K)) (x y : ℕ) (A : Atom K) (rest : List (Atom K)) :
    distancesFrom m c offs atoms x y (A :: rest)
      = (if elementIndex c A = (x : ℤ) then
          atoms.flatMap fun B =>
            if elementIndex c B = (y : ℤ) then pairDistances m c offs A B else []
        else []) ++ distancesFrom m c offs atoms x y rest := by
  simp [distancesFrom]

/-- The loop over `atom_A`. -/
theorem RDF_outer_spec (m : Libm K) (c : Cell K) (offs : List (ℤ × ℤ × ℤ)) (n : ℕ)
    (orig : List (Atom K))
    (hidx : ∀ B ∈ orig, ∃ y : ℕ, y < n ∧ elementIndex c B = (y : ℤ))
    (hbl : ∀ A ∈ orig, ∀ B ∈ orig, ∃ thr,
      bondLengthAt c.bond_length A.element_id B.element_id = some thr)
    (rest : List (Atom K)) :
    ∀ (pre done : List (Atom K)) (td : List (List (List K))), orig = pre ++ rest →
      List.Forall₂ SameCore done pre → Shape2 n td →
    ∃ td', RDF_outer m c offs done rest td
        = some (done ++ rest.map (fun A =>
            { A with bonded_atoms := A.bonded_atoms ++ newBonds m c offs orig A }), td') ∧
      Shape2 n td' ∧
      ∀ i j, bucket td' i j = bucket td i j ++ distancesFrom m c offs orig i j rest := by
  induction rest with
  | nil =>
    intro pre done td _ _ htd
    exact ⟨td, by simp [RDF_outer], htd, by simp [distancesFrom]⟩
  | cons A rest ih =>
    intro pre done td horig hdone htd
    have hA : A ∈ orig := by rw [horig]; simp
    obtain ⟨x, hx, hxA⟩ := hidx A hA
    obtain ⟨td1, h1, hs1, hb1⟩ := RDF_inner_fold m c offs A n x hx orig hidx (hbl A hA)
      td A.bonded_atoms htd
    have hcongr := foldlM_RDF_inner_sameCore m c offs A (x : ℤ)
      (forall₂_sameCore_append hdone (A :: rest)) (td, A.bonded_atoms)
    rw [← horig, h1] at hcongr
    obtain ⟨td', h2, hs2, hb2⟩ := ih (pre ++ [A])
      (done ++ [{ A with bonded_atoms := A.bonded_atoms ++ newBonds m c offs orig A }]) td1
      (by rw [horig]; simp)
      (List.rel_append hdone (List.Forall₂.cons (SameCore.update A _)
        List.Forall₂.nil)) hs1
    refine ⟨td', ?_, hs2, ?_⟩
    · have hxA' : (findInVector c.elements A.element).2 = (x : ℤ) := hxA
      simp only [RDF_outer, hxA', hcongr, Option.some_bind, Option.bind_eq_bind]
      simp only [newBonds] at h2 ⊢
      rw [h2]
      simp
    · intro i j
      rw [hb2, hb1, distancesFrom_cons, hxA, List.append_assoc]
      have hiff : ((x : ℤ) = (i : ℤ)) ↔ i = x := by
        constructor
        · intro h; exact_mod_cast h.symm
        · intro h; rw [h]
      simp only [hiff]

end RDFouter


/-! ## The radial distribution pass on a cell -/

theorem findInVector_of_mem {l : List String} {e : String} (h : e ∈ l) :
    ∃ y : ℕ, y < l.length ∧ findInVector l e = (true, (y : ℤ)) ∧ l[y]? = some e := by
  have hlt : l.indexOf e < l.length := List.indexOf_lt_length.mpr h
  refine ⟨l.indexOf e, hlt, ?_, ?_⟩
  · simp [findInVector, hlt]
  · rw [List.getElem?_eq_getElem hlt, List.getElem_indexOf hlt]

section RDFcell

variable {K : Type} [LinearOrderedField K] [FloorRing K]

theorem preparedCell_atoms (radii : String → K) (c : Cell K) (f : K) :
    (preparedCell radii c f).atoms = c.atoms.map fun a =>
      { a with
        element_id := (findInVector c.elements a.element).2
        position := foldPosition c.v_a_ c.v_b_ c.v_c_ a.position } := by
  simp [preparedCell, CorrectPositions, PopulateBondLength, List.map_map, Function.comp_def]

theorem preparedCell_elements (radii : String → K) (c : Cell K) (f : K) :
    (preparedCell radii c f).elements = c.elements := rfl

theorem preparedCell_bond_length (radii : String → K) (c : Cell K) (f : K) :
    (preparedCell radii c f).bond_length = c.elements.map fun ei =>
      c.elements.map fun ej => (radii ei + radii ej) * f := rfl

theorem preparedCell_mem (radii : String → K) (c : Cell K) (f : K)
    (hres : ∀ a ∈ c.atoms, a.element ∈ c.elements) {B : Atom K}
    (hB : B ∈ (preparedCell radii c f).atoms) :
    ∃ y : ℕ, y < c.elements.length ∧ elementIndex (preparedCell radii c f) B = (y : ℤ) ∧
      B.element_id = (y : ℤ) ∧ c.elements[y]? = some B.element := by
  rw [preparedCell_atoms, List.mem_map] at hB
  obtain ⟨a, ha, rfl⟩ := hB
  obtain ⟨y, hy, hf, hget⟩ := findInVector_of_mem (hres a ha)
  refine ⟨y, hy, ?_, ?_, hget⟩
  · simp [elementIndex, preparedCell_elements, hf]
  · simp [hf]

theorem preparedCell_bondLengthAt (radii : String → K) (c : Cell K) (f : K)
    (hres : ∀ a ∈ c.atoms, a.element ∈ c.elements) {A B : Atom K}
    (hA : A ∈ (preparedCell radii c f).atoms) (hB : B ∈ (preparedCell radii c f).atoms) :
    bondLengthAt (preparedCell radii c f).bond_length A.element_id B.element_id
      = some ((radii A.element + radii B.element) * f) := by
  obtain ⟨x, hx, _, hxA, hgx⟩ := preparedCell_mem radii c f hres hA
  obtain ⟨y, hy, _, hyB, hgy⟩ := preparedCell_mem radii c f hres hB
  rw [preparedCell_bond_length, hxA, hyB]
  simp [bondLengthAt, getAt_natCast, List.getElem?_map, hgx, hgy]

/-- What `Cell::RDF` computes: when the element of every atom is in the element table the
call succeeds; the cell is the prepared cell in which every atom has got the records of
its bonded images appended and `distances` is an `n x n` table whose bucket `[x][y]`
holds the distances from the atoms of element index `x` to the images of the atoms of
element index `y`. -/
theorem RDF_spec (m : Libm K) (radii : String → K) (c : Cell K) (r_cut bond_len : K)
    (hres : ∀ a ∈ c.atoms, a.element ∈ c.elements) :
    ∃ td, RDF m radii c r_cut bond_len = some
        { preparedCell radii c bond_len with
          atoms := (preparedCell radii c bond_len).atoms.map fun A =>
            { A with
              bonded_atoms := A.bonded_atoms ++
                newBonds m (preparedCell radii c bond_len)
                  (imageOffsets (preparedCell radii c bond_len) r_cut)
                  (preparedCell radii c bond_len).atoms A }
          distances := td } ∧
      Shape2 c.elements.length td ∧
      ∀ x y, bucket td x y = distancesFrom m (preparedCell radii c bond_len)
        (imageOffsets (preparedCell radii c bond_len) r_cut)
        (preparedCell radii c bond_len).atoms x y (preparedCell radii c bond_len).atoms := by
  obtain ⟨td, h1, hs, hb⟩ := RDF_outer_spec m (preparedCell radii c bond_len)
    (imageOffsets (preparedCell radii c bond_len) r_cut) c.elements.length
    (preparedCell radii c bond_len).atoms
    (fun B hB => by
      obtain ⟨y, hy, hidx, _, _⟩ := preparedCell_mem radii c bond_len hres hB
      exact ⟨y, hy, hidx⟩)
    (fun A hA B hB => ⟨_, preparedCell_bondLengthAt radii c bond_len hres hA hB⟩)
    (preparedCell radii c bond_len).atoms [] []
    (List.replicate c.elements.length (List.replicate c.elements.length []))
    rfl List.Forall₂.nil (Shape2_replicate _)
  refine ⟨td, ?_, hs, ?_⟩
  · have h1' : RDF_outer m (CorrectPositions (PopulateBondLength radii c bond_len))
        (imageOffsets (CorrectPositions (PopulateBondLength radii c bond_len)) r_cut) []
        (CorrectPositions (PopulateBondLength radii c bond_len)).atoms
        (List.replicate c.elements.length (List.replicate c.elements.length [])) = _ := h1
    simp only [RDF, PopulateBondLength] at h1' ⊢
    rw [h1']
    simp [preparedCell, PopulateBondLength]
  · intro x y
    rw [hb x y, bucket_replicate, List.nil_append]

end RDFcell


/-! ## Image offsets -/

theorem mem_intRange {lo hi z : ℤ} : z ∈ intRange lo hi ↔ lo ≤ z ∧ z ≤ hi := by
  unfold intRange
  simp only [List.mem_map, List.mem_range]
  constructor
  · rintro ⟨n, hn, rfl⟩
    omega
  · rintro ⟨h1, h2⟩
    refine ⟨(z - lo).toNat, ?_, ?_⟩ <;> omega

theorem nodup_intRange (lo hi : ℤ) : (intRange lo hi).Nodup := by
  unfold intRange
  apply List.Nodup.map _ (List.nodup_range _)
  intro a b h
  simp only at h
  omega

theorem offsets_eq_product (i_ j_ k_ : ℤ) :
    offsets i_ j_ k_
      = intRange (-i_) i_ ×ˢ (intRange (-j_) j_ ×ˢ intRange (-k_) k_) := by
  simp [offsets, SProd.sprod, List.product, List.map_flatMap, List.map_map,
    Function.comp_def]

theorem mem_offsets {i_ j_ k_ i j k : ℤ} :
    (i, j, k) ∈ offsets i_ j_ k_ ↔
      (-i_ ≤ i ∧ i ≤ i_) ∧ (-j_ ≤ j ∧ j ≤ j_) ∧ (-k_ ≤ k ∧ k ≤ k_) := by
  rw [offsets_eq_product, List.mem_product, List.mem_product, mem_intRange, mem_intRange,
    mem_intRange]

theorem nodup_offsets (i_ j_ k_ : ℤ) : (offsets i_ j_ k_).Nodup := by
  rw [offsets_eq_product]
  exact (nodup_intRange _ _).product ((nodup_intRange _ _).product (nodup_intRange _ _))

theorem negOffset_injective : Function.Injective negOffset := by
  rintro ⟨a, b, c⟩ ⟨a', b', c'⟩ h
  simp only [negOffset, Prod.mk.injEq, neg_inj] at h
  simp [h]

theorem offsets_map_neg_perm (i_ j_ k_ : ℤ) :
    ((offsets i_ j_ k_).map negOffset).Perm (offsets i_ j_ k_) := by
  rw [List.perm_ext_iff_of_nodup ((nodup_offsets _ _ _).map negOffset_injective)
    (nodup_offsets _ _ _)]
  rintro ⟨i, j, k⟩
  simp only [List.mem_map, mem_offsets]
  constructor
  · rintro ⟨⟨a, b, c⟩, h, heq⟩
    rw [mem_offsets] at h
    simp only [negOffset, Prod.mk.injEq] at heq
    obtain ⟨rfl, rfl, rfl⟩ := heq
    omega
  · intro h
    refine ⟨(-i, -j, -k), ?_, by simp [negOffset]⟩
    rw [mem_offsets]
    omega

theorem flatMap_comm_perm {α β γ : Type} (l1 : List α) (l2 : List β)
    (f : α → β → List γ) :
    (l1.flatMap fun a => l2.flatMap fun b => f a b).Perm
      (l2.flatMap fun b => l1.flatMap fun a => f a b) := by
  rw [← Multiset.coe_eq_coe, ← Multiset.coe_bind, ← Multiset.coe_bind]
  simp only [← Multiset.coe_bind]
  exact Multiset.bind_bind _ _


/-! ## Distance symmetry -/

section Symmetry

variable {K : Type} [LinearOrderedField K]

theorem Distance_imageAtom_symm (m : Libm K) (c : Cell K) (A B : Atom K)
    (off : ℤ × ℤ × ℤ) :
    Atom.Distance m A (imageAtom c B off)
      = Atom.Distance m B (imageAtom c A (negOffset off)) := by
  simp only [Atom.Distance, Vec3.distance, imageAtom, negOffset]
  congr 1
  push_cast
  ring

theorem pairDistances_perm (m : Libm K) (c : Cell K) (i_ j_ k_ : ℤ) (A B : Atom K) :
    (pairDistances m c (offsets i_ j_ k_) A B).Perm
      (pairDistances m c (offsets i_ j_ k_) B A) := by
  unfold pairDistances
  by_cases h : A.number ≠ B.number
  · rw [if_pos h, if_pos (Ne.symm h)]
    have h1 : (offsets i_ j_ k_).map (fun off => Atom.Distance m A (imageAtom c B off))
        = ((offsets i_ j_ k_).map negOffset).map
            (fun off => Atom.Distance m B (imageAtom c A off)) := by
      rw [List.map_map]
      apply List.map_congr_left
      intro off _
      exact Distance_imageAtom_symm m c A B off
    rw [h1]
    exact (offsets_map_neg_perm i_ j_ k_).map _
  · have h' : ¬ B.number ≠ A.number := fun h2 => h (Ne.symm h2)
    rw [if_neg h, if_neg h']

theorem distancesFrom_perm (m : Libm K) (c : Cell K) (i_ j_ k_ : ℤ)
    (atoms : List (Atom K)) (x y : ℕ) :
    (distancesFrom m c (offsets i_ j_ k_) atoms x y atoms).Perm
      (distancesFrom m c (offsets i_ j_ k_) atoms y x atoms) := by
  have h1 : distancesFrom m c (offsets i_ j_ k_) atoms x y atoms
      = atoms.flatMap fun A => atoms.flatMap fun B =>
          if elementIndex c A = (x : ℤ) ∧ elementIndex c B = (y : ℤ) then
            pairDistances m c (offsets i_ j_ k_) A B else [] := by
    unfold distancesFrom
    apply List.flatMap_congr
    intro A _
    by_cases hA : elementIndex c A = (x : ℤ) <;> simp [hA]
  have h2 : distancesFrom m c (offsets i_ j_ k_) atoms y x atoms
      = atoms.flatMap fun B => atoms.flatMap fun A =>
          if elementIndex c A = (x : ℤ) ∧ elementIndex c B = (y : ℤ) then
            pairDistances m c (offsets i_ j_ k_) B A else [] := by
    unfold distancesFrom
    apply List.flatMap_congr
    intro B _
    by_cases hB : elementIndex c B = (y : ℤ) <;> simp [hB]
  rw [h1, h2]
  refine (flatMap_comm_perm atoms atoms _).trans ?_
  apply List.Perm.flatMap_left
  intro B _
  apply List.Perm.flatMap_left
  intro A _
  split_ifs
  · exact pairDistances_perm m c i_ j_ k_ A B
  · exact List.Perm.refl _

end Symmetry

section SymmetryClaim

variable {K : Type} [LinearOrderedField K] [FloorRing K]

/-- C10: the Euclidean distance from `A` to the image `B + i v_a + j v_b + k v_c` is the
distance from `B` to `A - i v_a - j v_b - k v_c`, for every lattice and every integer
triple; and after `Cell::RDF` (on a cell whose atoms have their elements in the element
table, so that the pass succeeds) the bucket `distances[x][y]` is a permutation of the
bucket `distances[y][x]`, for all element indices `x`, `y`. -/
theorem RDF_distance_symmetry (m : Libm K) (radii : String → K) (c : Cell K)
    (r_cut bond_len : K) (hres : ∀ a ∈ c.atoms, a.element ∈ c.elements) :
    (∀ (va vb vc : Vec3 K) (A B : Atom K) (i j k : ℤ),
      Atom.Distance m A
          { B with position := Vec3.add B.position (Vec3.comb va vb vc (i : K) (j : K) (k : K)) }
        = Atom.Distance m B
          { A with position := Vec3.sub A.position (Vec3.comb va vb vc (i : K) (j : K) (k : K)) }) ∧
    ∃ c', RDF m radii c r_cut bond_len = some c' ∧
      ∀ x y : ℕ, (bucket c'.distances x y).Perm (bucket c'.distances y x) := by
  constructor
  · intro va vb vc A B i j k
    simp only [Atom.Distance, Vec3.distance, Vec3.add, Vec3.sub, Vec3.comb, Vec3.smul]
    congr 1
    ring
  · obtain ⟨td, h1, _, hb⟩ := RDF_spec m radii c r_cut bond_len hres
    refine ⟨_, h1, ?_⟩
    intro x y
    simp only [hb]
    exact distancesFrom_perm m _ _ _ _ _ x y

end SymmetryClaim


/-! ## Bond detection -/

section BondLemmas

variable {K : Type} [LinearOrderedField K]

theorem imageAtom_position (c : Cell K) (hay : c.v_a_.y = 0) (haz : c.v_a_.z = 0)
    (hbz : c.v_b_.z = 0) (B : Atom K) (off : ℤ × ℤ × ℤ) :
    (imageAtom c B off).position = Vec3.add B.position
      (Vec3.comb c.v_a_ c.v_b_ c.v_c_ (off.1 : K) (off.2.1 : K) (off.2.2 : K)) := by
  ext <;> simp [imageAtom, Vec3.add, Vec3.comb, Vec3.smul, hay, haz, hbz]

theorem map_bondPairs (m : Libm K) (c : Cell K) (offs : List (ℤ × ℤ × ℤ))
    (g : Atom K → Atom K) (atoms : List (Atom K)) (A : Atom K)
    (record : Atom K × ℤ × ℤ × ℤ → Atom_Img K)
    (hrec : ∀ B off, record (g B, off) = (imageAtom c B off).GetImage) :
    (bondPairs m c offs g atoms A).map record = newBonds m c offs atoms A := by
  unfold bondPairs newBonds
  rw [List.map_flatMap]
  apply List.flatMap_congr
  intro B _
  unfold pairBonds
  split_ifs
  · rw [List.map_map]
    apply List.map_congr_left
    intro off _
    exact hrec B off
  · rfl

theorem mem_bondPairs (m : Libm K) (c : Cell K) (offs : List (ℤ × ℤ × ℤ))
    (g : Atom K → Atom K) (atoms : List (Atom K)) (A : Atom K) (B' : Atom K)
    (off : ℤ × ℤ × ℤ) :
    (B', off) ∈ bondPairs m c offs g atoms A ↔
      ∃ B ∈ atoms, g B = B' ∧ A.number ≠ B.number ∧ off ∈ offs ∧
        Atom.Distance m A (imageAtom c B off) ≤ bondThreshold c A B := by
  unfold bondPairs
  simp only [List.mem_flatMap]
  constructor
  · rintro ⟨B, hB, hmem⟩
    split_ifs at hmem with hne
    · simp only [List.mem_map, List.mem_filter, decide_eq_true_eq, Prod.mk.injEq] at hmem
      obtain ⟨off', ⟨ho, hd⟩, hg, rfl⟩ := hmem
      exact ⟨B, hB, hg, hne, ho, hd⟩
    · simp at hmem
  · rintro ⟨B, hB, hg, hne, ho, hd⟩
    refine ⟨B, hB, ?_⟩
    rw [if_pos hne]
    simp only [List.mem_map, List.mem_filter, decide_eq_true_eq, Prod.mk.injEq]
    exact ⟨off, ⟨ho, hd⟩, hg, rfl⟩

theorem nodup_bondPairs (m : Libm K) (c : Cell K) (offs : List (ℤ × ℤ × ℤ))
    (g : Atom K → Atom K) (atoms : List (Atom K)) (A : Atom K) (hoffs : offs.Nodup)
    (hnum : atoms.Pairwise fun a b => a.number ≠ b.number)
    (hg : ∀ B, (g B).number = B.number) :
    (bondPairs m c offs g atoms A).Nodup := by
  unfold bondPairs
  rw [List.nodup_flatMap]
  constructor
  · intro B _
    split_ifs
    · apply List.Nodup.map _ (hoffs.filter _)
      intro o1 o2 h
      simp only [Prod.mk.injEq] at h
      exact h.2
    · exact List.nodup_nil
  · refine hnum.imp ?_
    intro B1 B2 hne
    rw [Function.onFun, List.disjoint_left]
    intro p h1 h2
    split_ifs at h1 h2
    · simp only [List.mem_map] at h1 h2
      obtain ⟨_, _, rfl⟩ := h1
      obtain ⟨_, _, h⟩ := h2
      simp only [Prod.mk.injEq] at h
      apply hne
      rw [← hg B1, ← hg B2, h.1]
    all_goals simp at h1 h2

end BondLemmas


section BondClaim

variable {K : Type} [LinearOrderedField K] [FloorRing K]

theorem mem_imageOffsets (c : Cell K) (r_cut : K) (i j k : ℤ) :
    (i, j, k) ∈ imageOffsets c r_cut ↔
      (-(replication c r_cut).1 ≤ i ∧ i ≤ (replication c r_cut).1) ∧
      (-(replication c r_cut).2.1 ≤ j ∧ j ≤ (replication c r_cut).2.1) ∧
      (-(replication c r_cut).2.2 ≤ k ∧ k ≤ (replication c r_cut).2.2) := by
  unfold imageOffsets
  exact mem_offsets

/-- C9: for a cell (lattice vectors in the convention of `SetLatticeVectors`) whose atoms
have pairwise distinct numbers, elements in the element table and empty bonded-neighbor
lists, `Cell::RDF` succeeds; the result has the lattice vectors and the elements of the
cell and, at every index, the atom of the cell at that index (same element and number)
with its element index resolved and its position folded; and the bonded-neighbor list of
every atom `A` of the result is the list of records of a duplicate-free list of pairs
`(B, (i, j, k))`, which holds exactly the pairs with `B` an atom of another number,
`(i, j, k)` in the replication range and
`distance(A, B + i v_a + j v_b + k v_c) <= bond_length[elem A][elem B]`. -/
theorem RDF_bonded_neighbors (m : Libm K) (radii : String → K) (c : Cell K)
    (r_cut bond_len : K)
    (hnum : c.atoms.Pairwise fun a b => a.number ≠ b.number)
    (hres : ∀ a ∈ c.atoms, a.element ∈ c.elements)
    (hempty : ∀ a ∈ c.atoms, a.bonded_atoms = [])
    (hay : c.v_a_.y = 0) (haz : c.v_a_.z = 0) (hbz : c.v_b_.z = 0) :
    ∃ c', RDF m radii c r_cut bond_len = some c' ∧
      c'.v_a_ = c.v_a_ ∧ c'.v_b_ = c.v_b_ ∧ c'.v_c_ = c.v_c_ ∧ c'.elements = c.elements ∧
      c'.atoms.length = c.atoms.length ∧
      (∀ (n : ℕ) (a : Atom K), c.atoms[n]? = some a →
        ∃ A, c'.atoms[n]? = some A ∧ A.element = a.element ∧ A.number = a.number ∧
          A.element_id = (findInVector c.elements a.element).2 ∧
          A.position = foldPosition c.v_a_ c.v_b_ c.v_c_ a.position) ∧
      ∀ A ∈ c'.atoms, ∃ ps : List (Atom K × ℤ × ℤ × ℤ), ps.Nodup ∧
        (∀ (B : Atom K) (i j k : ℤ), (B, i, j, k) ∈ ps ↔
          B ∈ c'.atoms ∧ B.number ≠ A.number ∧
          (-(replication c' r_cut).1 ≤ i ∧ i ≤ (replication c' r_cut).1) ∧
          (-(replication c' r_cut).2.1 ≤ j ∧ j ≤ (replication c' r_cut).2.1) ∧
          (-(replication c' r_cut).2.2 ≤ k ∧ k ≤ (replication c' r_cut).2.2) ∧
          ∃ bl, bondLengthAt c'.bond_length A.element_id B.element_id = some bl ∧
            Atom.Distance m A
              { B with
                position := Vec3.add B.position
                  (Vec3.comb c'.v_a_ c'.v_b_ c'.v_c_ (i : K) (j : K) (k : K)) } ≤ bl) ∧
        A.bonded_atoms = ps.map (imageRecord c'.v_a_ c'.v_b_ c'.v_c_) := by
  obtain ⟨td, h1, _, _⟩ := RDF_spec m radii c r_cut bond_len hres
  refine ⟨_, h1, rfl, rfl, rfl, rfl, ?_, ?_, ?_⟩
  · simp [preparedCell_atoms]
  · intro n a ha
    simp only [preparedCell_atoms, List.map_map, List.getElem?_map, ha, Option.map_some']
    exact ⟨_, rfl, rfl, rfl, rfl, rfl⟩
  intro A hA
  simp only [List.mem_map] at hA
  obtain ⟨A0, hA0, rfl⟩ := hA
  have hempty0 : A0.bonded_atoms = [] := by
    rw [preparedCell_atoms, List.mem_map] at hA0
    obtain ⟨a, ha, rfl⟩ := hA0
    exact hempty a ha
  have hnum0 : (preparedCell radii c bond_len).atoms.Pairwise
      fun a b => a.number ≠ b.number := by
    rw [preparedCell_atoms, List.pairwise_map]
    exact hnum
  refine ⟨bondPairs m (preparedCell radii c bond_len)
    (imageOffsets (preparedCell radii c bond_len) r_cut)
    (fun B =>
      { B with
        bonded_atoms := B.bonded_atoms ++
          newBonds m (preparedCell radii c bond_len)
            (imageOffsets (preparedCell radii c bond_len) r_cut)
            (preparedCell radii c bond_len).atoms B })
    (preparedCell radii c bond_len).atoms A0, ?_, ?_, ?_⟩
  · exact nodup_bondPairs m _ _ _ _ A0 (nodup_offsets _ _ _) hnum0 (fun _ => rfl)
  · intro B i j k
    rw [mem_bondPairs]
    constructor
    · rintro ⟨B0, hB0, rfl, hne, ho, hd⟩
      have hthr := preparedCell_bondLengthAt radii c bond_len hres hA0 hB0
      refine ⟨List.mem_map.mpr ⟨B0, hB0, rfl⟩, Ne.symm hne,
        ((mem_imageOffsets _ _ _ _ _).mp ho).1, ((mem_imageOffsets _ _ _ _ _).mp ho).2.1,
        ((mem_imageOffsets _ _ _ _ _).mp ho).2.2, _, hthr, ?_⟩
      rw [bondThreshold_eq hthr] at hd
      have hpos := imageAtom_position (preparedCell radii c bond_len) hay haz hbz B0 (i, j, k)
      simp only [Atom.Distance] at hd ⊢
      rw [hpos] at hd
      exact hd
    · rintro ⟨hB, hne, hi, hj, hk, bl, hbl, hd⟩
      simp only [List.mem_map] at hB
      obtain ⟨B0, hB0, rfl⟩ := hB
      have hthr := preparedCell_bondLengthAt radii c bond_len hres hA0 hB0
      have hbl' : bl = (radii A0.element + radii B0.element) * bond_len := by
        have h2 : bondLengthAt (preparedCell radii c bond_len).bond_length A0.element_id
            B0.element_id = some bl := hbl
        rw [hthr] at h2
        exact (Option.some.inj h2).symm
      refine ⟨B0, hB0, rfl, Ne.symm hne, (mem_imageOffsets _ _ _ _ _).mpr ⟨hi, hj, hk⟩, ?_⟩
      rw [bondThreshold_eq hthr, ← hbl']
      have hpos := imageAtom_position (preparedCell radii c bond_len) hay haz hbz B0 (i, j, k)
      simp only [Atom.Distance] at hd ⊢
      rw [hpos]
      exact hd
  · rw [map_bondPairs]
    · simp [hempty0]
    · intro B off
      simp only [imageRecord, Atom.GetImage,
        imageAtom_position (preparedCell radii c bond_len) hay haz hbz B off]
      rfl

end BondClaim


/-- C9, witness: two atoms, `Si` at the origin and `O` at `(1/2, 0, 0)`, in the cubic cell
of edge `1` over the reals, with cutoff `1` and every covalent radius `1`: the result
holds two atoms, the first one the `Si` atom of number `0`, and every bonded-neighbor list
is the list of records of a duplicate-free list of pairs. -/
theorem RDF_bonded_neighbors_witness :
    ∃ c', RDF ⟨Real.sqrt, Real.cos, Real.sin, Real.arccos⟩ (fun _ => 1)
        (cubicCell ℝ [mkAtom "Si" 0 ⟨0, 0, 0⟩, mkAtom "O" 1 ⟨1 / 2, 0, 0⟩] ["Si", "O"]) 1 1
        = some c' ∧
      c'.atoms.length = 2 ∧
      (∃ A, c'.atoms[0]? = some A ∧ A.element = "Si" ∧ A.number = 0) ∧
      ∀ A ∈ c'.atoms, ∃ ps : List (Atom ℝ × ℤ × ℤ × ℤ), ps.Nodup ∧
        A.bonded_atoms = ps.map (imageRecord c'.v_a_ c'.v_b_ c'.v_c_) := by
  obtain ⟨c', h1, _, _, _, _, hlen, hidx, h2⟩ := RDF_bonded_neighbors
    ⟨Real.sqrt, Real.cos, Real.sin, Real.arccos⟩ (fun _ => (1 : ℝ))
    (cubicCell ℝ [mkAtom "Si" 0 ⟨0, 0, 0⟩, mkAtom "O" 1 ⟨1 / 2, 0, 0⟩] ["Si", "O"]) 1 1
    (by simp [cubicCell, mkAtom]) (by simp [cubicCell, mkAtom]) (by simp [cubicCell, mkAtom])
    rfl rfl rfl
  refine ⟨c', h1, hlen, ?_, ?_⟩
  · obtain ⟨A, hA, he, hn, _, _⟩ := hidx 0 (mkAtom "Si" 0 ⟨0, 0, 0⟩) rfl
    exact ⟨A, hA, he, hn⟩
  · intro A hA
    obtain ⟨ps, hnd, _, hmap⟩ := h2 A hA
    exact ⟨ps, hnd, hmap⟩

/-- C10, witness: two atoms, `Si` at the origin and `O` at `(1/2, 0, 0)`, in the cubic
cell of edge `1` over the reals, with cutoff `1` and every covalent radius `1`. -/
theorem RDF_distance_symmetry_witness :
    ∃ c', RDF ⟨Real.sqrt, Real.cos, Real.sin, Real.arccos⟩ (fun _ => 1)
        (cubicCell ℝ [mkAtom "Si" 0 ⟨0, 0, 0⟩, mkAtom "O" 1 ⟨1 / 2, 0, 0⟩] ["Si", "O"]) 1 1
        = some c' ∧
      ∀ x y : ℕ, (bucket c'.distances x y).Perm (bucket c'.distances y x) :=
  (RDF_distance_symmetry ⟨Real.sqrt, Real.cos, Real.sin, Real.arccos⟩ (fun _ => (1 : ℝ))
    (cubicCell ℝ [mkAtom "Si" 0 ⟨0, 0, 0⟩, mkAtom "O" 1 ⟨1 / 2, 0, 0⟩] ["Si", "O"]) 1 1
    (by simp [cubicCell, mkAtom])).2

/-! ## The replication counts -/

theorem skew_angle : Real.arccos (12 / 13) * (180 / Real.pi) * (Real.pi / 180)
    = Real.arccos (12 / 13) := by
  have h := Real.pi_ne_zero
  field_simp

theorem cos_skew : Real.cos (Real.arccos (12 / 13)) = 12 / 13 :=
  Real.cos_arccos (by norm_num) (by norm_num)

theorem sin_skew : Real.sin (Real.arccos (12 / 13)) = 5 / 13 := by
  rw [Real.sin_arccos]
  have h : (1 - (12 / 13 : ℝ) ^ 2) = (5 / 13) ^ 2 := by norm_num
  rw [h, Real.sqrt_sq (by norm_num)]

/-- The lattice vectors of the parameters `(1, 13, 1, 90, 90, arccos(12/13))` (the last
angle in degrees): `v_a = (1, 0, 0)`, `v_b = (12, 5, 0)`, `v_c = (0, 0, 1)`, volume `5`. -/
theorem SetLatticeVectors_skew :
    SetLatticeVectors ⟨Real.sqrt, Real.cos, Real.sin, Real.arccos⟩ (Real.pi / 180)
        (blankCell ⟨1, 13, 1, 90, 90, Real.arccos (12 / 13) * (180 / Real.pi)⟩)
      = { blankCell ⟨1, 13, 1, 90, 90, Real.arccos (12 / 13) * (180 / Real.pi)⟩ with
          v_a_ := ⟨1, 0, 0⟩
          v_b_ := ⟨12, 5, 0⟩
          v_c_ := ⟨0, 0, 1⟩
          volume := 5 } := by
  have h25 : Real.sqrt 25 = 5 := by
    rw [show (25 : ℝ) = 5 ^ 2 by norm_num, Real.sqrt_sq (by norm_num)]
  have h169 : Real.sqrt 169 = 13 := by
    rw [show (169 : ℝ) = 13 ^ 2 by norm_num, Real.sqrt_sq (by norm_num)]
  simp only [SetLatticeVectors, blankCell, skew_angle, ninety_degrees, cos_skew, sin_skew,
    Real.cos_pi_div_two]
  norm_num [h25, h169]

theorem ceil_six : ⌈(6 : ℝ) / 1⌉ = 6 := by
  rw [Int.ceil_eq_iff]; norm_num

theorem ceil_six_fifths : ⌈(6 : ℝ) / 5⌉ = 2 := by
  rw [Int.ceil_eq_iff]; norm_num

/-- C4, the code at the failing input: for the lattice parameters
`(1, 13, 1, 90, 90, arccos(12/13))` the lattice is `v_a = (1, 0, 0)`, `v_b = (12, 5, 0)`,
`v_c = (0, 0, 1)` with volume `5`; for `r_cut = 6` the replication counts are `(6, 2, 6)`;
the atoms `A = (0, 0, 0)` and `B = (1/2, 0, 0)` have fractional coordinates `(0, 0, 0)` and
`(1/2, 0, 0)`; the image `B - 12 v_a + v_b` is `(1/2, 5, 0)`, at a distance from `A` that
is at most `6`, and its offset `i = -12` is outside `-6 .. 6`. -/
theorem replication_misses_image :
    (SetLatticeVectors ⟨Real.sqrt, Real.cos, Real.sin, Real.arccos⟩ (Real.pi / 180)
        (blankCell ⟨1, 13, 1, 90, 90, Real.arccos (12 / 13) * (180 / Real.pi)⟩)).v_a_
      = ⟨1, 0, 0⟩ ∧
    (SetLatticeVectors ⟨Real.sqrt, Real.cos, Real.sin, Real.arccos⟩ (Real.pi / 180)
        (blankCell ⟨1, 13, 1, 90, 90, Real.arccos (12 / 13) * (180 / Real.pi)⟩)).v_b_
      = ⟨12, 5, 0⟩ ∧
    (SetLatticeVectors ⟨Real.sqrt, Real.cos, Real.sin, Real.arccos⟩ (Real.pi / 180)
        (blankCell ⟨1, 13, 1, 90, 90, Real.arccos (12 / 13) * (180 / Real.pi)⟩)).v_c_
      = ⟨0, 0, 1⟩ ∧
    (SetLatticeVectors ⟨Real.sqrt, Real.cos, Real.sin, Real.arccos⟩ (Real.pi / 180)
        (blankCell ⟨1, 13, 1, 90, 90, Real.arccos (12 / 13) * (180 / Real.pi)⟩)).volume
      = 5 ∧
    replication
        (SetLatticeVectors ⟨Real.sqrt, Real.cos, Real.sin, Real.arccos⟩ (Real.pi / 180)
          (blankCell ⟨1, 13, 1, 90, 90, Real.arccos (12 / 13) * (180 / Real.pi)⟩)) 6
      = (6, 2, 6) ∧
    fractional (⟨1, 0, 0⟩ : Vec3 ℝ) ⟨12, 5, 0⟩ ⟨0, 0, 1⟩ ⟨0, 0, 0⟩ = (0, 0, 0) ∧
    fractional (⟨1, 0, 0⟩ : Vec3 ℝ) ⟨12, 5, 0⟩ ⟨0, 0, 1⟩ ⟨1 / 2, 0, 0⟩ = (1 / 2, 0, 0) ∧
    Vec3.add (⟨1 / 2, 0, 0⟩ : Vec3 ℝ)
        (Vec3.comb ⟨1, 0, 0⟩ ⟨12, 5, 0⟩ ⟨0, 0, 1⟩ ((-12 : ℤ) : ℝ) ((1 : ℤ) : ℝ) ((0 : ℤ) : ℝ))
      = ⟨1 / 2, 5, 0⟩ ∧
    Vec3.distance ⟨Real.sqrt, Real.cos, Real.sin, Real.arccos⟩ (⟨0, 0, 0⟩ : Vec3 ℝ)
        ⟨1 / 2, 5, 0⟩ ≤ 6 ∧
    ¬ (|(-12 : ℤ)| ≤ 6) := by
  rw [SetLatticeVectors_skew]
  refine ⟨rfl, rfl, rfl, rfl, ?_, ?_, ?_, ?_, ?_, by decide⟩
  · simp only [replication, ceil_six, ceil_six_fifths]
  · simp [fractional, Vec3.sub, Vec3.smul]
  · simp [fractional, Vec3.sub, Vec3.smul]
  · ext <;> simp [Vec3.add, Vec3.comb, Vec3.smul]
  · simp only [Vec3.distance]
    rw [Real.sqrt_le_iff]
    norm_num

/-! ## Folding keeps the lattice class -/

theorem Vec3.sub_sub_comb {K : Type} [LinearOrderedField K] (p : Vec3 K) (va vb vc : Vec3 K) (i j k : K) :
    Vec3.sub p (Vec3.sub p (Vec3.comb va vb vc i j k)) = Vec3.comb va vb vc i j k := by
  ext <;> simp [Vec3.sub]

theorem Vec3.add_sub_comb_add_comb {K : Type} [LinearOrderedField K] (p : Vec3 K)
    (va vb vc : Vec3 K) (i j k x y z : K) :
    Vec3.add (Vec3.sub p (Vec3.comb va vb vc i j k)) (Vec3.comb va vb vc x y z)
      = Vec3.add p (Vec3.comb va vb vc (x - i) (y - j) (z - k)) := by
  ext <;> simp only [Vec3.sub, Vec3.add, Vec3.comb, Vec3.smul] <;> ring

section FoldClass

variable {K : Type} [LinearOrderedField K] [FloorRing K]

/-- C20: for a lattice with non-zero `v_a[0]`, `v_b[1]`, `v_c[2]` the position `p'` that
`Cell::CorrectPositions` stores for an atom at `p` satisfies
`p - p' = i_ v_a + j_ v_b + k_ v_c` for integers `i_`, `j_`, `k_`, and a point is a
periodic image of `p` exactly when it is a periodic image of `p'`. -/
theorem CorrectPositions_same_lattice_class (c : Cell K) (_hax : c.v_a_.x ≠ 0)
    (_hby : c.v_b_.y ≠ 0) (_hcz : c.v_c_.z ≠ 0) (n : ℕ) (a : Atom K)
    (ha : c.atoms[n]? = some a) :
    ∃ a' : Atom K, (CorrectPositions c).atoms[n]? = some a' ∧
      (∃ i_ j_ k_ : ℤ, Vec3.sub a.position a'.position
        = Vec3.comb c.v_a_ c.v_b_ c.v_c_ (i_ : K) (j_ : K) (k_ : K)) ∧
      ∀ q : Vec3 K,
        (∃ x y z : ℤ, q = Vec3.add a.position
          (Vec3.comb c.v_a_ c.v_b_ c.v_c_ (x : K) (y : K) (z : K))) ↔
        (∃ x y z : ℤ, q = Vec3.add a'.position
          (Vec3.comb c.v_a_ c.v_b_ c.v_c_ (x : K) (y : K) (z : K))) := by
  refine ⟨{ a with position := foldPosition c.v_a_ c.v_b_ c.v_c_ a.position }, ?_, ?_, ?_⟩
  · rw [CorrectPositions_atoms_getElem?, ha]; rfl
  · exact ⟨_, _, _, Vec3.sub_sub_comb _ _ _ _ _ _ _⟩
  · intro q
    simp only [foldPosition]
    constructor
    · rintro ⟨x, y, z, rfl⟩
      refine ⟨x + foldShift (fractional c.v_a_ c.v_b_ c.v_c_ a.position).1,
        y + foldShift (fractional c.v_a_ c.v_b_ c.v_c_ a.position).2.1,
        z + foldShift (fractional c.v_a_ c.v_b_ c.v_c_ a.position).2.2, ?_⟩
      rw [Vec3.add_sub_comb_add_comb]
      push_cast
      simp only [add_sub_cancel_right]
    · rintro ⟨x, y, z, rfl⟩
      refine ⟨x - foldShift (fractional c.v_a_ c.v_b_ c.v_c_ a.position).1,
        y - foldShift (fractional c.v_a_ c.v_b_ c.v_c_ a.position).2.1,
        z - foldShift (fractional c.v_a_ c.v_b_ c.v_c_ a.position).2.2, ?_⟩
      rw [Vec3.add_sub_comb_add_comb]
      push_cast
      rfl

end FoldClass

/-- C20, witness: an atom at `(-7/2, 9/4, -11/3)` in the cubic cell of edge `1`. -/
theorem CorrectPositions_same_lattice_class_witness :
    ∃ a' : Atom ℚ,
      (CorrectPositions (cubicCell ℚ [mkAtom "Si" 0 ⟨-7 / 2, 9 / 4, -11 / 3⟩] ["Si"])).atoms[0]?
        = some a' ∧
      ∃ i_ j_ k_ : ℤ, Vec3.sub (⟨-7 / 2, 9 / 4, -11 / 3⟩ : Vec3 ℚ) a'.position
        = Vec3.comb ⟨1, 0, 0⟩ ⟨0, 1, 0⟩ ⟨0, 0, 1⟩ (i_ : ℚ) (j_ : ℚ) (k_ : ℚ) := by
  obtain ⟨a', h1, h2, _⟩ := CorrectPositions_same_lattice_class
    (cubicCell ℚ [mkAtom "Si" 0 ⟨-7 / 2, 9 / 4, -11 / 3⟩] ["Si"])
    (by norm_num [cubicCell]) (by norm_num [cubicCell]) (by norm_num [cubicCell])
    0 (mkAtom "Si" 0 ⟨-7 / 2, 9 / 4, -11 / 3⟩) rfl
  exact ⟨a', h1, h2⟩

/-! ## The coordination tensor: shape and entries -/

section CNtensor

variable {K : Type}

theorem CN_max_attained_fold (atoms : List (Atom K)) :
    ∀ init : ℤ,
      atoms.foldl (fun max_CN a =>
        if max_CN < (a.bonded_atoms.length : ℤ) then (a.bonded_atoms.length : ℤ)
        else max_CN) init = init ∨
      ∃ a ∈ atoms, (a.bonded_atoms.length : ℤ) = atoms.foldl (fun max_CN a =>
        if max_CN < (a.bonded_atoms.length : ℤ) then (a.bonded_atoms.length : ℤ)
        else max_CN) init := by
  induction atoms with
  | nil => intro init; left; rfl
  | cons a rest ih =>
    intro init
    simp only [List.foldl_cons, List.mem_cons, exists_eq_or_imp]
    rcases ih (if init < (a.bonded_atoms.length : ℤ) then (a.bonded_atoms.length : ℤ)
      else init) with h | ⟨b, hb, hlen⟩
    · rw [h]
      split_ifs with hlt
      · right; left; rfl
      · left; rfl
    · right; right
      exact ⟨b, hb, hlen⟩

/-- The value `max_CN` computed by the first loop of `Cell::CN` is the largest length of
a bonded-neighbor list, `0` when there are no atoms. -/
theorem CN_max_spec (atoms : List (Atom K)) :
    (∀ a ∈ atoms, (a.bonded_atoms.length : ℤ) ≤ CN_max atoms) ∧
    (atoms = [] → CN_max atoms = 0) ∧
    (atoms ≠ [] → ∃ a ∈ atoms, (a.bonded_atoms.length : ℤ) = CN_max atoms) := by
  refine ⟨length_le_CN_max atoms, ?_, ?_⟩
  · rintro rfl; rfl
  · intro hne
    rcases CN_max_attained_fold atoms 0 with h | h
    · obtain ⟨a, rest, rfl⟩ := List.exists_cons_of_ne_nil hne
      refine ⟨a, List.mem_cons_self _ _, ?_⟩
      have h1 := length_le_CN_max (a :: rest) a (List.mem_cons_self _ _)
      have h2 : CN_max (a :: rest) = 0 := h
      omega
    · exact h

/-- C12: after `Cell::CN` on a cell with `n` elements whose atoms and bonded-neighbor
records carry element indices in `[0, n)`, no index is out of range (the call
succeeds), only `coordination` changes, the tensor has shape `n x n x (D + 2)` with `D`
the largest length of a bonded-neighbor list (`0` without atoms), and
`coordination[c][e][k]` is the number of atoms of element index `c` that have exactly
`k` bonded-neighbor records of element index `e`. -/
theorem CN_tensor (c : Cell K)
    (hel : ∀ a ∈ c.atoms, 0 ≤ a.element_id ∧ a.element_id < (c.elements.length : ℤ))
    (hb : ∀ a ∈ c.atoms, ∀ img ∈ a.bonded_atoms,
      0 ≤ img.element_id ∧ img.element_id < (c.elements.length : ℤ)) :
    ∃ (t : List (List (List ℤ))) (D : ℕ), CN c = some { c with coordination := t } ∧
      (∀ a ∈ c.atoms, a.bonded_atoms.length ≤ D) ∧
      (c.atoms = [] → D = 0) ∧
      (c.atoms ≠ [] → ∃ a ∈ c.atoms, a.bonded_atoms.length = D) ∧
      t.length = c.elements.length ∧
      (∀ row ∈ t, row.length = c.elements.length ∧ ∀ col ∈ row, col.length = D + 2) ∧
      ∀ ce e k : ℕ, ce < c.elements.length → e < c.elements.length → k < D + 2 →
        ((t[ce]?).bind fun row => (row[e]?).bind fun col => col[k]?)
          = some ((c.atoms.countP fun a =>
              decide (a.element_id = (ce : ℤ) ∧
                (a.bonded_atoms.countP fun img => decide (img.element_id = (e : ℤ))) = k) :
                ℕ) : ℤ) := by
  obtain ⟨t, h1, hs, he⟩ := CN_spec c hel hb
  obtain ⟨hle, hnil, hne⟩ := CN_max_spec c.atoms
  have hnn := CN_max_nonneg c.atoms
  have hD : (CN_max c.atoms + 2).toNat = (CN_max c.atoms).toNat + 2 := by omega
  rw [hD] at hs
  refine ⟨t, (CN_max c.atoms).toNat, h1, ?_, ?_, ?_, hs.1, hs.2, ?_⟩
  · intro a ha
    have := hle a ha
    omega
  · intro h
    rw [hnil h]; rfl
  · intro h
    obtain ⟨a, ha, hlen⟩ := hne h
    exact ⟨a, ha, by omega⟩
  · intro ce e k hce hek hk
    obtain ⟨row, col, v, hrow, hcol, hv, _, _⟩ := hs.getElem? hce hek hk
    have hent := he ce e k hek
    unfold entry3 at hent
    rw [hrow, Option.getD_some, hcol, Option.getD_some, hv, Option.getD_some] at hent
    rw [hrow, Option.some_bind, hcol, Option.some_bind, hv, hent]
    rfl

end CNtensor

/-- C12, witness: a cell with the elements `Si`, `O` and one atom of element index `0`
without bonded neighbors. -/
theorem CN_tensor_witness :
    ∃ (t : List (List (List ℤ))) (D : ℕ),
      CN (cubicCell ℚ [mkAtom "Si" 0 ⟨0, 0, 0⟩] ["Si", "O"])
        = some { cubicCell ℚ [mkAtom "Si" 0 ⟨0, 0, 0⟩] ["Si", "O"] with coordination := t } ∧
      t.length = 2 ∧
      (∀ row ∈ t, row.length = 2 ∧ ∀ col ∈ row, col.length = D + 2) := by
  obtain ⟨t, D, h1, _, _, _, h5, h6, _⟩ := CN_tensor
    (cubicCell ℚ [mkAtom "Si" 0 ⟨0, 0, 0⟩] ["Si", "O"])
    (by simp [cubicCell, mkAtom]) (by simp [cubicCell, mkAtom])
  exact ⟨t, D, h1, h5, h6⟩

/-! ## Self pairs and repeated passes -/

section RDFrecords

variable {K : Type} [LinearOrderedField K]

theorem mem_newBonds_atom_id (m : Libm K) (c : Cell K) (offs : List (ℤ × ℤ × ℤ))
    (atoms : List (Atom K)) (A : Atom K) (r : Atom_Img K)
    (hr : r ∈ newBonds m c offs atoms A) : r.atom_id ≠ A.number := by
  unfold newBonds at hr
  rw [List.mem_flatMap] at hr
  obtain ⟨B, _, hB⟩ := hr
  unfold pairBonds at hB
  split_ifs at hB with hne
  · rw [List.mem_map] at hB
    obtain ⟨off, _, rfl⟩ := hB
    exact Ne.symm hne
  · simp at hB

theorem pairDistances_self (m : Libm K) (c : Cell K) (offs : List (ℤ × ℤ × ℤ))
    (A : Atom K) : pairDistances m c offs A A = [] := by
  simp [pairDistances]

theorem pairBonds_self (m : Libm K) (c : Cell K) (offs : List (ℤ × ℤ × ℤ))
    (A : Atom K) : pairBonds m c offs A A = [] := by
  simp [pairBonds]

/-- The recorded distances do not depend on the bonded-neighbor lists of the atoms. -/
theorem distancesFrom_map_bonded (m : Libm K) (c : Cell K) (offs : List (ℤ × ℤ × ℤ))
    (atoms : List (Atom K)) (g : Atom K → List (Atom_Img K)) (x y : ℕ) :
    distancesFrom m c offs (atoms.map fun A => { A with bonded_atoms := g A }) x y
        (atoms.map fun A => { A with bonded_atoms := g A })
      = distancesFrom m c offs atoms x y atoms := by
  simp only [distancesFrom, List.flatMap_map]
  rfl

/-- The appended records do not depend on the bonded-neighbor lists of the atoms. -/
theorem newBonds_map_bonded (m : Libm K) (c : Cell K) (offs : List (ℤ × ℤ × ℤ))
    (atoms : List (Atom K)) (g : Atom K → List (Atom_Img K)) (A : Atom K)
    (bonded : List (Atom_Img K)) :
    newBonds m c offs (atoms.map fun B => { B with bonded_atoms := g B })
        { A with bonded_atoms := bonded }
      = newBonds m c offs atoms A := by
  simp only [newBonds, List.flatMap_map]
  rfl

end RDFrecords

section RDFself

variable {K : Type} [LinearOrderedField K] [FloorRing K]

/-- The cell that `Cell::RDF` returns (see `RDF_spec`), for a given distance table. -/
theorem RDF_result_atoms (m : Libm K) (radii : String → K) (c : Cell K)
    (r_cut bond_len : K) (hres : ∀ a ∈ c.atoms, a.element ∈ c.elements) :
    ∃ c', RDF m radii c r_cut bond_len = some c' ∧
      c'.v_a_ = c.v_a_ ∧ c'.v_b_ = c.v_b_ ∧ c'.v_c_ = c.v_c_ ∧ c'.elements = c.elements ∧
      c'.bond_length = (preparedCell radii c bond_len).bond_length ∧
      c'.atoms = (preparedCell radii c bond_len).atoms.map (fun A =>
        { A with
          bonded_atoms := A.bonded_atoms ++
            newBonds m (preparedCell radii c bond_len)
              (imageOffsets (preparedCell radii c bond_len) r_cut)
              (preparedCell radii c bond_len).atoms A }) ∧
      Shape2 c.elements.length c'.distances ∧
      ∀ x y, bucket c'.distances x y = distancesFrom m (preparedCell radii c bond_len)
        (imageOffsets (preparedCell radii c bond_len) r_cut)
        (preparedCell radii c bond_len).atoms x y (preparedCell radii c bond_len).atoms := by
  obtain ⟨td, h1, hs, hb⟩ := RDF_spec m radii c r_cut bond_len hres
  exact ⟨_, h1, rfl, rfl, rfl, rfl, rfl, rfl, hs, hb⟩

/-- C19: for a cell whose atoms have their elements in the element table and empty
bonded-neighbor lists, after `Cell::RDF` no bonded-neighbor record of an atom carries the
number of that atom, whatever the image offset; the bucket `distances[x][y]` holds the
distances from the atoms `A` of element index `x` to the images of the atoms `B` of
element index `y` with a number other than that of `A` and nothing else (an atom has no
distance to an image of itself); and a cell with a single atom gets an empty
bonded-neighbor list and empty buckets, for every cutoff and bond factor. -/
theorem RDF_excludes_self (m : Libm K) (radii : String → K) (c : Cell K)
    (r_cut bond_len : K) (hres : ∀ a ∈ c.atoms, a.element ∈ c.elements)
    (hempty : ∀ a ∈ c.atoms, a.bonded_atoms = []) :
    ∃ c', RDF m radii c r_cut bond_len = some c' ∧
      (∀ A ∈ c'.atoms, ∀ r ∈ A.bonded_atoms, r.atom_id ≠ A.number) ∧
      (∀ x y, bucket c'.distances x y
        = c'.atoms.flatMap fun A =>
            if elementIndex c' A = (x : ℤ) then
              c'.atoms.flatMap fun B =>
                if elementIndex c' B = (y : ℤ) then
                  if A.number ≠ B.number then
                    (imageOffsets c' r_cut).map fun off =>
                      Atom.Distance m A (imageAtom c' B off)
                  else []
                else []
            else []) ∧
      (∀ a, c.atoms = [a] →
        (∀ A ∈ c'.atoms, A.bonded_atoms = []) ∧ ∀ x y, bucket c'.distances x y = []) := by
  obtain ⟨c', h1, hva, hvb, hvc, hel, hbl, hat, _, hb⟩ :=
    RDF_result_atoms m radii c r_cut bond_len hres
  have hempty0 : ∀ A0 ∈ (preparedCell radii c bond_len).atoms, A0.bonded_atoms = [] := by
    intro A0 hA0
    rw [preparedCell_atoms, List.mem_map] at hA0
    obtain ⟨a, ha, rfl⟩ := hA0
    exact hempty a ha
  have hoffs : imageOffsets c' r_cut = imageOffsets (preparedCell radii c bond_len) r_cut := by
    simp only [imageOffsets, replication, hva, hvb, hvc]
    rfl
  have hdist : ∀ x y, bucket c'.distances x y
      = distancesFrom m c' (imageOffsets c' r_cut) c'.atoms x y c'.atoms := by
    intro x y
    rw [hb x y, hat, hoffs, distancesFrom_map_bonded]
    simp only [distancesFrom, pairDistances, elementIndex, imageAtom, hva, hvb, hvc, hel]
    rfl
  refine ⟨c', h1, ?_, ?_, ?_⟩
  · intro A hA r hr
    rw [hat, List.mem_map] at hA
    obtain ⟨A0, hA0, rfl⟩ := hA
    simp only [hempty0 A0 hA0, List.nil_append] at hr
    exact mem_newBonds_atom_id m _ _ _ A0 r hr
  · intro x y
    rw [hdist x y]
    rfl
  · intro a ha
    have hprep : ∃ a0, (preparedCell radii c bond_len).atoms = [a0] := by
      rw [preparedCell_atoms, ha]
      exact ⟨_, rfl⟩
    obtain ⟨a0, ha0⟩ := hprep
    constructor
    · intro A hA
      rw [hat, ha0] at hA
      simp only [List.map_cons, List.map_nil, List.mem_singleton] at hA
      rw [hA]
      have : a0.bonded_atoms = [] := hempty0 a0 (by rw [ha0]; simp)
      simp [this, newBonds, pairBonds_self]
    · intro x y
      rw [hb x y, ha0]
      simp [distancesFrom, pairDistances_self]

end RDFself

/-- C19, witness: two atoms, `Si` at the origin and `O` at `(1/2, 0, 0)`, in the cubic
cell of edge `1` over the reals, with cutoff `1` and every covalent radius `1`. -/
theorem RDF_excludes_self_witness :
    ∃ c', RDF ⟨Real.sqrt, Real.cos, Real.sin, Real.arccos⟩ (fun _ => 1)
        (cubicCell ℝ [mkAtom "Si" 0 ⟨0, 0, 0⟩, mkAtom "O" 1 ⟨1 / 2, 0, 0⟩] ["Si", "O"]) 1 1
        = some c' ∧
      ∀ A ∈ c'.atoms, ∀ r ∈ A.bonded_atoms, r.atom_id ≠ A.number := by
  obtain ⟨c', h1, h2, _⟩ := RDF_excludes_self ⟨Real.sqrt, Real.cos, Real.sin, Real.arccos⟩
    (fun _ => (1 : ℝ))
    (cubicCell ℝ [mkAtom "Si" 0 ⟨0, 0, 0⟩, mkAtom "O" 1 ⟨1 / 2, 0, 0⟩] ["Si", "O"]) 1 1
    (by simp [cubicCell, mkAtom]) (by simp [cubicCell, mkAtom])
  exact ⟨c', h1, h2⟩

section RDFtwice

variable {K : Type} [LinearOrderedField K] [FloorRing K]

/-- A second `Cell::RDF` with the same cutoff and bond factor, on a cell whose folded
positions are fixed points of the folding: the distance table is the same, and every
bonded-neighbor list holds its records twice. -/
theorem RDF_twice (m : Libm K) (radii : String → K) (c : Cell K) (r_cut bond_len : K)
    (hres : ∀ a ∈ c.atoms, a.element ∈ c.elements)
    (hempty : ∀ a ∈ c.atoms, a.bonded_atoms = [])
    (hfix : ∀ a ∈ c.atoms,
      foldPosition c.v_a_ c.v_b_ c.v_c_ (foldPosition c.v_a_ c.v_b_ c.v_c_ a.position)
        = foldPosition c.v_a_ c.v_b_ c.v_c_ a.position) :
    ∃ c1 c2, RDF m radii c r_cut bond_len = some c1 ∧
      RDF m radii c1 r_cut bond_len = some c2 ∧
      c1.atoms = (preparedCell radii c bond_len).atoms.map (fun A =>
        { A with
          bonded_atoms := newBonds m (preparedCell radii c bond_len)
            (imageOffsets (preparedCell radii c bond_len) r_cut)
            (preparedCell radii c bond_len).atoms A }) ∧
      c2.atoms = c1.atoms.map (fun A =>
        { A with bonded_atoms := A.bonded_atoms ++ A.bonded_atoms }) ∧
      ∀ x y, bucket c2.distances x y = bucket c1.distances x y := by
  obtain ⟨td, h1, hs, hb⟩ := RDF_spec m radii c r_cut bond_len hres
  have hempty0 : ∀ A0 ∈ (preparedCell radii c bond_len).atoms, A0.bonded_atoms = [] := by
    intro A0 hA0
    rw [preparedCell_atoms, List.mem_map] at hA0
    obtain ⟨a, ha, rfl⟩ := hA0
    exact hempty a ha
  have hprep : preparedCell radii
      { preparedCell radii c bond_len with
        atoms := (preparedCell radii c bond_len).atoms.map fun A =>
          { A with
            bonded_atoms := A.bonded_atoms ++
              newBonds m (preparedCell radii c bond_len)
                (imageOffsets (preparedCell radii c bond_len) r_cut)
                (preparedCell radii c bond_len).atoms A }
        distances := td } bond_len
      = { preparedCell radii c bond_len with
          atoms := (preparedCell radii c bond_len).atoms.map fun A =>
            { A with
              bonded_atoms := A.bonded_atoms ++
                newBonds m (preparedCell radii c bond_len)
                  (imageOffsets (preparedCell radii c bond_len) r_cut)
                  (preparedCell radii c bond_len).atoms A }
          distances := td } := by
    simp only [preparedCell, CorrectPositions, PopulateBondLength, List.map_map]
    congr 1
    apply List.map_congr_left
    intro a ha
    simp only [Function.comp_def, hfix a ha]
  have hres1 : ∀ a ∈ ({ preparedCell radii c bond_len with
        atoms := (preparedCell radii c bond_len).atoms.map fun A =>
          { A with
            bonded_atoms := A.bonded_atoms ++
              newBonds m (preparedCell radii c bond_len)
                (imageOffsets (preparedCell radii c bond_len) r_cut)
                (preparedCell radii c bond_len).atoms A }
        distances := td } : Cell K).atoms,
      a.element ∈ c.elements := by
    intro a ha
    simp only [List.mem_map] at ha
    obtain ⟨A0, hA0, rfl⟩ := ha
    rw [preparedCell_atoms, List.mem_map] at hA0
    obtain ⟨a0, ha0, rfl⟩ := hA0
    exact hres a0 ha0
  obtain ⟨td2, h2, _, hb2⟩ := RDF_spec m radii _ r_cut bond_len hres1
  rw [hprep] at h2 hb2
  refine ⟨_, _, h1, h2, ?_, ?_, ?_⟩
  · apply List.map_congr_left
    intro A0 hA0
    simp [hempty0 A0 hA0]
  · simp only [List.map_map]
    apply List.map_congr_left
    intro A0 hA0
    simp only [Function.comp_def, hempty0 A0 hA0, List.nil_append]
    rw [newBonds_map_bonded]
    rfl
  · intro x y
    rw [hb2 x y, hb x y, distancesFrom_map_bonded]
    rfl

end RDFtwice

theorem foldPosition_cube_origin :
    foldPosition (⟨1, 0, 0⟩ : Vec3 ℝ) ⟨0, 1, 0⟩ ⟨0, 0, 1⟩ ⟨0, 0, 0⟩ = ⟨0, 0, 0⟩ := by
  have h := foldEps_pos (K := ℝ)
  apply foldPosition_fixed <;>
    simp only [fractional, Vec3.sub, Vec3.smul] <;> constructor <;> norm_num <;> linarith

theorem foldPosition_cube_half :
    foldPosition (⟨1, 0, 0⟩ : Vec3 ℝ) ⟨0, 1, 0⟩ ⟨0, 0, 1⟩ ⟨1 / 2, 0, 0⟩ = ⟨1 / 2, 0, 0⟩ := by
  have h := foldEps_pos (K := ℝ)
  apply foldPosition_fixed <;>
    simp only [fractional, Vec3.sub, Vec3.smul] <;> constructor <;> norm_num <;> linarith

theorem findInVector_Si : findInVector ["Si", "O"] "Si" = (true, 0) := by decide

theorem findInVector_O : findInVector ["Si", "O"] "O" = (true, 1) := by decide

/-- The atoms on which the loops of `Cell::RDF` run for the cubic cell with `Si` at the
origin and `O` at `(1/2, 0, 0)`. -/
theorem preparedCell_SiO_atoms (f : ℝ) :
    (preparedCell (fun _ => (1 : ℝ))
        (cubicCell ℝ [mkAtom "Si" 0 ⟨0, 0, 0⟩, mkAtom "O" 1 ⟨1 / 2, 0, 0⟩] ["Si", "O"]) f).atoms
      = [{ element := "Si", element_id := 0, position := ⟨0, 0, 0⟩, number := 0,
           bonded_atoms := [] },
         { element := "O", element_id := 1, position := ⟨1 / 2, 0, 0⟩, number := 1,
           bonded_atoms := [] }] := by
  rw [preparedCell_atoms]
  simp only [cubicCell, mkAtom, List.map_cons, List.map_nil, findInVector_Si,
    findInVector_O, foldPosition_cube_origin, foldPosition_cube_half]

/-- C16, the code at the failing input: in the cubic cell of edge `1` with `Si` at the
origin and `O` at `(1/2, 0, 0)` (distinct numbers, positions inside the cell, no bonded
neighbors yet), cutoff `1`, bond factor `1` and covalent radii `1`, a first `Cell::RDF`
leaves an atom with a non-empty bonded-neighbor list, and a second `Cell::RDF` keeps the
distance table but stores every bonded-neighbor list twice over. -/
theorem RDF_twice_doubles_bonds :
    ∃ c1 c2,
      RDF ⟨Real.sqrt, Real.cos, Real.sin, Real.arccos⟩ (fun _ => 1)
        (cubicCell ℝ [mkAtom "Si" 0 ⟨0, 0, 0⟩, mkAtom "O" 1 ⟨1 / 2, 0, 0⟩] ["Si", "O"]) 1 1
        = some c1 ∧
      RDF ⟨Real.sqrt, Real.cos, Real.sin, Real.arccos⟩ (fun _ => 1) c1 1 1 = some c2 ∧
      (∀ x y, bucket c2.distances x y = bucket c1.distances x y) ∧
      c2.atoms = c1.atoms.map (fun A =>
        { A with bonded_atoms := A.bonded_atoms ++ A.bonded_atoms }) ∧
      ∃ A ∈ c1.atoms, A.bonded_atoms ≠ [] := by
  obtain ⟨c1, c2, h1, h2, hat1, hat2, hd⟩ := RDF_twice
    ⟨Real.sqrt, Real.cos, Real.sin, Real.arccos⟩ (fun _ => (1 : ℝ))
    (cubicCell ℝ [mkAtom "Si" 0 ⟨0, 0, 0⟩, mkAtom "O" 1 ⟨1 / 2, 0, 0⟩] ["Si", "O"]) 1 1
    (by simp [cubicCell, mkAtom]) (by simp [cubicCell, mkAtom])
    (by
      intro a ha
      simp only [cubicCell, mkAtom, List.mem_cons, List.mem_singleton, List.not_mem_nil,
        or_false] at ha
      rcases ha with rfl | rfl
      · simp only [cubicCell, foldPosition_cube_origin]
      · simp only [cubicCell, foldPosition_cube_half])
  refine ⟨c1, c2, h1, h2, hd, hat2, ?_⟩
  rw [hat1, preparedCell_SiO_atoms]
  refine ⟨_, List.mem_cons_self _ _, ?_⟩
  apply List.ne_nil_of_mem
    (a := ({ atom_id := 1, element_id := 1, position := ⟨1 / 2, 0, 0⟩ } : Atom_Img ℝ))
  simp only [newBonds, List.flatMap_cons, List.flatMap_nil, pairBonds_self, List.nil_append,
    List.append_nil]
  unfold pairBonds
  rw [if_pos (by decide), List.mem_map]
  refine ⟨(0, 0, 0), ?_, ?_⟩
  · rw [List.mem_filter]
    constructor
    · rw [mem_imageOffsets]
      simp only [replication, preparedCell, CorrectPositions, PopulateBondLength, cubicCell,
        div_one, Int.ceil_one]
      decide
    · rw [decide_eq_true_eq]
      simp only [Atom.Distance, Vec3.distance, imageAtom, bondThreshold, bondLengthAt,
        preparedCell_bond_length, cubicCell, getAt]
      have h4 : Real.sqrt 4 = 2 := by
        rw [show (4 : ℝ) = 2 ^ 2 by norm_num, Real.sqrt_sq (by norm_num)]
      norm_num [h4]
  · simp [Atom.GetImage, imageAtom, preparedCell, CorrectPositions, PopulateBondLength,
      cubicCell]

/-! ## Tables of numbers -/

section TableLemmas

variable {K : Type}

theorem foldlM_flatMap_option {α β σ : Type} (f : α → List β) (g : σ → β → Option σ)
    (l : List α) : ∀ s : σ,
    (l.flatMap f).foldlM g s = l.foldlM (fun s a => (f a).foldlM g s) s := by
  induction l with
  | nil => intro s; rfl
  | cons a rest ih =>
    intro s
    rw [List.flatMap_cons, List.foldlM_append, List.foldlM_cons]
    cases (f a).foldlM g s with
    | none => rfl
    | some s' => exact ih s'

theorem ShapeTable_replicate {α : Type} (n_ m_ : ℕ) (v : α) :
    ShapeTable n_ m_ (List.replicate n_ (List.replicate m_ v)) := by
  refine ⟨by simp, ?_⟩
  intro column h
  rw [List.eq_of_mem_replicate h]
  simp

theorem entry2_replicate [Zero K] (n_ m_ c r : ℕ) :
    entry2 (List.replicate n_ (List.replicate m_ (0 : K))) c r = 0 := by
  unfold entry2
  simp only [List.getElem?_replicate]
  by_cases hc : c < n_
  · rw [if_pos hc]
    simp only [Option.getD_some, List.getElem?_replicate]
    split_ifs <;> simp
  · rw [if_neg hc]
    simp

/-- The entry read as the source does, inside the table. -/
theorem entry2_eq_getElem? [Zero K] {n_ m_ : ℕ} {t : List (List K)}
    (h : ShapeTable n_ m_ t) {c r : ℕ} (hc : c < n_) (hr : r < m_) :
    ((t[c]?).bind fun column => column[r]?) = some (entry2 t c r) := by
  obtain ⟨hlen, hcols⟩ := h
  have hc' : c < t.length := by omega
  have hcol := hcols t[c] (List.getElem_mem hc')
  have hr' : r < t[c].length := by omega
  unfold entry2
  rw [List.getElem?_eq_getElem hc']
  simp [List.getElem?_eq_getElem hr']

/-- The update of one entry of a table by a function. -/
theorem modifyEntry_spec [Zero K] {n_ m_ : ℕ} {t : List (List K)} (h : ShapeTable n_ m_ t)
    (g : K → K) {c r : ℕ} (hc : c < n_) (hr : r < m_) :
    ∃ t', modifyAt (fun column => modifyAt (fun v => some (g v)) column (r : ℤ)) t (c : ℤ)
        = some t' ∧ ShapeTable n_ m_ t' ∧
      ∀ i j, entry2 t' i j = if i = c ∧ j = r then g (entry2 t i j) else entry2 t i j := by
  obtain ⟨hlen, hcols⟩ := h
  have hc' : c < t.length := by omega
  have hcol := hcols t[c] (List.getElem_mem hc')
  have hr' : r < t[c].length := by omega
  refine ⟨t.set c (t[c].set r (g t[c][r])), ?_, ?_, ?_⟩
  · rw [modifyAt_natCast _ t c t[c] (t[c].set r (g t[c][r])) (List.getElem?_eq_getElem hc')]
    rw [modifyAt_natCast _ t[c] r t[c][r] (g t[c][r]) (List.getElem?_eq_getElem hr') rfl]
  · refine ⟨by simp [hlen], ?_⟩
    intro col hcol'
    rcases List.mem_or_eq_of_mem_set hcol' with hcol' | hcol'
    · exact hcols col hcol'
    · subst hcol'
      simp [hcol]
  · intro i j
    unfold entry2
    by_cases hi : i = c
    · subst hi
      rw [List.getElem?_set_self hc', List.getElem?_eq_getElem hc']
      simp only [Option.getD_some, true_and]
      by_cases hj : j = r
      · subst hj
        rw [List.getElem?_set_self hr', List.getElem?_eq_getElem hr']
        simp
      · rw [List.getElem?_set_ne (Ne.symm hj)]
        simp [hj]
    · rw [List.getElem?_set_ne (Ne.symm hi)]
      simp [hi]

theorem fillAxis_fold [Zero K] {n_ m_ : ℕ} (f : ℕ → K) (hn : 0 < n_) (k : ℕ) (hk : k ≤ m_) :
    ∀ t : List (List K), ShapeTable n_ m_ t →
    ∃ t', (List.range k).foldlM (fun t (i : ℕ) => setEntry t 0 (i : ℤ) (f i)) t = some t' ∧
      ShapeTable n_ m_ t' ∧
      (∀ r, entry2 t' 0 r = if r < k then f r else entry2 t 0 r) ∧
      ∀ c r, 0 < c → entry2 t' c r = entry2 t c r := by
  induction k with
  | zero =>
    intro t ht
    exact ⟨t, rfl, ht, by simp, fun _ _ _ => rfl⟩
  | succ k ih =>
    intro t ht
    obtain ⟨t1, h1, hs1, ha1, hb1⟩ := ih (by omega) t ht
    obtain ⟨t2, h2, hs2, he2⟩ := modifyEntry_spec hs1 (fun _ => f k) hn
      (show k < m_ by omega)
    refine ⟨t2, ?_, hs2, ?_, ?_⟩
    · rw [List.range_succ, List.foldlM_append, h1]
      simp only [List.foldlM_cons, List.foldlM_nil, setEntry, Option.some_bind,
        Option.bind_eq_bind]
      have h2' : modifyAt (fun column => modifyAt (fun _ => some (f k)) column (k : ℤ)) t1
          ((0 : ℕ) : ℤ) = some t2 := h2
      simp only [Nat.cast_zero] at h2'
      rw [h2']
      rfl
    · intro r
      rw [he2 0 r, ha1 r]
      by_cases hr : r = k
      · subst hr
        simp
      · have h3 : (r < k + 1) ↔ (r < k) := by omega
        simp [hr, h3]
    · intro c r hc
      rw [he2 c r, hb1 c r hc]
      have : ¬ (c = 0 ∧ r = k) := by omega
      rw [if_neg this]

theorem fillAxis_spec [Zero K] {n_ m_ : ℕ} (f : ℕ → K) (hn : 0 < n_) (t : List (List K))
    (ht : ShapeTable n_ m_ t) :
    ∃ t', fillAxis f m_ t = some t' ∧ ShapeTable n_ m_ t' ∧
      (∀ r, r < m_ → entry2 t' 0 r = f r) ∧
      ∀ c r, 0 < c → entry2 t' c r = entry2 t c r := by
  obtain ⟨t', h1, hs, ha, hb⟩ := fillAxis_fold f hn m_ (le_refl _) t ht
  refine ⟨t', h1, hs, ?_, hb⟩
  intro r hr
  rw [ha r, if_pos hr]

end TableLemmas

section Binning

variable {K : Type} [LinearOrderedField K] [FloorRing K]

theorem RDF_bin_spec {n_ m_ : ℕ} (w : K) (col i j : ℕ) (t : List (List K)) (d : K)
    (ht : ShapeTable n_ m_ t) (hc : col < n_) (h0 : 0 ≤ ⌊d / w⌋) :
    ∃ t', RDF_bin w (m_ : ℤ) (col : ℤ) i j t d = some t' ∧ ShapeTable n_ m_ t' ∧
      ∀ c r, r < m_ → entry2 t' c r = entry2 t c r +
        if c = col ∧ ⌊d / w⌋ = (r : ℤ) then (if i ≠ j then 2 else 1) else 0 := by
  have hcast : ⌊d / w⌋ = ((⌊d / w⌋.toNat : ℕ) : ℤ) := (Int.toNat_of_nonneg h0).symm
  by_cases hrow : ⌊d / w⌋ < (m_ : ℤ)
  · have hr : ⌊d / w⌋.toNat < m_ := by omega
    obtain ⟨t1, h1, hs1, he1⟩ := modifyEntry_spec ht (fun v => v + 1) hc hr
    obtain ⟨t2, h2, hs2, he2⟩ := modifyEntry_spec hs1 (fun v => v + 1) hc hr
    rw [← hcast] at h1 h2
    by_cases hij : i ≠ j
    · refine ⟨t2, ?_, hs2, ?_⟩
      · simp only [RDF_bin, if_pos hrow, incr2, h1, Option.some_bind, if_pos hij, h2]
      · intro c r _
        rw [he2 c r, he1 c r, if_pos hij]
        have hiff : (c = col ∧ r = ⌊d / w⌋.toNat) ↔ (c = col ∧ ⌊d / w⌋ = (r : ℤ)) := by
          constructor
          · rintro ⟨h3, h4⟩; exact ⟨h3, by omega⟩
          · rintro ⟨h3, h4⟩; exact ⟨h3, by omega⟩
        by_cases hcr : c = col ∧ ⌊d / w⌋ = (r : ℤ)
        · rw [if_pos (hiff.mpr hcr), if_pos (hiff.mpr hcr), if_pos hcr]
          ring
        · rw [if_neg (fun h => hcr (hiff.mp h)), if_neg (fun h => hcr (hiff.mp h)),
            if_neg hcr, add_zero]
    · refine ⟨t1, ?_, hs1, ?_⟩
      · simp only [RDF_bin, if_pos hrow, incr2, h1, Option.some_bind, if_neg hij]
      · intro c r _
        rw [he1 c r, if_neg hij]
        have hiff : (c = col ∧ r = ⌊d / w⌋.toNat) ↔ (c = col ∧ ⌊d / w⌋ = (r : ℤ)) := by
          constructor
          · rintro ⟨h3, h4⟩; exact ⟨h3, by omega⟩
          · rintro ⟨h3, h4⟩; exact ⟨h3, by omega⟩
        by_cases hcr : c = col ∧ ⌊d / w⌋ = (r : ℤ)
        · rw [if_pos (hiff.mpr hcr), if_pos hcr]
        · rw [if_neg (fun h => hcr (hiff.mp h)), if_neg hcr, add_zero]
  · refine ⟨t, ?_, ht, ?_⟩
    · simp only [RDF_bin, if_neg hrow]
    · intro c r hr
      have : ¬ (c = col ∧ ⌊d / w⌋ = (r : ℤ)) := by
        rintro ⟨_, h⟩
        apply hrow
        rw [h]
        exact_mod_cast hr
      rw [if_neg this, add_zero]

/-- The number of samples that fall into the row `r`: those with `floor(d / w) = r`. -/
theorem binCount_cons (w : K) (d : K) (rest : List K) (r : ℕ) :
    (((d :: rest).countP fun x => decide (⌊x / w⌋ = (r : ℤ)) : ℕ) : K)
      = (if ⌊d / w⌋ = (r : ℤ) then 1 else 0)
        + ((rest.countP fun x => decide (⌊x / w⌋ = (r : ℤ)) : ℕ) : K) := by
  rw [List.countP_cons]
  by_cases h : ⌊d / w⌋ = (r : ℤ)
  · simp [h]; ring
  · simp [h]

theorem RDF_samples_fold {n_ m_ : ℕ} (w : K) (col i j : ℕ) (hc : col < n_)
    (samples : List K) (h0 : ∀ d ∈ samples, 0 ≤ ⌊d / w⌋) :
    ∀ t : List (List K), ShapeTable n_ m_ t →
    ∃ t', samples.foldlM (RDF_bin w (m_ : ℤ) (col : ℤ) i j) t = some t' ∧
      ShapeTable n_ m_ t' ∧
      ∀ c r, r < m_ → entry2 t' c r =
        if c = col then
          entry2 t c r + (if i ≠ j then 2 else 1)
            * ((samples.countP fun x => decide (⌊x / w⌋ = (r : ℤ)) : ℕ) : K)
        else entry2 t c r := by
  induction samples with
  | nil =>
    intro t ht
    refine ⟨t, rfl, ht, ?_⟩
    intro c r _
    simp
  | cons d rest ih =>
    intro t ht
    obtain ⟨t1, h1, hs1, he1⟩ := RDF_bin_spec w col i j t d ht hc
      (h0 d (List.mem_cons_self _ _))
    obtain ⟨t', h2, hs2, he2⟩ := ih (fun x hx => h0 x (List.mem_cons_of_mem _ hx)) t1 hs1
    refine ⟨t', ?_, hs2, ?_⟩
    · rw [List.foldlM_cons, h1]
      exact h2
    · intro c r hr
      rw [he2 c r hr, he1 c r hr, binCount_cons]
      by_cases hcc : c = col
      · rw [if_pos hcc, if_pos hcc]
        by_cases hd : ⌊d / w⌋ = (r : ℤ)
        · rw [if_pos ⟨hcc, hd⟩, if_pos hd]
          ring
        · rw [if_neg (fun h => hd h.2), if_neg hd]
          ring
      · rw [if_neg hcc, if_neg hcc, if_neg (fun h => hcc h.1), add_zero]

end Binning

section Columns

variable {K : Type} [Zero K]

/-- A loop that advances `col` and lets every job work on its own column: the column
`col0 + 1 + p` is transformed by the job at position `p`, the other columns are left
alone. -/
theorem columns_fold {Job : Type} (n_ m_ : ℕ)
    (step : ℤ → List (List K) → Job → Option (List (List K))) (F : Job → ℕ → K → K)
    (js : List Job)
    (hstep : ∀ job ∈ js, ∀ (col : ℕ) (t : List (List K)), col < n_ → ShapeTable n_ m_ t →
      ∃ t', step (col : ℤ) t job = some t' ∧ ShapeTable n_ m_ t' ∧
        ∀ c r, r < m_ → entry2 t' c r
          = if c = col then F job r (entry2 t c r) else entry2 t c r) :
    ∀ (col0 : ℕ) (t : List (List K)), col0 + js.length < n_ → ShapeTable n_ m_ t →
    ∃ t', js.foldlM (fun (st : ℤ × List (List K)) job =>
          (step (st.1 + 1) st.2 job).map fun t => (st.1 + 1, t)) ((col0 : ℤ), t)
        = some (((col0 + js.length : ℕ) : ℤ), t') ∧
      ShapeTable n_ m_ t' ∧
      (∀ p job, js[p]? = some job → ∀ r, r < m_ →
        entry2 t' (col0 + 1 + p) r = F job r (entry2 t (col0 + 1 + p) r)) ∧
      ∀ c, (c ≤ col0 ∨ col0 + js.length < c) → ∀ r, r < m_ →
        entry2 t' c r = entry2 t c r := by
  induction js with
  | nil =>
    intro col0 t _ ht
    refine ⟨t, by simp, ht, ?_, fun _ _ _ _ => rfl⟩
    intro p job hp
    simp at hp
  | cons job rest ih =>
    intro col0 t hlen ht
    simp only [List.length_cons] at hlen
    obtain ⟨t1, h1, hs1, he1⟩ := hstep job (List.mem_cons_self _ _) (col0 + 1) t
      (by omega) ht
    obtain ⟨t', h2, hs2, ha2, hb2⟩ := ih
      (fun j hj => hstep j (List.mem_cons_of_mem _ hj)) (col0 + 1) t1 (by omega) hs1
    refine ⟨t', ?_, hs2, ?_, ?_⟩
    · rw [List.foldlM_cons]
      have h1' : step ((col0 : ℤ) + 1) t job = some t1 := by
        have : ((col0 + 1 : ℕ) : ℤ) = (col0 : ℤ) + 1 := by push_cast; rfl
        rw [← this]; exact h1
      simp only [h1', Option.map_some', Option.some_bind, Option.bind_eq_bind]
      have h2' : List.foldlM (fun (st : ℤ × List (List K)) job =>
          (step (st.1 + 1) st.2 job).map fun t => (st.1 + 1, t))
          ((col0 : ℤ) + 1, t1) rest = some (((col0 + 1 + rest.length : ℕ) : ℤ), t') := by
        have : ((col0 + 1 : ℕ) : ℤ) = (col0 : ℤ) + 1 := by push_cast; rfl
        rw [← this]; exact h2
      rw [h2']
      have : col0 + 1 + rest.length = col0 + (rest.length + 1) := by omega
      simp [this]
    · intro p j hp r hr
      cases p with
      | zero =>
        simp only [List.getElem?_cons_zero, Option.some.injEq] at hp
        subst hp
        rw [hb2 (col0 + 1 + 0) (Or.inl (by omega)) r hr, he1 _ r hr]
        simp
      | succ p =>
        simp only [List.getElem?_cons_succ] at hp
        have h3 := ha2 p j hp r hr
        have h4 : col0 + 1 + (p + 1) = col0 + 1 + 1 + p := by omega
        rw [h4, h3, he1 _ r hr]
        have : ¬ (col0 + 1 + 1 + p = col0 + 1) := by omega
        rw [if_neg this]
    · intro c hc r hr
      simp only [List.length_cons] at hc
      rw [hb2 c (by omega) r hr, he1 c r hr]
      have : ¬ (c = col0 + 1) := by omega
      rw [if_neg this]

end Columns

/-! ## The columns of the histograms -/

theorem sum_range_sub (n k : ℕ) (hk : k ≤ n) :
    ((List.range k).map fun i => n - i).sum * 2 + k * k = k * (2 * n + 1) := by
  induction k with
  | zero => simp
  | succ k ih =>
    rw [List.range_succ, List.map_append, List.sum_append]
    have h := ih (by omega)
    obtain ⟨d, rfl⟩ := Nat.exists_eq_add_of_le (show k ≤ n by omega)
    simp only [List.map_cons, List.map_nil, List.sum_cons, List.sum_nil, add_zero,
      Nat.add_sub_cancel_left]
    nlinarith [h]

theorem length_pairColumns (n : ℕ) : (pairColumns n).length = n * (n + 1) / 2 := by
  have h := sum_range_sub n n (le_refl _)
  have hlen : (pairColumns n).length = ((List.range n).map fun i => n - i).sum := by
    unfold pairColumns
    rw [List.length_flatMap]
    congr 1
    apply List.map_congr_left
    intro i _
    simp
  rw [hlen]
  have h2 : ((List.range n).map fun i => n - i).sum * 2 = n * (n + 1) := by
    nlinarith [h]
  omega

theorem mem_pairColumns {n i j : ℕ} : (i, j) ∈ pairColumns n ↔ i ≤ j ∧ j < n := by
  unfold pairColumns
  simp only [List.mem_flatMap, List.mem_range, List.mem_map, List.mem_range'_1,
    Prod.mk.injEq]
  constructor
  · rintro ⟨a, ha, b, ⟨hb1, hb2⟩, rfl, rfl⟩
    omega
  · rintro ⟨h1, h2⟩
    exact ⟨i, by omega, j, ⟨h1, by omega⟩, rfl, rfl⟩

theorem tripleColumns_eq (n : ℕ) :
    tripleColumns n = (List.range n).flatMap fun i =>
      (pairColumns n).map fun jk => (i, jk.1, jk.2) := by
  simp [tripleColumns, pairColumns, List.map_flatMap, List.map_map, Function.comp_def]

theorem length_tripleColumns (n : ℕ) :
    (tripleColumns n).length = n * n * (n + 1) / 2 := by
  rw [tripleColumns_eq, List.length_flatMap]
  have h1 : ((List.range n).map fun i =>
      ((pairColumns n).map fun jk => ((i, jk.1, jk.2) : ℕ × ℕ × ℕ)).length)
      = List.replicate n (n * (n + 1) / 2) := by
    rw [List.eq_replicate_iff]
    refine ⟨by simp, ?_⟩
    intro b hb
    simp only [List.mem_map, List.mem_range, List.length_map, length_pairColumns] at hb
    obtain ⟨_, _, rfl⟩ := hb
    rfl
  have h2 : (List.map (List.length ∘ fun i =>
      (pairColumns n).map fun jk => ((i, jk.1, jk.2) : ℕ × ℕ × ℕ)) (List.range n))
      = List.replicate n (n * (n + 1) / 2) := h1
  rw [h2, List.sum_replicate, smul_eq_mul]
  have heven : 2 ∣ n * (n + 1) := (Nat.even_mul_succ_self n).two_dvd
  obtain ⟨q, hq⟩ := heven
  have h3 : n * n * (n + 1) = 2 * (n * q) := by
    rw [mul_assoc, hq]; ring
  rw [hq, h3, Nat.mul_div_cancel_left q (by norm_num),
    Nat.mul_div_cancel_left (n * q) (by norm_num)]

theorem mem_tripleColumns {n i j k : ℕ} :
    (i, j, k) ∈ tripleColumns n ↔ i < n ∧ j ≤ k ∧ k < n := by
  rw [tripleColumns_eq]
  simp only [List.mem_flatMap, List.mem_range, List.mem_map, Prod.mk.injEq, Prod.exists]
  constructor
  · rintro ⟨a, ha, b, c, hbc, rfl, rfl, rfl⟩
    exact ⟨ha, mem_pairColumns.mp hbc⟩
  · rintro ⟨h1, h2⟩
    exact ⟨i, h1, j, k, mem_pairColumns.mpr h2, rfl, rfl, rfl⟩

/-! ## The distance histogram -/

theorem ShapeTable_mapIdx {K : Type} {n_ m_ : ℕ} {t : List (List K)} (h : ShapeTable n_ m_ t)
    (f : ℕ → List K → List K) (hf : ∀ i column, (f i column).length = column.length) :
    ShapeTable n_ m_ (t.mapIdx f) := by
  refine ⟨by simp [h.1], ?_⟩
  intro column hcol
  rw [List.mem_mapIdx] at hcol
  obtain ⟨i, hi, rfl⟩ := hcol
  rw [hf, h.2 _ (List.getElem_mem hi)]

section Rescale

variable {K : Type} [LinearOrderedField K]

theorem ShapeTable_scaleColumns {n_ m_ : ℕ} {t : List (List K)} (h : ShapeTable n_ m_ t)
    (w_factor : K) : ShapeTable n_ m_ (scaleColumns w_factor t) := by
  apply ShapeTable_mapIdx h
  intro i column
  split_ifs <;> simp

theorem entry2_scaleColumns (w_factor : K) (t : List (List K)) (c r : ℕ) :
    entry2 (scaleColumns w_factor t) c r
      = if c = 0 then entry2 t c r else entry2 t c r / w_factor := by
  unfold entry2 scaleColumns
  rw [List.getElem?_mapIdx]
  cases hc : t[c]? with
  | none => simp
  | some column =>
    simp only [Option.map_some', Option.getD_some]
    split_ifs with h0
    · rfl
    · rw [List.getElem?_map]
      cases column[r]? <;> simp

theorem ShapeTable_rescaleG {n_ m_ : ℕ} {t : List (List K)} (h : ShapeTable n_ m_ t)
    (pi rho_0 : K) : ShapeTable n_ m_ (rescaleG pi rho_0 t) := by
  apply ShapeTable_mapIdx h
  intro i column
  split_ifs <;> simp

theorem entry2_rescaleG (pi rho_0 : K) (t : List (List K)) (c r : ℕ) :
    entry2 (rescaleG pi rho_0 t) c r
      = if c = 0 ∨ r = 0 then entry2 t c r
        else entry2 t c r / (4 * pi * rho_0 * entry2 t 0 r * entry2 t 0 r) := by
  unfold rescaleG
  generalize hax : (fun row => entry2 t 0 row) = axis
  have hax' : ∀ row, entry2 t 0 row = axis row := fun row => by rw [← hax]
  simp only [hax']
  unfold entry2
  rw [List.getElem?_mapIdx]
  cases hc : t[c]? with
  | none => simp
  | some column =>
    simp only [Option.map_some', Option.getD_some]
    by_cases h0 : c = 0
    · simp [h0]
    · rw [if_neg h0, List.getElem?_mapIdx]
      cases column[r]? with
      | none => simp
      | some v =>
        simp only [Option.map_some', Option.getD_some]
        by_cases hr : r = 0
        · simp [hr]
        · simp [h0, hr]

end Rescale

section RDFhist

variable {K : Type} [LinearOrderedField K] [FloorRing K]

theorem RDF_Histogram_fill_eq (distances : List (List (List K))) (w : K) (m_ : ℤ) (n : ℕ)
    (t0 : List (List K)) :
    RDF_Histogram_fill distances w m_ n t0
      = (pairColumns n).foldlM (fun (st : ℤ × List (List K)) job =>
          (RDF_column distances w m_ (st.1 + 1) st.2 job).map fun t => (st.1 + 1, t))
        ((0 : ℤ), t0) := by
  unfold RDF_Histogram_fill pairColumns
  rw [foldlM_flatMap_option]
  congr 1
  funext st i
  rw [List.foldlM_map]

/-- The mult of an element pair: off-diagonal buckets are incremented twice. -/
theorem RDF_column_spec {n n_ m_ : ℕ} (distances : List (List (List K))) (w : K)
    (hshape : Shape2 n distances) (i j : ℕ) (hi : i < n) (hj : j < n)
    (h0 : ∀ d ∈ bucket distances i j, 0 ≤ ⌊d / w⌋)
    (col : ℕ) (t : List (List K)) (hc : col < n_) (ht : ShapeTable n_ m_ t) :
    ∃ t', RDF_column distances w (m_ : ℤ) (col : ℤ) t (i, j) = some t' ∧
      ShapeTable n_ m_ t' ∧
      ∀ c r, r < m_ → entry2 t' c r =
        if c = col then
          entry2 t c r + (if i ≠ j then 2 else 1)
            * (((bucket distances i j).countP fun x => decide (⌊x / w⌋ = (r : ℤ)) : ℕ) : K)
        else entry2 t c r := by
  obtain ⟨hlen, hrows⟩ := hshape
  have hi' : i < distances.length := by omega
  have hrow := hrows distances[i] (List.getElem_mem hi')
  have hj' : j < distances[i].length := by omega
  have hb : bucket distances i j = distances[i][j] := by
    unfold bucket
    rw [List.getElem?_eq_getElem hi']
    simp [List.getElem?_eq_getElem hj']
  rw [hb] at h0 ⊢
  obtain ⟨t', h1, hs, he⟩ := RDF_samples_fold w col i j hc distances[i][j] h0 t ht
  refine ⟨t', ?_, hs, he⟩
  simp only [RDF_column, getAt_natCast, List.getElem?_eq_getElem hi', Option.some_bind,
    List.getElem?_eq_getElem hj']
  exact h1

/-- What `Cell::RDF_Histogram` computes, for a square distance table with non-negative
samples, a positive bin width and a non-negative number of rows `m_`: the call
succeeds, `J` and `g` have `n (n + 1) / 2 + 1` columns of `m_` rows, column `0` holds
`r * w`, and the column of the pair at position `p` holds in row `r` the number of
samples with `floor(d / w) = r`, doubled off the diagonal, over `N * w`; in `g` the rows
`r >= 1` are divided by `4 pi rho_0 (r w) (r w)`. -/
theorem RDF_Histogram_spec (pi : K) (c : Cell K) (r_cut w : K) (hw : 0 < w)
    (hshape : Shape2 c.distances.length c.distances)
    (hm : 0 ≤ ⌈r_cut / w⌉ + 1)
    (hnn : ∀ i j, ∀ d ∈ bucket c.distances i j, 0 ≤ d) :
    ∃ Jt gt, RDF_Histogram pi c r_cut w = some { c with J := Jt, g := gt } ∧
      ShapeTable (c.distances.length * (c.distances.length + 1) / 2 + 1)
        (⌈r_cut / w⌉ + 1).toNat Jt ∧
      ShapeTable (c.distances.length * (c.distances.length + 1) / 2 + 1)
        (⌈r_cut / w⌉ + 1).toNat gt ∧
      (∀ r, r < (⌈r_cut / w⌉ + 1).toNat →
        entry2 Jt 0 r = (r : K) * w ∧ entry2 gt 0 r = (r : K) * w) ∧
      ∀ p i j, (pairColumns c.distances.length)[p]? = some (i, j) →
        ∀ r, r < (⌈r_cut / w⌉ + 1).toNat →
          entry2 Jt (p + 1) r
            = (if i ≠ j then 2 else 1)
              * (((bucket c.distances i j).countP fun x => decide (⌊x / w⌋ = (r : ℤ)) : ℕ) : K)
              / ((c.atoms.length : K) * w) ∧
          entry2 gt (p + 1) r
            = if r = 0 then entry2 Jt (p + 1) r
              else entry2 Jt (p + 1) r
                / (4 * pi * ((c.atoms.length : K) / c.volume) * ((r : K) * w) * ((r : K) * w)) := by
  have hfloor : ∀ i j, ∀ d ∈ bucket c.distances i j, 0 ≤ ⌊d / w⌋ := by
    intro i j d hd
    exact Int.floor_nonneg.mpr (div_nonneg (hnn i j d hd) hw.le)
  have hmcast : ((⌈r_cut / w⌉ + 1).toNat : ℤ) = ⌈r_cut / w⌉ + 1 := Int.toNat_of_nonneg hm
  obtain ⟨t0, h0, hs0, ha0, hb0⟩ := fillAxis_spec (fun i => (i : K) * w)
    (show 0 < c.distances.length * (c.distances.length + 1) / 2 + 1 by omega)
    _ (ShapeTable_replicate (c.distances.length * (c.distances.length + 1) / 2 + 1)
      (⌈r_cut / w⌉ + 1).toNat (0 : K))
  obtain ⟨t1, h1, hs1, ha1, hb1⟩ := columns_fold
    (c.distances.length * (c.distances.length + 1) / 2 + 1) (⌈r_cut / w⌉ + 1).toNat
    (fun col t job => RDF_column c.distances w ((⌈r_cut / w⌉ + 1).toNat : ℤ) col t job)
    (fun job r v => v + (if job.1 ≠ job.2 then 2 else 1)
      * (((bucket c.distances job.1 job.2).countP
          fun x => decide (⌊x / w⌋ = (r : ℤ)) : ℕ) : K))
    (pairColumns c.distances.length)
    (by
      rintro ⟨i, j⟩ hjob col t hcol ht
      have hij := mem_pairColumns.mp hjob
      exact RDF_column_spec c.distances w hshape i j (by omega) hij.2 (hfloor i j) col t
        hcol ht)
    0 t0 (by rw [length_pairColumns]; omega) hs0
  rw [hmcast] at h1
  have hJ := ShapeTable_scaleColumns hs1 ((c.atoms.length : K) * w)
  have hG := ShapeTable_rescaleG hJ pi ((c.atoms.length : K) / c.volume)
  refine ⟨_, _, ?_, hJ, hG, ?_, ?_⟩
  · simp only [RDF_Histogram, if_neg (not_lt.mpr hm), h0, Option.some_bind,
      RDF_Histogram_fill_eq, Nat.cast_zero] at h1 ⊢
    rw [h1]
    rfl
  · intro r hr
    have hax : entry2 t1 0 r = (r : K) * w := by
      rw [hb1 0 (Or.inl (le_refl _)) r hr, ha0 r hr]
    rw [entry2_rescaleG, entry2_scaleColumns, if_pos rfl, if_pos (Or.inl rfl)]
    exact ⟨hax, hax⟩
  · intro p i j hp r hr
    have hent := ha1 p (i, j) hp r hr
    simp only [zero_add] at hent
    have hz : entry2 t0 (1 + p) r = 0 := by
      rw [hb0 (1 + p) r (by omega), entry2_replicate]
    rw [hz, zero_add] at hent
    have hp1 : p + 1 = 1 + p := by omega
    have hJe : entry2 (scaleColumns ((c.atoms.length : K) * w) t1) (p + 1) r
        = (if i ≠ j then 2 else 1)
          * (((bucket c.distances i j).countP fun x => decide (⌊x / w⌋ = (r : ℤ)) : ℕ) : K)
          / ((c.atoms.length : K) * w) := by
      rw [entry2_scaleColumns, if_neg (by omega), hp1, hent]
    refine ⟨hJe, ?_⟩
    rw [entry2_rescaleG]
    have hax : entry2 (scaleColumns ((c.atoms.length : K) * w) t1) 0 r = (r : K) * w := by
      rw [entry2_scaleColumns, if_pos rfl, hb1 0 (Or.inl (le_refl _)) r hr, ha0 r hr]
    by_cases hr0 : r = 0
    · rw [if_pos (Or.inr hr0), if_pos hr0]
    · rw [if_neg (by omega), if_neg hr0, hax]

end RDFhist

theorem mem_bucket {K : Type} {t : List (List (List K))} {i j : ℕ} {d : K}
    (h : d ∈ bucket t i j) : ∃ row ∈ t, ∃ b ∈ row, d ∈ b := by
  unfold bucket at h
  cases hi : t[i]? with
  | none => simp [hi] at h
  | some row =>
    cases hj : row[j]? with
    | none => simp [hi, hj] at h
    | some b =>
      simp only [hi, hj, Option.getD_some] at h
      exact ⟨row, List.getElem?_mem hi, b, List.getElem?_mem hj, h⟩

theorem exists_pairColumn {n i j : ℕ} (hij : i ≤ j) (hj : j < n) :
    ∃ p : ℕ, (pairColumns n)[p]? = some (i, j) := by
  exact List.mem_iff_getElem?.mp (mem_pairColumns.mpr ⟨hij, hj⟩)

section RDFhistClaims

variable {K : Type} [LinearOrderedField K] [FloorRing K]

/-- C15: for `w > 0`, `N > 0` atoms, a non-zero volume and non-negative samples in a square
table `distances` of `n x n` buckets, `Cell::RDF_Histogram` succeeds and stores tables `J`
and `g` with `n (n + 1) / 2 + 1` columns and `ceil(r_cut / w) + 1` rows; every element
pair `i <= j < n` has a column `col >= 1` (its position in the loop order plus one) in
which, for every row `r`, `J = mult * #(d in distances[i][j] with floor(d / w) = r) /
(N w)` with `mult = 1` for `i = j` and `2` otherwise, and `g = J / (4 pi (N / volume)
(r w)^2)` for `r >= 1` while row `0` of `g` is row `0` of `J`. -/
theorem RDF_Histogram_values (pi : K) (c : Cell K) (r_cut w : K) (hw : 0 < w)
    (_hN : 0 < c.atoms.length) (_hvol : c.volume ≠ 0)
    (hshape : Shape2 c.distances.length c.distances)
    (hm : 0 ≤ ⌈r_cut / w⌉ + 1)
    (hnn : ∀ row ∈ c.distances, ∀ b ∈ row, ∀ d ∈ b, (0 : K) ≤ d) :
    ∃ Jt gt, RDF_Histogram pi c r_cut w = some { c with J := Jt, g := gt } ∧
      ShapeTable (c.distances.length * (c.distances.length + 1) / 2 + 1)
        (⌈r_cut / w⌉ + 1).toNat Jt ∧
      ShapeTable (c.distances.length * (c.distances.length + 1) / 2 + 1)
        (⌈r_cut / w⌉ + 1).toNat gt ∧
      ∀ i j, i ≤ j → j < c.distances.length →
        ∃ col : ℕ, 1 ≤ col ∧ (pairColumns c.distances.length)[col - 1]? = some (i, j) ∧
          ∀ r, r < (⌈r_cut / w⌉ + 1).toNat →
            entry2 Jt col r
              = (if i = j then 1 else 2)
                * (((bucket c.distances i j).countP
                    fun d => decide (⌊d / w⌋ = (r : ℤ)) : ℕ) : K)
                / ((c.atoms.length : K) * w) ∧
            entry2 gt col r
              = if 1 ≤ r then
                  entry2 Jt col r
                    / (4 * pi * ((c.atoms.length : K) / c.volume) * ((r : K) * w) ^ 2)
                else entry2 Jt col r := by
  obtain ⟨Jt, gt, h1, hJ, hG, _, hent⟩ := RDF_Histogram_spec pi c r_cut w hw hshape hm
    (fun i j d hd => by
      obtain ⟨row, hrow, b, hb, hd'⟩ := mem_bucket hd
      exact hnn row hrow b hb d hd')
  refine ⟨Jt, gt, h1, hJ, hG, ?_⟩
  intro i j hij hj
  obtain ⟨p, hp⟩ := exists_pairColumn hij hj
  refine ⟨p + 1, by omega, by simpa using hp, ?_⟩
  intro r hr
  obtain ⟨h2, h3⟩ := hent p i j hp r hr
  constructor
  · rw [h2]
    by_cases h : i = j
    · simp [h]
    · simp [h]
  · rw [h3]
    by_cases h : r = 0
    · simp [h]
    · have h4 : 1 ≤ r := by omega
      rw [if_neg h, if_pos h4, pow_two, mul_assoc (4 * pi * ((c.atoms.length : K) / c.volume))]

/-- C17, amended: in `Cell::RDF_Histogram` with `w > 0` the axis entry of row `r` is
`r * w`, and it is the left edge of the bin: the samples counted in row `r` of the column
of an element pair are those with `r * w <= d < (r + 1) * w`. -/
theorem RDF_Histogram_axis_left_edge (pi : K) (c : Cell K) (r_cut w : K) (hw : 0 < w)
    (hshape : Shape2 c.distances.length c.distances)
    (hm : 0 ≤ ⌈r_cut / w⌉ + 1)
    (hnn : ∀ row ∈ c.distances, ∀ b ∈ row, ∀ d ∈ b, (0 : K) ≤ d) :
    ∃ Jt gt, RDF_Histogram pi c r_cut w = some { c with J := Jt, g := gt } ∧
      (∀ r, r < (⌈r_cut / w⌉ + 1).toNat →
        entry2 Jt 0 r = (r : K) * w ∧ entry2 gt 0 r = (r : K) * w) ∧
      ∀ p i j, (pairColumns c.distances.length)[p]? = some (i, j) →
        ∀ r, r < (⌈r_cut / w⌉ + 1).toNat →
          entry2 Jt (p + 1) r
            = (if i = j then 1 else 2)
              * (((bucket c.distances i j).countP
                  fun d => decide ((r : K) * w ≤ d ∧ d < ((r : K) + 1) * w) : ℕ) : K)
              / ((c.atoms.length : K) * w) := by
  obtain ⟨Jt, gt, h1, _, _, hax, hent⟩ := RDF_Histogram_spec pi c r_cut w hw hshape hm
    (fun i j d hd => by
      obtain ⟨row, hrow, b, hb, hd'⟩ := mem_bucket hd
      exact hnn row hrow b hb d hd')
  refine ⟨Jt, gt, h1, hax, ?_⟩
  intro p i j hp r hr
  rw [(hent p i j hp r hr).1]
  have hcount : ((bucket c.distances i j).countP fun d => decide (⌊d / w⌋ = (r : ℤ)))
      = (bucket c.distances i j).countP
          fun d => decide ((r : K) * w ≤ d ∧ d < ((r : K) + 1) * w) := by
    apply List.countP_congr
    intro d _
    simp only [decide_eq_true_eq]
    rw [Int.floor_eq_iff, le_div_iff₀ hw, div_lt_iff₀ hw]
    simp
  rw [hcount]
  by_cases h : i = j
  · simp [h]
  · simp [h]

end RDFhistClaims

/-- C15, witness: one atom, one element, the distances `1 / 2` and `3 / 2` in the bucket
`(0, 0)`, `r_cut = 1` and `w = 1`. -/
theorem RDF_Histogram_values_witness :
    ∃ Jt gt,
      RDF_Histogram (3 : ℚ)
          { cubicCell ℚ [mkAtom "Si" 0 ⟨0, 0, 0⟩] ["Si"] with
            distances := [[[1 / 2, 3 / 2]]] } 1 1
        = some { cubicCell ℚ [mkAtom "Si" 0 ⟨0, 0, 0⟩] ["Si"] with
            distances := [[[1 / 2, 3 / 2]]], J := Jt, g := gt } ∧
      ShapeTable 2 2 Jt ∧ ShapeTable 2 2 gt := by
  obtain ⟨Jt, gt, h1, h2, h3, _⟩ := RDF_Histogram_values (3 : ℚ)
    { cubicCell ℚ [mkAtom "Si" 0 ⟨0, 0, 0⟩] ["Si"] with
      distances := [[[1 / 2, 3 / 2]]] } 1 1
    (by norm_num) (by decide) (by simp [cubicCell]) (by simp [Shape2]) (by decide!)
    (by
      intro row hrow b hb d hd
      simp only [List.mem_singleton] at hrow
      subst hrow
      simp only [List.mem_singleton] at hb
      subst hb
      simp only [List.mem_cons, List.mem_singleton, List.not_mem_nil, or_false] at hd
      rcases hd with rfl | rfl <;> norm_num)
  have hm : (⌈(1 : ℚ) / 1⌉ + 1).toNat = 2 := by decide!
  rw [hm] at h2 h3
  exact ⟨Jt, gt, h1, h2, h3⟩

/-- C17, witness: one atom, one element, the distance `1 / 2` in the bucket `(0, 0)`,
`r_cut = 1` and `w = 1`. -/
theorem RDF_Histogram_axis_left_edge_witness :
    ∃ Jt gt,
      RDF_Histogram (3 : ℚ)
          { cubicCell ℚ [mkAtom "Si" 0 ⟨0, 0, 0⟩] ["Si"] with
            distances := [[[1 / 2]]] } 1 1
        = some { cubicCell ℚ [mkAtom "Si" 0 ⟨0, 0, 0⟩] ["Si"] with
            distances := [[[1 / 2]]], J := Jt, g := gt } ∧
      entry2 Jt 0 0 = 0 * 1 ∧ entry2 Jt 0 1 = 1 * 1 := by
  obtain ⟨Jt, gt, h1, h2, _⟩ := RDF_Histogram_axis_left_edge (3 : ℚ)
    { cubicCell ℚ [mkAtom "Si" 0 ⟨0, 0, 0⟩] ["Si"] with
      distances := [[[1 / 2]]] } 1 1
    (by norm_num) (by simp [Shape2]) (by decide!)
    (by
      intro row hrow b hb d hd
      simp only [List.mem_singleton] at hrow
      subst hrow
      simp only [List.mem_singleton] at hb
      subst hb
      simp only [List.mem_singleton] at hd
      subst hd
      norm_num)
  refine ⟨Jt, gt, h1, ?_, ?_⟩
  · simpa using (h2 0 (by decide!)).1
  · simpa using (h2 1 (by decide!)).1

/-- C17, counterexample: with one atom, the single distance `1 / 2`, `r_cut = 1` and
`w = 1`, `Cell::RDF_Histogram` stores `J = [[0, 1], [1, 0]]`: the sample `1 / 2` is
counted in row `0`, whose axis entry is `0 = 0 * w`, and `1 / 2 <= 0` does not hold. -/
theorem RDF_Histogram_axis_not_right_edge :
    RDF_Histogram (3 : ℚ)
        { cubicCell ℚ [mkAtom "Si" 0 ⟨0, 0, 0⟩] ["Si"] with
          distances := [[[1 / 2]]] } 1 1
      = some { cubicCell ℚ [mkAtom "Si" 0 ⟨0, 0, 0⟩] ["Si"] with
          distances := [[[1 / 2]]], J := [[0, 1], [1, 0]], g := [[0, 1], [1, 0]] } ∧
    RDF_bin (1 : ℚ) 2 1 0 0 [[0, 1], [0, 0]] (1 / 2) = some [[0, 1], [1, 0]] ∧
    ¬ ((1 / 2 : ℚ) ≤ 0 * 1) := by
  refine ⟨by decide!, by decide!, by norm_num⟩

/-! ## The angle histogram -/

theorem getAt_bucket3 {K : Type} {n : ℕ} {t : List (List (List (List K)))}
    (h : ShapeCube n t) {x c y : ℕ} (hx : x < n) (hc : c < n) (hy : y < n) :
    (((getAt t (x : ℤ)).bind fun a => getAt a (c : ℤ)).bind fun b => getAt b (y : ℤ))
      = some (bucket3 t x c y) := by
  obtain ⟨hlen, hrows⟩ := h
  have hx' : x < t.length := by omega
  obtain ⟨ha, hb⟩ := hrows t[x] (List.getElem_mem hx')
  have hc' : c < t[x].length := by omega
  have hy' : y < t[x][c].length := by
    rw [hb t[x][c] (List.getElem_mem hc')]; exact hy
  simp only [getAt_natCast, bucket3, List.getElem?_eq_getElem hx', Option.some_bind,
    List.getElem?_eq_getElem hc', List.getElem?_eq_getElem hy', Option.getD_some]

theorem halveColumn_spec {K : Type} [LinearOrderedField K] {n_ m_ : ℕ} {t : List (List K)} (h : ShapeTable n_ m_ t)
    {col : ℕ} (hc : col < n_) :
    ∃ t', halveColumn t (col : ℤ) = some t' ∧ ShapeTable n_ m_ t' ∧
      ∀ c r, entry2 t' c r = if c = col then entry2 t c r / 2 else entry2 t c r := by
  obtain ⟨hlen, hcols⟩ := h
  have hc' : col < t.length := by omega
  refine ⟨t.set col (t[col].map fun v => v / 2), ?_, ?_, ?_⟩
  · exact modifyAt_natCast _ t col t[col] _ (List.getElem?_eq_getElem hc') rfl
  · refine ⟨by simp [hlen], ?_⟩
    intro column hcol
    rcases List.mem_or_eq_of_mem_set hcol with hcol | hcol
    · exact hcols column hcol
    · subst hcol
      simp [hcols t[col] (List.getElem_mem hc')]
  · intro c r
    unfold entry2
    by_cases hi : c = col
    · subst hi
      rw [List.getElem?_set_self hc', List.getElem?_eq_getElem hc']
      simp only [Option.getD_some, if_true, List.getElem?_map]
      cases t[c][r]? <;> simp
    · rw [List.getElem?_set_ne (Ne.symm hi)]
      simp [hi]

section BADhist

variable {K : Type} [LinearOrderedField K] [FloorRing K]

theorem BAD_bin_eq (w : K) (m_ col : ℤ) (t : List (List K)) (a : K) :
    BAD_bin w m_ col t a = RDF_bin w m_ col 0 0 t a := by
  by_cases h : ⌊a / w⌋ < m_
  · simp [BAD_bin, RDF_bin, h]
  · simp [BAD_bin, RDF_bin, h]

theorem BAD_samples_fold {n_ m_ : ℕ} (w : K) (col : ℕ) (hc : col < n_)
    (samples : List K) (h0 : ∀ d ∈ samples, 0 ≤ ⌊d / w⌋) (t : List (List K))
    (ht : ShapeTable n_ m_ t) :
    ∃ t', samples.foldlM (BAD_bin w (m_ : ℤ) (col : ℤ)) t = some t' ∧
      ShapeTable n_ m_ t' ∧
      ∀ c r, r < m_ → entry2 t' c r =
        if c = col then
          entry2 t c r + ((samples.countP fun x => decide (⌊x / w⌋ = (r : ℤ)) : ℕ) : K)
        else entry2 t c r := by
  obtain ⟨t', h1, hs, he⟩ := RDF_samples_fold w col 0 0 hc samples h0 t ht
  refine ⟨t', ?_, hs, ?_⟩
  · have hfun : BAD_bin w (m_ : ℤ) (col : ℤ) = RDF_bin w (m_ : ℤ) (col : ℤ) 0 0 := by
      funext t a
      exact BAD_bin_eq w _ _ t a
    rw [hfun]
    exact h1
  · intro c r hr
    rw [he c r hr]
    simp

theorem BAD_column_spec {n n_ m_ : ℕ} (angles : List (List (List (List K)))) (w : K)
    (hshape : ShapeCube n angles) (i j k : ℕ) (hi : i < n) (hj : j < n) (hk : k < n)
    (h0 : ∀ a ∈ bucket3 angles j i k, 0 ≤ ⌊a / w⌋)
    (col : ℕ) (t : List (List K)) (hc : col < n_) (ht : ShapeTable n_ m_ t) :
    ∃ t', BAD_column angles w (m_ : ℤ) (col : ℤ) t (i, j, k) = some t' ∧
      ShapeTable n_ m_ t' ∧
      ∀ c r, r < m_ → entry2 t' c r =
        if c = col then
          (if i = j ∧ i = k then
            (entry2 t c r + (((bucket3 angles j i k).countP
              fun x => decide (⌊x / w⌋ = (r : ℤ)) : ℕ) : K)) / 2
          else entry2 t c r + (((bucket3 angles j i k).countP
              fun x => decide (⌊x / w⌋ = (r : ℤ)) : ℕ) : K))
        else entry2 t c r := by
  obtain ⟨t1, h1, hs1, he1⟩ := BAD_samples_fold w col hc (bucket3 angles j i k) h0 t ht
  by_cases hd : i = j ∧ i = k
  · obtain ⟨t2, h2, hs2, he2⟩ := halveColumn_spec hs1 hc
    refine ⟨t2, ?_, hs2, ?_⟩
    · simp only [BAD_column, getAt_bucket3 hshape hj hi hk, Option.some_bind, h1, if_pos hd, h2]
    · intro c r hr
      rw [he2 c r, he1 c r hr, if_pos hd]
      by_cases hcc : c = col
      · simp only [hcc, if_true]
      · simp only [hcc, if_false]
  · refine ⟨t1, ?_, hs1, ?_⟩
    · simp only [BAD_column, getAt_bucket3 hshape hj hi hk, Option.some_bind, h1, if_neg hd]
    · intro c r hr
      rw [he1 c r hr, if_neg hd]

theorem BAD_Histogram_fill_eq (angles : List (List (List (List K)))) (w : K) (m_ : ℤ)
    (n : ℕ) (t0 : List (List K)) :
    BAD_Histogram_fill angles w m_ n t0
      = (tripleColumns n).foldlM (fun (st : ℤ × List (List K)) job =>
          (BAD_column angles w m_ (st.1 + 1) st.2 job).map fun t => (st.1 + 1, t))
        ((0 : ℤ), t0) := by
  unfold BAD_Histogram_fill tripleColumns
  rw [foldlM_flatMap_option]
  congr 1
  funext st i
  rw [foldlM_flatMap_option]
  congr 1
  funext st j
  rw [List.foldlM_map]

/-- What `Cell::BAD_Histogram` computes, for a tensor of `n x n x n` buckets of
non-negative angles and a positive bin width: the call succeeds, `g_theta` has
`1 + n n (n + 1) / 2` columns of `181` rows, column `0` holds `r * w`, and the column of
the triple `(i, j, k)` at position `p` holds in row `r` the number of samples of
`angles[j][i][k]` with `floor(a / w) = r`, halved when `i = j = k`. -/
theorem BAD_Histogram_spec (c : Cell K) (theta_cut w : K) (hw : 0 < w)
    (hshape : ShapeCube c.elements.length c.angles)
    (hnn : ∀ x ce y, ∀ a ∈ bucket3 c.angles x ce y, 0 ≤ a) :
    ∃ G, BAD_Histogram c theta_cut w = some { c with g_theta := G } ∧
      ShapeTable (1 + c.elements.length * c.elements.length * (c.elements.length + 1) / 2)
        181 G ∧
      (∀ r, r < 181 → entry2 G 0 r = (r : K) * w) ∧
      ∀ p i j k, (tripleColumns c.elements.length)[p]? = some (i, j, k) →
        ∀ r, r < 181 →
          entry2 G (p + 1) r
            = if i = j ∧ i = k then
                (((bucket3 c.angles j i k).countP
                  fun x => decide (⌊x / w⌋ = (r : ℤ)) : ℕ) : K) / 2
              else (((bucket3 c.angles j i k).countP
                  fun x => decide (⌊x / w⌋ = (r : ℤ)) : ℕ) : K) := by
  have hfloor : ∀ x ce y, ∀ a ∈ bucket3 c.angles x ce y, 0 ≤ ⌊a / w⌋ := by
    intro x ce y a ha
    exact Int.floor_nonneg.mpr (div_nonneg (hnn x ce y a ha) hw.le)
  obtain ⟨t0, h0, hs0, ha0, hb0⟩ := fillAxis_spec (fun i => (i : K) * w)
    (show 0 < 1 + c.elements.length * c.elements.length * (c.elements.length + 1) / 2
      by omega)
    _ (ShapeTable_replicate
      (1 + c.elements.length * c.elements.length * (c.elements.length + 1) / 2)
      181 (0 : K))
  obtain ⟨t1, h1, hs1, ha1, hb1⟩ := columns_fold
    (1 + c.elements.length * c.elements.length * (c.elements.length + 1) / 2) 181
    (fun col t job => BAD_column c.angles w ((181 : ℕ) : ℤ) col t job)
    (fun job r v =>
      if job.1 = job.2.1 ∧ job.1 = job.2.2 then
        (v + (((bucket3 c.angles job.2.1 job.1 job.2.2).countP
          fun x => decide (⌊x / w⌋ = (r : ℤ)) : ℕ) : K)) / 2
      else v + (((bucket3 c.angles job.2.1 job.1 job.2.2).countP
          fun x => decide (⌊x / w⌋ = (r : ℤ)) : ℕ) : K))
    (tripleColumns c.elements.length)
    (by
      rintro ⟨i, j, k⟩ hjob col t hcol ht
      have hijk := mem_tripleColumns.mp hjob
      exact BAD_column_spec c.angles w hshape i j k hijk.1 (by omega) hijk.2.2
        (hfloor j i k) col t hcol ht)
    0 t0 (by rw [length_tripleColumns]; omega) hs0
  refine ⟨t1, ?_, hs1, ?_, ?_⟩
  · simp only [BAD_Histogram, h0, Option.some_bind, BAD_Histogram_fill_eq, Nat.cast_zero,
      Nat.cast_ofNat] at h1 ⊢
    rw [h1]
    rfl
  · intro r hr
    rw [hb1 0 (Or.inl (le_refl _)) r hr, ha0 r hr]
  · intro p i j k hp r hr
    have hent := ha1 p (i, j, k) hp r hr
    simp only [zero_add] at hent
    have hz : entry2 t0 (1 + p) r = 0 := by
      rw [hb0 (1 + p) r (by omega), entry2_replicate]
    rw [hz, zero_add] at hent
    have hp1 : p + 1 = 1 + p := by omega
    rw [hp1, hent]

end BADhist

/-! ## Samples beyond the last row -/

theorem foldlM_filter_skip {σ α : Type} (f : σ → α → Option σ) (p : α → Bool)
    (hskip : ∀ s a, p a = false → f s a = some s) (l : List α) :
    ∀ s, (l.filter p).foldlM f s = l.foldlM f s := by
  induction l with
  | nil => intro s; rfl
  | cons a rest ih =>
    intro s
    cases hp : p a with
    | true =>
      rw [List.filter_cons_of_pos hp, List.foldlM_cons, List.foldlM_cons]
      cases f s a with
      | none => rfl
      | some s' => exact ih s'
    | false =>
      rw [List.filter_cons_of_neg (by simp [hp]), List.foldlM_cons, hskip s a hp]
      exact ih s

theorem getAt_map {α β : Type} (f : α → β) (l : List α) (i : ℤ) :
    getAt (l.map f) i = (getAt l i).map f := by
  unfold getAt
  split_ifs
  · rw [List.getElem?_map]
  · rfl

section Overflow

variable {K : Type} [LinearOrderedField K] [FloorRing K]

theorem RDF_bin_overflow (w : K) (hw : 0 < w) (m_ col : ℤ) (i j : ℕ) (t : List (List K))
    (d : K) (hd : (m_ : K) * w ≤ d) : RDF_bin w m_ col i j t d = some t := by
  have h : ¬ ⌊d / w⌋ < m_ := by
    rw [not_lt, Int.le_floor, le_div_iff₀ hw]
    exact hd
  simp [RDF_bin, h]

theorem RDF_column_filter (distances : List (List (List K))) (w : K) (hw : 0 < w)
    (m_ col : ℤ) (t : List (List K)) (ij : ℕ × ℕ) :
    RDF_column (distances.map fun row => row.map fun b =>
        b.filter fun d => decide (d < (m_ : K) * w)) w m_ col t ij
      = RDF_column distances w m_ col t ij := by
  unfold RDF_column
  rw [getAt_map]
  cases getAt distances (ij.1 : ℤ) with
  | none => rfl
  | some row =>
    simp only [Option.map_some', Option.some_bind]
    rw [getAt_map]
    cases getAt row (ij.2 : ℤ) with
    | none => rfl
    | some b =>
      simp only [Option.map_some', Option.some_bind]
      apply foldlM_filter_skip
      intro s a ha
      apply RDF_bin_overflow w hw
      simpa using ha

theorem BAD_column_filter (angles : List (List (List (List K)))) (w : K) (hw : 0 < w)
    (m_ col : ℤ) (t : List (List K)) (ijk : ℕ × ℕ × ℕ) :
    BAD_column (angles.map fun a => a.map fun b => b.map fun s =>
        s.filter fun x => decide (x < (m_ : K) * w)) w m_ col t ijk
      = BAD_column angles w m_ col t ijk := by
  unfold BAD_column
  rw [getAt_map]
  cases getAt angles (ijk.2.1 : ℤ) with
  | none => rfl
  | some a =>
    simp only [Option.map_some', Option.some_bind]
    rw [getAt_map]
    cases getAt a (ijk.1 : ℤ) with
    | none => rfl
    | some b =>
      simp only [Option.map_some', Option.some_bind]
      rw [getAt_map]
      cases getAt b (ijk.2.2 : ℤ) with
      | none => rfl
      | some samples =>
        simp only [Option.map_some', Option.some_bind]
        rw [foldlM_filter_skip]
        intro s x hx
        rw [BAD_bin_eq]
        apply RDF_bin_overflow w hw
        simpa using hx

/-- C13, amended: for `w > 0`, `Cell::RDF_Histogram` drops exactly the distances
`d >= (ceil(r_cut / w) + 1) * w` and `Cell::BAD_Histogram` drops exactly the angles
`a >= 181 * w`: removing these samples from `distances` and `angles` changes neither
`J`, `g` nor `g_theta`, while a non-negative sample below the bound is counted, in the
row `floor(d / w)` of its column (twice for an off-diagonal element pair). -/
theorem histogram_overflow_dropped (pi : K) (c : Cell K) (r_cut theta_cut w : K)
    (hw : 0 < w) :
    (RDF_Histogram pi { c with
          distances := c.distances.map fun row => row.map fun b =>
            b.filter fun d => decide (d < ((⌈r_cut / w⌉ + 1 : ℤ) : K) * w) }
        r_cut w).map (fun c1 => (c1.J, c1.g))
      = (RDF_Histogram pi c r_cut w).map (fun c1 => (c1.J, c1.g)) ∧
    (BAD_Histogram { c with
          angles := c.angles.map fun a => a.map fun b => b.map fun s =>
            s.filter fun x => decide (x < ((181 : ℤ) : K) * w) }
        theta_cut w).map (fun c1 => c1.g_theta)
      = (BAD_Histogram c theta_cut w).map (fun c1 => c1.g_theta) ∧
    (∀ (n_ : ℕ) (t : List (List K)) (col i j : ℕ) (d : K),
      ShapeTable n_ (⌈r_cut / w⌉ + 1).toNat t → col < n_ → 0 ≤ d →
      d < ((⌈r_cut / w⌉ + 1 : ℤ) : K) * w →
      ∃ t', RDF_bin w (⌈r_cut / w⌉ + 1) (col : ℤ) i j t d = some t' ∧
        entry2 t' col ⌊d / w⌋.toNat
          = entry2 t col ⌊d / w⌋.toNat + if i ≠ j then 2 else 1) ∧
    (∀ (n_ : ℕ) (t : List (List K)) (col : ℕ) (a : K),
      ShapeTable n_ 181 t → col < n_ → 0 ≤ a → a < ((181 : ℤ) : K) * w →
      ∃ t', BAD_bin w 181 (col : ℤ) t a = some t' ∧
        entry2 t' col ⌊a / w⌋.toNat = entry2 t col ⌊a / w⌋.toNat + 1) := by
  have hstep : ∀ (m_ : ℤ) (n_ : ℕ) (t : List (List K)) (col i j : ℕ) (d : K),
      ShapeTable n_ m_.toNat t → col < n_ → 0 ≤ d → d < (m_ : K) * w →
      ∃ t', RDF_bin w m_ (col : ℤ) i j t d = some t' ∧
        entry2 t' col ⌊d / w⌋.toNat
          = entry2 t col ⌊d / w⌋.toNat + if i ≠ j then 2 else 1 := by
    intro m_ n_ t col i j d ht hcol hd0 hd
    have hf0 : 0 ≤ ⌊d / w⌋ := Int.floor_nonneg.mpr (div_nonneg hd0 hw.le)
    have hfm : ⌊d / w⌋ < m_ := by
      rw [Int.floor_lt, div_lt_iff₀ hw]
      exact hd
    have hm : ((m_.toNat : ℕ) : ℤ) = m_ := Int.toNat_of_nonneg (by omega)
    obtain ⟨t', h1, _, he⟩ := RDF_bin_spec w col i j t d ht hcol hf0
    rw [hm] at h1
    refine ⟨t', h1, ?_⟩
    rw [he col ⌊d / w⌋.toNat (by omega),
      if_pos ⟨rfl, (Int.toNat_of_nonneg hf0).symm⟩]
  refine ⟨?_, ?_, ?_, ?_⟩
  · simp only [RDF_Histogram, List.length_map]
    split_ifs with hneg
    · rfl
    · cases hfill : fillAxis (fun (i : ℕ) => (i : K) * w) (⌈r_cut / w⌉ + 1).toNat
          (List.replicate (c.distances.length * (c.distances.length + 1) / 2 + 1)
            (List.replicate (⌈r_cut / w⌉ + 1).toNat 0)) with
      | none => rfl
      | some t0 =>
        simp only [Option.some_bind, RDF_Histogram_fill_eq]
        have hfun : (fun (st : ℤ × List (List K)) (job : ℕ × ℕ) =>
              (RDF_column (c.distances.map fun row => row.map fun b =>
                  b.filter fun d => decide (d < ((⌈r_cut / w⌉ + 1 : ℤ) : K) * w)) w
                (⌈r_cut / w⌉ + 1) (st.1 + 1) st.2 job).map fun t => (st.1 + 1, t))
            = fun st job =>
              (RDF_column c.distances w (⌈r_cut / w⌉ + 1) (st.1 + 1) st.2 job).map
                fun t => (st.1 + 1, t) := by
          funext st job
          rw [RDF_column_filter c.distances w hw]
        rw [hfun]
        cases (pairColumns c.distances.length).foldlM (fun (st : ℤ × List (List K)) job =>
            (RDF_column c.distances w (⌈r_cut / w⌉ + 1) (st.1 + 1) st.2 job).map
              fun t => (st.1 + 1, t)) ((0 : ℤ), t0) with
        | none => rfl
        | some st => rfl
  · simp only [BAD_Histogram]
    cases hfill : fillAxis (fun (i : ℕ) => (i : K) * w) 181
        (List.replicate (1 + c.elements.length * c.elements.length
          * (c.elements.length + 1) / 2) (List.replicate 181 0)) with
    | none => rfl
    | some t0 =>
      simp only [Option.some_bind, BAD_Histogram_fill_eq]
      have hfun : (fun (st : ℤ × List (List K)) (job : ℕ × ℕ × ℕ) =>
            (BAD_column (c.angles.map fun a => a.map fun b => b.map fun s =>
                s.filter fun x => decide (x < ((181 : ℤ) : K) * w)) w
              181 (st.1 + 1) st.2 job).map fun t => (st.1 + 1, t))
          = fun st job =>
            (BAD_column c.angles w 181 (st.1 + 1) st.2 job).map
              fun t => (st.1 + 1, t) := by
        funext st job
        rw [BAD_column_filter c.angles w hw]
      rw [hfun]
      cases (tripleColumns c.elements.length).foldlM (fun (st : ℤ × List (List K)) job =>
          (BAD_column c.angles w 181 (st.1 + 1) st.2 job).map
            fun t => (st.1 + 1, t)) ((0 : ℤ), t0) with
      | none => rfl
      | some st => rfl
  · intro n_ t col i j d ht hcol hd0 hd
    exact hstep (⌈r_cut / w⌉ + 1) n_ t col i j d ht hcol hd0 hd
  · intro n_ t col a ht hcol ha0 ha
    obtain ⟨t', h1, h2⟩ := hstep 181 n_ t col 0 0 a ht hcol ha0 ha
    refine ⟨t', ?_, ?_⟩
    · rw [BAD_bin_eq]; exact h1
    · rw [h2]; simp

end Overflow

set_option maxRecDepth 100000 in
/-- C13, witness: a cell with the distances `1 / 2` and `5 / 2` and the angles `30` and
`200`, `r_cut = 1`, `w = 1`: the tables are those of the cell without `5 / 2` and
without `200`. -/
theorem histogram_overflow_dropped_witness :
    (0 : ℚ) < 1 ∧
    (RDF_Histogram (3 : ℚ)
        { cubicCell ℚ [mkAtom "Si" 0 ⟨0, 0, 0⟩] ["Si"] with
          distances := [[[1 / 2]]], angles := [[[[30]]]] } 1 1).map (fun c1 => (c1.J, c1.g))
      = (RDF_Histogram (3 : ℚ)
        { cubicCell ℚ [mkAtom "Si" 0 ⟨0, 0, 0⟩] ["Si"] with
          distances := [[[1 / 2, 5 / 2]]], angles := [[[[30, 200]]]] } 1 1).map
            (fun c1 => (c1.J, c1.g)) ∧
    (BAD_Histogram
        { cubicCell ℚ [mkAtom "Si" 0 ⟨0, 0, 0⟩] ["Si"] with
          distances := [[[1 / 2, 5 / 2]]], angles := [[[[30]]]] } 180 1).map
            (fun c1 => c1.g_theta)
      = (BAD_Histogram
        { cubicCell ℚ [mkAtom "Si" 0 ⟨0, 0, 0⟩] ["Si"] with
          distances := [[[1 / 2, 5 / 2]]], angles := [[[[30, 200]]]] } (180 : ℚ) 1).map
            (fun c1 => c1.g_theta) := by
  obtain ⟨h1, h2, _⟩ := histogram_overflow_dropped (3 : ℚ)
    { cubicCell ℚ [mkAtom "Si" 0 ⟨0, 0, 0⟩] ["Si"] with
      distances := [[[1 / 2, 5 / 2]]], angles := [[[[30, 200]]]] } 1 180 1 (by norm_num)
  refine ⟨by norm_num, ?_, ?_⟩
  · rw [← h1]; decide!
  · rw [← h2]; decide!

set_option maxRecDepth 100000 in
/-- C13, counterexample: with `w = 1` and `r_cut = 1` the distance `3 / 2 > r_cut` is
counted, in row `1` of its column (`J = [[0, 1], [0, 1]]`), and with `w = 1` the angle
`361 / 2 > 180` of the bucket `angles[0][0][1]` is counted, in row `180` of the column
`2` of the element triple `(0, 0, 1)`. -/
theorem histogram_counts_beyond_range :
    (1 : ℚ) < 3 / 2 ∧
    (RDF_Histogram (3 : ℚ)
        { cubicCell ℚ [mkAtom "Si" 0 ⟨0, 0, 0⟩] ["Si"] with
          distances := [[[3 / 2]]] } 1 1).map (fun c1 => c1.J)
      = some [[0, 1], [0, 1]] ∧
    (180 : ℚ) < 361 / 2 ∧
    ((BAD_Histogram
        { cubicCell ℚ [mkAtom "Si" 0 ⟨0, 0, 0⟩] ["Si", "O"] with
          angles := [[[[], [361 / 2]], [[], []]], [[[], []], [[], []]]] } (180 : ℚ) 1).map
        fun c1 => entry2 c1.g_theta 2 180) = some 1 := by
  refine ⟨by norm_num, by decide!, by norm_num, by decide!⟩

/-! ## The empty cell -/

theorem CN_Histogram_of_coordination_nil {K : Type} (c : Cell K) (h : c.coordination = []) :
    CN_Histogram c = none := by
  simp [CN_Histogram, h, getAt]

set_option maxRecDepth 100000 in
/-- C14: on a cell without atoms and without elements, `Cell::RDF`, `Cell::CN` and
`Cell::BAD` leave empty tables and `Cell::RDF_Histogram` a table with the axis column
only, but `Cell::CN_Histogram` then reads `coordination[0][0]` of the empty tensor
`coordination`: the index is out of range.  `Cell::BAD_Histogram` succeeds with the axis
column only. -/
theorem CN_Histogram_empty_cell_out_of_range (m : Libm ℚ) (radii : String → ℚ) :
    RDF m radii (cubicCell ℚ [] []) 1 1 = some (cubicCell ℚ [] []) ∧
    CN (cubicCell ℚ [] []) = some (cubicCell ℚ [] []) ∧
    BAD m 60 (cubicCell ℚ [] []) true = some (cubicCell ℚ [] []) ∧
    RDF_Histogram (3 : ℚ) (cubicCell ℚ [] []) 1 1
      = some { cubicCell ℚ [] [] with J := [[0, 1]], g := [[0, 1]] } ∧
    ({ cubicCell ℚ [] [] with J := [[0, 1]], g := [[0, 1]] } : Cell ℚ).coordination = [] ∧
    CN_Histogram ({ cubicCell ℚ [] [] with J := [[0, 1]], g := [[0, 1]] } : Cell ℚ) = none ∧
    BAD_Histogram ({ cubicCell ℚ [] [] with J := [[0, 1]], g := [[0, 1]] } : Cell ℚ) 180 1
      = some { cubicCell ℚ [] [] with
          J := [[0, 1]], g := [[0, 1]],
          g_theta := [(List.range 181).map fun (i : ℕ) => (i : ℚ) * 1] } := by
  refine ⟨by rfl, by rfl, by rfl, by decide!, by rfl, by rfl, by decide!⟩

/-! ## The angle pass -/

section BADtables

variable {K : Type}

theorem ShapeCube_replicate (n : ℕ) :
    ShapeCube n (List.replicate n (List.replicate n (List.replicate n ([] : List K)))) := by
  refine ⟨by simp, ?_⟩
  intro a ha
  rw [List.eq_of_mem_replicate ha]
  refine ⟨by simp, ?_⟩
  intro b hb
  rw [List.eq_of_mem_replicate hb]
  simp

theorem bucket3_replicate (n x c y : ℕ) :
    bucket3 (List.replicate n (List.replicate n (List.replicate n ([] : List K)))) x c y
      = [] := by
  unfold bucket3
  simp only [List.getElem?_replicate]
  by_cases hx : x < n
  · rw [if_pos hx]
    simp only [Option.getD_some, List.getElem?_replicate]
    by_cases hc : c < n
    · rw [if_pos hc]
      simp only [Option.getD_some, List.getElem?_replicate]
      split_ifs <;> simp
    · rw [if_neg hc]
      simp
  · rw [if_neg hx]
    simp

theorem push3_spec {n : ℕ} {t : List (List (List (List K)))} (h : ShapeCube n t)
    {x c y : ℕ} (hx : x < n) (hc : c < n) (hy : y < n) (v : K) :
    ∃ t', push3 t (x : ℤ) (c : ℤ) (y : ℤ) v = some t' ∧ ShapeCube n t' ∧
      ∀ a b d, bucket3 t' a b d
        = bucket3 t a b d ++ if a = x ∧ b = c ∧ d = y then [v] else [] := by
  obtain ⟨hlen, hrows⟩ := h
  have hx' : x < t.length := by omega
  obtain ⟨ha, hb⟩ := hrows t[x] (List.getElem_mem hx')
  have hc' : c < t[x].length := by omega
  have hcy := hb t[x][c] (List.getElem_mem hc')
  have hy' : y < t[x][c].length := by omega
  refine ⟨t.set x (t[x].set c (t[x][c].set y (t[x][c][y] ++ [v]))), ?_, ?_, ?_⟩
  · unfold push3
    rw [modifyAt_natCast _ t x t[x] (t[x].set c (t[x][c].set y (t[x][c][y] ++ [v])))
      (List.getElem?_eq_getElem hx')]
    rw [modifyAt_natCast _ t[x] c t[x][c] (t[x][c].set y (t[x][c][y] ++ [v]))
      (List.getElem?_eq_getElem hc')]
    rw [modifyAt_natCast _ t[x][c] y t[x][c][y] (t[x][c][y] ++ [v])
      (List.getElem?_eq_getElem hy') rfl]
  · refine ⟨by simp [hlen], ?_⟩
    intro a hmem
    rcases List.mem_or_eq_of_mem_set hmem with hmem | hmem
    · exact hrows a hmem
    · subst hmem
      refine ⟨by simp [ha], ?_⟩
      intro b hmem2
      rcases List.mem_or_eq_of_mem_set hmem2 with hmem2 | hmem2
      · exact hb b hmem2
      · subst hmem2
        simp [hcy]
  · intro a b d
    unfold bucket3
    by_cases hax : a = x
    · subst hax
      rw [List.getElem?_set_self hx', List.getElem?_eq_getElem hx']
      simp only [Option.getD_some, true_and]
      by_cases hbc : b = c
      · subst hbc
        rw [List.getElem?_set_self hc', List.getElem?_eq_getElem hc']
        simp only [Option.getD_some, true_and]
        by_cases hdy : d = y
        · subst hdy
          rw [List.getElem?_set_self hy', List.getElem?_eq_getElem hy']
          simp
        · rw [List.getElem?_set_ne (Ne.symm hdy)]
          simp [hdy]
      · rw [List.getElem?_set_ne (Ne.symm hbc)]
        simp [hbc]
    · rw [List.getElem?_set_ne (Ne.symm hax)]
      simp [hax]

theorem mem_angleEvents {atoms : List (Atom K)} {e : Atom K × Atom_Img K × Atom_Img K}
    (h : e ∈ angleEvents atoms) :
    e.1 ∈ atoms ∧ e.2.1 ∈ e.1.bonded_atoms ∧ e.2.2 ∈ e.1.bonded_atoms := by
  unfold angleEvents at h
  simp only [List.mem_flatMap, List.mem_map] at h
  obtain ⟨M, hM, A, hA, B, hB, rfl⟩ := h
  exact ⟨hM, hA, hB⟩

end BADtables

section BADlemmas

variable {K : Type} [LinearOrderedField K]

theorem BAD_events_fold (m : Libm K) (factor : K) (n : ℕ)
    (es : List (Atom K × Atom_Img K × Atom_Img K))
    (hidx : ∀ e ∈ es, (0 ≤ e.1.element_id ∧ e.1.element_id < (n : ℤ)) ∧
      (0 ≤ e.2.1.element_id ∧ e.2.1.element_id < (n : ℤ)) ∧
      (0 ≤ e.2.2.element_id ∧ e.2.2.element_id < (n : ℤ))) :
    ∀ t, ShapeCube n t →
    ∃ t', es.foldlM (BAD_step m factor) t = some t' ∧ ShapeCube n t' ∧
      ∀ x c y : ℕ, bucket3 t' x c y
        = bucket3 t x c y ++ ((es.filter fun e =>
            decide (e.2.1.atom_id ≠ e.2.2.atom_id ∧ e.2.1.element_id = (x : ℤ) ∧
              e.1.element_id = (c : ℤ) ∧ e.2.2.element_id = (y : ℤ))).map
          fun e => e.1.GetAngle m e.2.1 e.2.2 * factor) := by
  induction es with
  | nil =>
    intro t ht
    exact ⟨t, rfl, ht, by simp⟩
  | cons e rest ih =>
    intro t ht
    obtain ⟨hM, hA, hB⟩ := hidx e (List.mem_cons_self _ _)
    have ih' := ih (fun e' he' => hidx e' (List.mem_cons_of_mem _ he'))
    by_cases hg : e.2.1.atom_id ≠ e.2.2.atom_id
    · have hcA : e.2.1.element_id = ((e.2.1.element_id.toNat : ℕ) : ℤ) :=
        (Int.toNat_of_nonneg hA.1).symm
      have hcM : e.1.element_id = ((e.1.element_id.toNat : ℕ) : ℤ) :=
        (Int.toNat_of_nonneg hM.1).symm
      have hcB : e.2.2.element_id = ((e.2.2.element_id.toNat : ℕ) : ℤ) :=
        (Int.toNat_of_nonneg hB.1).symm
      obtain ⟨t1, h1, hs1, he1⟩ := push3_spec ht
        (show e.2.1.element_id.toNat < n by omega)
        (show e.1.element_id.toNat < n by omega)
        (show e.2.2.element_id.toNat < n by omega)
        (e.1.GetAngle m e.2.1 e.2.2 * factor)
      rw [← hcA, ← hcM, ← hcB] at h1
      obtain ⟨t', h2, hs2, he2⟩ := ih' t1 hs1
      refine ⟨t', ?_, hs2, ?_⟩
      · rw [List.foldlM_cons]
        simp only [BAD_step, if_pos hg, h1, Option.some_bind, Option.bind_eq_bind]
        exact h2
      · intro x c y
        rw [he2 x c y, he1 x c y, List.filter_cons]
        by_cases hmatch : e.2.1.element_id = (x : ℤ) ∧ e.1.element_id = (c : ℤ) ∧
            e.2.2.element_id = (y : ℤ)
        · have h3 : x = e.2.1.element_id.toNat ∧ c = e.1.element_id.toNat ∧
              y = e.2.2.element_id.toNat := by
            obtain ⟨h4, h5, h6⟩ := hmatch
            exact ⟨by omega, by omega, by omega⟩
          rw [if_pos h3, if_pos (decide_eq_true ⟨hg, hmatch⟩)]
          simp
        · have h3 : ¬ (x = e.2.1.element_id.toNat ∧ c = e.1.element_id.toNat ∧
              y = e.2.2.element_id.toNat) := by
            rintro ⟨h4, h5, h6⟩
            exact hmatch ⟨by omega, by omega, by omega⟩
          have h7 : ¬ (e.2.1.atom_id ≠ e.2.2.atom_id ∧ e.2.1.element_id = (x : ℤ) ∧
              e.1.element_id = (c : ℤ) ∧ e.2.2.element_id = (y : ℤ)) :=
            fun h => hmatch h.2
          rw [if_neg h3, if_neg (by simpa using h7)]
          simp
    · obtain ⟨t', h2, hs2, he2⟩ := ih' t ht
      refine ⟨t', ?_, hs2, ?_⟩
      · rw [List.foldlM_cons]
        simp only [BAD_step, if_neg hg, Option.some_bind, Option.bind_eq_bind]
        exact h2
      · intro x c y
        have h7 : ¬ (e.2.1.atom_id ≠ e.2.2.atom_id ∧ e.2.1.element_id = (x : ℤ) ∧
            e.1.element_id = (c : ℤ) ∧ e.2.2.element_id = (y : ℤ)) :=
          fun h => hg h.1
        rw [he2 x c y, List.filter_cons, if_neg (by simpa using h7)]

theorem BAD_fold_eq (m : Libm K) (factor : K) (atoms : List (Atom K))
    (t0 : List (List (List (List K)))) :
    atoms.foldlM (fun temp_bad (MyAtom : Atom K) =>
      MyAtom.bonded_atoms.foldlM (fun temp_bad (atom_A : Atom_Img K) =>
        MyAtom.bonded_atoms.foldlM (fun temp_bad (atom_B : Atom_Img K) =>
          if atom_A.atom_id ≠ atom_B.atom_id then
            push3 temp_bad atom_A.element_id MyAtom.element_id atom_B.element_id
              (MyAtom.GetAngle m atom_A atom_B * factor)
          else some temp_bad) temp_bad) temp_bad) t0
      = (angleEvents atoms).foldlM (BAD_step m factor) t0 := by
  unfold angleEvents
  rw [foldlM_flatMap_option]
  congr 1
  funext t MyAtom
  rw [foldlM_flatMap_option]
  congr 1
  funext t atom_A
  rw [List.foldlM_map]
  rfl

/-- What `Cell::BAD` computes when the element indices of the atoms and of their
bonded-neighbor records are in `[0, n)`: the call succeeds, `angles` has `n x n x n`
buckets, and the bucket `[x][c][y]` holds, in loop order, one sample for every atom of
element `c` and every two of its records, the first of element `x`, the second of element
`y`, with different atom ids. -/
theorem BAD_spec (m : Libm K) (rad2deg : K) (c : Cell K) (degree : Bool)
    (hel : ∀ a ∈ c.atoms, 0 ≤ a.element_id ∧ a.element_id < (c.elements.length : ℤ))
    (hb : ∀ a ∈ c.atoms, ∀ img ∈ a.bonded_atoms,
      0 ≤ img.element_id ∧ img.element_id < (c.elements.length : ℤ)) :
    ∃ t, BAD m rad2deg c degree = some { c with angles := t } ∧
      ShapeCube c.elements.length t ∧
      ∀ x ce y : ℕ, bucket3 t x ce y
        = ((angleEvents c.atoms).filter fun e =>
            decide (e.2.1.atom_id ≠ e.2.2.atom_id ∧ e.2.1.element_id = (x : ℤ) ∧
              e.1.element_id = (ce : ℤ) ∧ e.2.2.element_id = (y : ℤ))).map
          fun e => e.1.GetAngle m e.2.1 e.2.2 * (if degree then rad2deg else 1) := by
  obtain ⟨t, h1, hs, he⟩ := BAD_events_fold m (if degree then rad2deg else 1)
    c.elements.length (angleEvents c.atoms)
    (fun e he => by
      obtain ⟨hM, hA, hB⟩ := mem_angleEvents he
      exact ⟨hel _ hM, hb _ hM _ hA, hb _ hM _ hB⟩)
    _ (ShapeCube_replicate c.elements.length)
  refine ⟨t, ?_, hs, ?_⟩
  · unfold BAD
    simp only []
    rw [BAD_fold_eq, h1]
    rfl
  · intro x ce y
    rw [he x ce y, bucket3_replicate, List.nil_append]

end BADlemmas

/-! ## Counting ordered pairs -/

theorem countP_flatMap_sum {α β : Type} (l : List α) (f : α → List β) (p : β → Bool) :
    (l.flatMap f).countP p = (l.map fun a => (f a).countP p).sum := by
  induction l with
  | nil => rfl
  | cons a rest ih => simp [List.flatMap_cons, ih]

theorem countP_orderedPairs {α : Type} (l : List α) (p : α × α → Bool) :
    (orderedPairs l).countP p = (l.map fun x => l.countP fun y => p (x, y)).sum := by
  unfold orderedPairs
  rw [countP_flatMap_sum]
  congr 1
  apply List.map_congr_left
  intro x _
  rw [List.countP_map]
  rfl

theorem angleEvents_eq {K : Type} (atoms : List (Atom K)) :
    angleEvents atoms
      = atoms.flatMap fun M => (orderedPairs M.bonded_atoms).map fun p => (M, p.1, p.2) := by
  unfold angleEvents orderedPairs
  congr 1
  funext M
  rw [List.map_flatMap]
  congr 1
  funext A
  rw [List.map_map]
  rfl

theorem sum_countP_fiber_int {α : Type} (l : List α) (P : α → Prop) [DecidablePred P]
    (f : α → ℤ) (n : ℕ) (hf : ∀ a ∈ l, 0 ≤ f a ∧ f a < (n : ℤ)) :
    (∑ k in Finset.range n, l.countP fun a => decide (P a ∧ f a = (k : ℤ)))
      = l.countP fun a => decide (P a) := by
  induction l with
  | nil => simp
  | cons a rest ih =>
    have ih' := ih (fun x hx => hf x (List.mem_cons_of_mem _ hx))
    obtain ⟨ha0, han⟩ := hf a (List.mem_cons_self _ _)
    simp only [List.countP_cons, Finset.sum_add_distrib, ih']
    congr 1
    by_cases hP : P a
    · have : ∀ k : ℕ, (if decide (P a ∧ f a = (k : ℤ)) = true then 1 else 0)
          = if k = (f a).toNat then 1 else 0 := by
        intro k
        by_cases h : f a = (k : ℤ)
        · have h' : k = (f a).toNat := by omega
          rw [if_pos (decide_eq_true ⟨hP, h⟩), if_pos h']
        · have h' : ¬ k = (f a).toNat := by omega
          rw [if_neg (by simpa using fun _ => h), if_neg h']
      simp only [this, Finset.sum_ite_eq', Finset.mem_range]
      have hlt : (f a).toNat < n := by omega
      simp [hlt, hP]
    · simp [hP]

theorem sum_countP_triple {α : Type} (l : List α) (g : α → Prop) [DecidablePred g]
    (f1 f2 f3 : α → ℤ) (n : ℕ)
    (hf : ∀ a ∈ l, (0 ≤ f1 a ∧ f1 a < (n : ℤ)) ∧ (0 ≤ f2 a ∧ f2 a < (n : ℤ)) ∧
      (0 ≤ f3 a ∧ f3 a < (n : ℤ))) :
    (∑ x in Finset.range n, ∑ c in Finset.range n, ∑ y in Finset.range n,
        l.countP fun a => decide (g a ∧ f1 a = (x : ℤ) ∧ f2 a = (c : ℤ) ∧ f3 a = (y : ℤ)))
      = l.countP fun a => decide (g a) := by
  have h3 : ∀ x c : ℕ, (∑ y in Finset.range n,
        l.countP fun a => decide (g a ∧ f1 a = (x : ℤ) ∧ f2 a = (c : ℤ) ∧ f3 a = (y : ℤ)))
      = l.countP fun a => decide ((g a ∧ f1 a = (x : ℤ)) ∧ f2 a = (c : ℤ)) := by
    intro x c
    rw [← sum_countP_fiber_int l (fun a => (g a ∧ f1 a = (x : ℤ)) ∧ f2 a = (c : ℤ)) f3 n
      (fun a ha => (hf a ha).2.2)]
    apply Finset.sum_congr rfl
    intro y _
    apply List.countP_congr
    intro a _
    simp only [decide_eq_true_eq]
    tauto
  have h2 : ∀ x : ℕ, (∑ c in Finset.range n,
        l.countP fun a => decide ((g a ∧ f1 a = (x : ℤ)) ∧ f2 a = (c : ℤ)))
      = l.countP fun a => decide (g a ∧ f1 a = (x : ℤ)) :=
    fun x => sum_countP_fiber_int l (fun a => g a ∧ f1 a = (x : ℤ)) f2 n
      (fun a ha => (hf a ha).2.1)
  simp only [h3, h2]
  exact sum_countP_fiber_int l g f1 n (fun a ha => (hf a ha).1)

theorem countP_ne_of_nodup {α : Type} (l : List α) (f : α → ℤ) (hnd : (l.map f).Nodup)
    (x : α) (hx : x ∈ l) :
    (l.countP fun y => decide (f x ≠ f y)) = l.length - 1 := by
  have h1 : (l.countP fun y => decide (f x = f y)) = 1 := by
    have h := List.count_eq_one_of_mem hnd (List.mem_map_of_mem f hx)
    rw [List.count, List.countP_map] at h
    rw [← h]
    apply List.countP_congr
    intro y _
    simp only [Function.comp, beq_iff_eq, decide_eq_true_eq]
    exact eq_comm
  have h2 := List.length_eq_countP_add_countP (fun y => decide (f x = f y)) l
  rw [h1] at h2
  have h3 : (l.countP fun y => decide (f x ≠ f y))
      = l.countP fun y => decide ¬ (decide (f x = f y) = true) := by
    apply List.countP_congr
    intro y _
    simp
  rw [h3]
  omega

theorem countP_orderedPairs_ne {α : Type} (l : List α) (f : α → ℤ)
    (hnd : (l.map f).Nodup) :
    (orderedPairs l).countP (fun p => decide (f p.1 ≠ f p.2))
      = l.length * (l.length - 1) := by
  rw [countP_orderedPairs]
  have h : (l.map fun x => l.countP fun y => decide (f (x, y).1 ≠ f (x, y).2))
      = l.map fun _ => l.length - 1 := by
    apply List.map_congr_left
    intro x hx
    exact countP_ne_of_nodup l f hnd x hx
  rw [h]
  simp

section BADclaim

variable {K : Type} [LinearOrderedField K]

/-- C11, amended: when the element indices of the atoms and of their bonded-neighbor
records are in `[0, n)`, `Cell::BAD` succeeds and, for every atom `M` and every ordered
pair `(X, Y)` of entries of the bonded-neighbor list of `M` with different atom ids,
exactly one angle sample is appended to `angles[X.element_id][M.element_id][Y.element_id]`
(two records of one neighbor atom give no sample); the number of samples is the sum over
the atoms of the number of such pairs, which for an atom with `d` records is `d (d - 1)`
when the atom ids of its records are pairwise different. -/
theorem BAD_ordered_pairs (m : Libm K) (rad2deg : K) (c : Cell K) (degree : Bool)
    (hel : ∀ a ∈ c.atoms, 0 ≤ a.element_id ∧ a.element_id < (c.elements.length : ℤ))
    (hb : ∀ a ∈ c.atoms, ∀ img ∈ a.bonded_atoms,
      0 ≤ img.element_id ∧ img.element_id < (c.elements.length : ℤ)) :
    ∃ t, BAD m rad2deg c degree = some { c with angles := t } ∧
      ShapeCube c.elements.length t ∧
      (∀ x ce y : ℕ, bucket3 t x ce y
        = ((angleEvents c.atoms).filter fun e =>
            decide (e.2.1.atom_id ≠ e.2.2.atom_id ∧ e.2.1.element_id = (x : ℤ) ∧
              e.1.element_id = (ce : ℤ) ∧ e.2.2.element_id = (y : ℤ))).map
          fun e => e.1.GetAngle m e.2.1 e.2.2 * (if degree then rad2deg else 1)) ∧
      (∑ x in Finset.range c.elements.length, ∑ ce in Finset.range c.elements.length,
          ∑ y in Finset.range c.elements.length, (bucket3 t x ce y).length)
        = (c.atoms.map fun M => (orderedPairs M.bonded_atoms).countP
            fun p => decide (p.1.atom_id ≠ p.2.atom_id)).sum ∧
      ∀ M ∈ c.atoms, (M.bonded_atoms.map fun X => X.atom_id).Nodup →
        (orderedPairs M.bonded_atoms).countP (fun p => decide (p.1.atom_id ≠ p.2.atom_id))
          = M.bonded_atoms.length * (M.bonded_atoms.length - 1) := by
  obtain ⟨t, h1, hs, he⟩ := BAD_spec m rad2deg c degree hel hb
  refine ⟨t, h1, hs, he, ?_, ?_⟩
  · have hlen : ∀ x ce y : ℕ, (bucket3 t x ce y).length
        = (angleEvents c.atoms).countP fun e =>
            decide (e.2.1.atom_id ≠ e.2.2.atom_id ∧ e.2.1.element_id = (x : ℤ) ∧
              e.1.element_id = (ce : ℤ) ∧ e.2.2.element_id = (y : ℤ)) := by
      intro x ce y
      rw [he x ce y, List.length_map, List.countP_eq_length_filter]
    simp only [hlen]
    rw [sum_countP_triple (angleEvents c.atoms) (fun e => e.2.1.atom_id ≠ e.2.2.atom_id)
      (fun e => e.2.1.element_id) (fun e => e.1.element_id) (fun e => e.2.2.element_id)
      c.elements.length
      (fun e he' => by
        obtain ⟨hM, hA, hB⟩ := mem_angleEvents he'
        exact ⟨hb _ hM _ hA, hel _ hM, hb _ hM _ hB⟩)]
    rw [angleEvents_eq, countP_flatMap_sum]
    congr 1
    apply List.map_congr_left
    intro M _
    rw [List.countP_map]
    rfl
  · intro M _ hnd
    exact countP_orderedPairs_ne M.bonded_atoms (fun X => X.atom_id) hnd

end BADclaim

/-- C11, witness: an atom of element `0` with two records of different neighbor atoms. -/
theorem BAD_ordered_pairs_witness :
    ∃ t, BAD (⟨Real.sqrt, Real.cos, Real.sin, Real.arccos⟩ : Libm ℝ) (180 / Real.pi)
        (cubicCell ℝ [{ mkAtom "Si" 0 ⟨0, 0, 0⟩ with
          bonded_atoms := [⟨1, 1, ⟨1, 0, 0⟩⟩, ⟨2, 1, ⟨-1, 0, 0⟩⟩] }] ["Si", "O"]) true
      = some { cubicCell ℝ [{ mkAtom "Si" 0 ⟨0, 0, 0⟩ with
          bonded_atoms := [⟨1, 1, ⟨1, 0, 0⟩⟩, ⟨2, 1, ⟨-1, 0, 0⟩⟩] }] ["Si", "O"] with
          angles := t } ∧
      ShapeCube 2 t ∧
      (∑ x in Finset.range 2, ∑ ce in Finset.range 2, ∑ y in Finset.range 2,
        (bucket3 t x ce y).length) = 2 := by
  obtain ⟨t, h1, h2, _, h4, _⟩ := BAD_ordered_pairs
    (⟨Real.sqrt, Real.cos, Real.sin, Real.arccos⟩ : Libm ℝ) (180 / Real.pi)
    (cubicCell ℝ [{ mkAtom "Si" 0 ⟨0, 0, 0⟩ with
      bonded_atoms := [⟨1, 1, ⟨1, 0, 0⟩⟩, ⟨2, 1, ⟨-1, 0, 0⟩⟩] }] ["Si", "O"]) true
    (by simp [cubicCell, mkAtom]) (by simp [cubicCell, mkAtom])
  refine ⟨t, h1, h2, ?_⟩
  rw [show (cubicCell ℝ [{ mkAtom "Si" 0 ⟨0, 0, 0⟩ with
      bonded_atoms := [⟨1, 1, ⟨1, 0, 0⟩⟩, ⟨2, 1, ⟨-1, 0, 0⟩⟩] }] ["Si", "O"]).elements.length
    = 2 from rfl] at h4
  rw [h4]
  simp [cubicCell, mkAtom, orderedPairs]

/-- C11, counterexample: an atom with `d = 2` bonded-neighbor records that are two images
of the same neighbor atom (atom id `1`, at `(1/2, 0, 0)` and at `(-1/2, 0, 0)`): the two
records are different list occurrences, but `Cell::BAD` appends no sample at all, not
`d (d - 1) = 2`. -/
theorem BAD_skips_images_of_one_atom :
    BAD (⟨Real.sqrt, Real.cos, Real.sin, Real.arccos⟩ : Libm ℝ) (180 / Real.pi)
        (cubicCell ℝ [{ mkAtom "Si" 0 ⟨0, 0, 0⟩ with
          bonded_atoms := [⟨1, 0, ⟨1 / 2, 0, 0⟩⟩, ⟨1, 0, ⟨-1 / 2, 0, 0⟩⟩] }] ["Si"]) true
      = some { cubicCell ℝ [{ mkAtom "Si" 0 ⟨0, 0, 0⟩ with
          bonded_atoms := [⟨1, 0, ⟨1 / 2, 0, 0⟩⟩, ⟨1, 0, ⟨-1 / 2, 0, 0⟩⟩] }] ["Si"] with
          angles := [[[[]]]] } ∧
    ([⟨1, 0, ⟨1 / 2, 0, 0⟩⟩, ⟨1, 0, ⟨-1 / 2, 0, 0⟩⟩] : List (Atom_Img ℝ)).length = 2 ∧
    (⟨1 / 2, 0, 0⟩ : Vec3 ℝ) ≠ ⟨-1 / 2, 0, 0⟩ := by
  refine ⟨by rfl, by rfl, ?_⟩
  intro h
  have hx := congrArg Vec3.x h
  norm_num at hx

/-! ## Ordered and unordered neighbor pairs -/

theorem sum_map_add_ite {α : Type} (l : List α) (g : α → ℕ) (q : α → Bool) :
    (l.map fun a => g a + if q a then 1 else 0).sum = (l.map g).sum + l.countP q := by
  induction l with
  | nil => rfl
  | cons a rest ih =>
    simp only [List.map_cons, List.sum_cons, ih, List.countP_cons]
    omega

theorem countP_orderedPairs_cons {α : Type} (x : α) (l : List α) (p : α × α → Bool) :
    (orderedPairs (x :: l)).countP p
      = (if p (x, x) then 1 else 0) + l.countP (fun y => p (x, y))
        + l.countP (fun y => p (y, x)) + (orderedPairs l).countP p := by
  rw [countP_orderedPairs, countP_orderedPairs]
  simp only [List.map_cons, List.sum_cons, List.countP_cons]
  rw [sum_map_add_ite l (fun a => l.countP fun y => p (a, y)) (fun a => p (a, x))]
  omega

/-- Two nested loops over a list visit every unordered pair of occurrences twice, once in
each order, when no entry is paired with itself. -/
theorem countP_orderedPairs_unordered {α : Type} (l : List α) (p : α × α → Bool)
    (hirr : ∀ x, p (x, x) = false) :
    (orderedPairs l).countP p
      = (unorderedPairs l).countP p + (unorderedPairs l).countP fun q => p (q.2, q.1) := by
  induction l with
  | nil => rfl
  | cons x rest ih =>
    rw [countP_orderedPairs_cons, ih, hirr x]
    simp only [unorderedPairs, List.countP_append, List.countP_map]
    have h1 : (rest.countP (p ∘ fun y => (x, y))) = rest.countP fun y => p (x, y) := rfl
    have h2 : (rest.countP ((fun q => p (q.2, q.1)) ∘ fun y => (x, y)))
        = rest.countP fun y => p (y, x) := rfl
    rw [h1, h2]
    simp only [Bool.false_eq_true, if_false]
    omega

theorem countP_add_of_disjoint {α : Type} (l : List α) (p q : α → Bool)
    (h : ∀ a, ¬ (p a = true ∧ q a = true)) :
    l.countP p + l.countP q = l.countP fun a => p a || q a := by
  induction l with
  | nil => rfl
  | cons a rest ih =>
    simp only [List.countP_cons, ← ih]
    have ha := h a
    cases hp : p a <;> cases hq : q a <;> simp [hp, hq] at ha ⊢ <;> omega

theorem sum_map_ite_filter {α : Type} (l : List α) (q : α → Bool) (g : α → ℕ) :
    (l.map fun a => if q a then g a else 0).sum = ((l.filter q).map g).sum := by
  induction l with
  | nil => rfl
  | cons a rest ih =>
    cases hq : q a
    · simp [List.filter_cons, hq, ih]
    · simp [List.filter_cons, hq, ih]

section AngleSymmetry

variable {K : Type} [LinearOrderedField K]

theorem GetAngle_symm (m : Libm K) (M : Atom K) (X Y : Atom_Img K) :
    M.GetAngle m X Y = M.GetAngle m Y X := by
  unfold Atom.GetAngle
  congr 1
  have hdot : ∀ u v : Vec3 K, Vec3.dot u v = Vec3.dot v u := by
    intro u v
    unfold Vec3.dot
    ring
  rw [hdot, mul_comm]

end AngleSymmetry

section AnglePairs

variable {K : Type} [LinearOrderedField K] [FloorRing K]

/-- For one atom, the ordered pairs of records `(X, Y)` with different atom ids, `X` of
element `j`, `Y` of element `k` and the angle in row `r` are as many as the unordered
pairs with one record of each element when `j != k`, and twice as many when `j = k`. -/
theorem ordered_angle_count (m : Libm K) (factor w : K) (M : Atom K) (j k r : ℕ) :
    (orderedPairs M.bonded_atoms).countP (fun p =>
        decide (p.1.atom_id ≠ p.2.atom_id ∧ p.1.element_id = (j : ℤ) ∧
          p.2.element_id = (k : ℤ) ∧ ⌊M.GetAngle m p.1 p.2 * factor / w⌋ = (r : ℤ)))
      = (if j = k then 2 else 1) * (unorderedPairs M.bonded_atoms).countP fun p =>
          decide (p.1.atom_id ≠ p.2.atom_id ∧
            ((p.1.element_id = (j : ℤ) ∧ p.2.element_id = (k : ℤ)) ∨
              (p.1.element_id = (k : ℤ) ∧ p.2.element_id = (j : ℤ))) ∧
            ⌊M.GetAngle m p.1 p.2 * factor / w⌋ = (r : ℤ)) := by
  rw [countP_orderedPairs_unordered _ _ (fun x => by simp)]
  by_cases hjk : j = k
  · subst hjk
    rw [if_pos rfl, two_mul]
    congr 1
    · apply List.countP_congr
      intro p _
      simp only [decide_eq_true_eq]
      tauto
    · apply List.countP_congr
      intro p _
      simp only [decide_eq_true_eq]
      rw [GetAngle_symm m M p.2 p.1]
      constructor
      · rintro ⟨h1, h2, h3, h4⟩
        exact ⟨fun h => h1 h.symm, Or.inl ⟨h3, h2⟩, h4⟩
      · rintro ⟨h1, h2 | h2, h4⟩
        · exact ⟨fun h => h1 h.symm, h2.2, h2.1, h4⟩
        · exact ⟨fun h => h1 h.symm, h2.2, h2.1, h4⟩
  · rw [if_neg hjk, one_mul, countP_add_of_disjoint]
    · apply List.countP_congr
      intro p _
      simp only [Bool.or_eq_true, decide_eq_true_eq]
      rw [GetAngle_symm m M p.2 p.1]
      constructor
      · rintro (⟨h1, h2, h3, h4⟩ | ⟨h1, h2, h3, h4⟩)
        · exact ⟨h1, Or.inl ⟨h2, h3⟩, h4⟩
        · exact ⟨fun h => h1 h.symm, Or.inr ⟨h3, h2⟩, h4⟩
      · rintro ⟨h1, h2 | h2, h4⟩
        · exact Or.inl ⟨h1, h2.1, h2.2, h4⟩
        · exact Or.inr ⟨fun h => h1 h.symm, h2.2, h2.1, h4⟩
    · intro p
      simp only [decide_eq_true_eq]
      rintro ⟨⟨_, h2, _, _⟩, ⟨_, _, h3, _⟩⟩
      have : (j : ℤ) = (k : ℤ) := by rw [← h2, h3]
      exact hjk (by exact_mod_cast this)

/-- The samples of the bucket `[j][i][k]` that `Cell::BAD` leaves, counted by row. -/
theorem bucket_angle_count (m : Libm K) (factor w : K) (atoms : List (Atom K))
    (i j k r : ℕ) :
    ((((angleEvents atoms).filter fun e =>
          decide (e.2.1.atom_id ≠ e.2.2.atom_id ∧ e.2.1.element_id = (j : ℤ) ∧
            e.1.element_id = (i : ℤ) ∧ e.2.2.element_id = (k : ℤ))).map
        fun e => e.1.GetAngle m e.2.1 e.2.2 * factor).countP
      fun x => decide (⌊x / w⌋ = (r : ℤ)))
      = (if j = k then 2 else 1) * unorderedAngleCount m factor w atoms i j k r := by
  rw [List.countP_map, List.countP_filter, angleEvents_eq, countP_flatMap_sum]
  unfold unorderedAngleCount
  rw [← List.sum_map_mul_left, ← sum_map_ite_filter]
  congr 1
  apply List.map_congr_left
  intro M _
  rw [List.countP_map]
  by_cases hM : M.element_id = (i : ℤ)
  · rw [if_pos (decide_eq_true hM), ← ordered_angle_count]
    apply List.countP_congr
    intro p _
    simp only [Function.comp, Bool.and_eq_true, decide_eq_true_eq]
    tauto
  · rw [if_neg (by simpa using hM), List.countP_eq_zero]
    intro p _
    simp only [Function.comp, Bool.and_eq_true, decide_eq_true_eq]
    tauto

end AnglePairs

/-! ## The angle histogram after the angle pass -/

theorem exists_tripleColumn {n i j k : ℕ} (hi : i < n) (hjk : j ≤ k) (hk : k < n) :
    ∃ p : ℕ, (tripleColumns n)[p]? = some (i, j, k) :=
  List.mem_iff_getElem?.mp (mem_tripleColumns.mpr ⟨hi, hjk, hk⟩)

section AngleHistogram

variable {K : Type} [LinearOrderedField K] [FloorRing K]

/-- `Cell::BAD` followed by `Cell::BAD_Histogram`: the column of the element triple
`(i, j, k)` holds in row `r` the number of unordered pairs of records of the atoms of
element `i`, one of element `j` and the other of element `k`, with different atom ids and
the angle in row `r`; twice that number when `j = k` and `i` is another element. -/
theorem BAD_Histogram_after_BAD (m : Libm K) (rad2deg : K) (c : Cell K) (degree : Bool)
    (theta_cut w : K) (hw : 0 < w)
    (hel : ∀ a ∈ c.atoms, 0 ≤ a.element_id ∧ a.element_id < (c.elements.length : ℤ))
    (hb : ∀ a ∈ c.atoms, ∀ img ∈ a.bonded_atoms,
      0 ≤ img.element_id ∧ img.element_id < (c.elements.length : ℤ))
    (hnn : ∀ M ∈ c.atoms, ∀ X ∈ M.bonded_atoms, ∀ Y ∈ M.bonded_atoms,
      0 ≤ M.GetAngle m X Y * (if degree then rad2deg else 1)) :
    ∃ t G, BAD m rad2deg c degree = some { c with angles := t } ∧
      BAD_Histogram { c with angles := t } theta_cut w
        = some { c with angles := t, g_theta := G } ∧
      ShapeTable (1 + c.elements.length * c.elements.length * (c.elements.length + 1) / 2)
        181 G ∧
      ∀ p i j k, (tripleColumns c.elements.length)[p]? = some (i, j, k) →
        ∀ r, r < 181 →
          entry2 G (p + 1) r
            = if j = k ∧ i ≠ j then
                2 * (unorderedAngleCount m (if degree then rad2deg else 1) w c.atoms
                  i j k r : K)
              else (unorderedAngleCount m (if degree then rad2deg else 1) w c.atoms
                  i j k r : K) := by
  obtain ⟨t, h1, hs, he⟩ := BAD_spec m rad2deg c degree hel hb
  obtain ⟨G, h2, hG, _, hent⟩ := BAD_Histogram_spec { c with angles := t } theta_cut w hw hs
    (by
      intro x ce y a ha
      change a ∈ bucket3 t x ce y at ha
      rw [he x ce y, List.mem_map] at ha
      obtain ⟨e, hmem, rfl⟩ := ha
      obtain ⟨hM, hA, hB⟩ := mem_angleEvents (List.mem_of_mem_filter hmem)
      exact hnn _ hM _ hA _ hB)
  refine ⟨t, G, h1, h2, hG, ?_⟩
  intro p i j k hp r hr
  have h3 := hent p i j k hp r hr
  change entry2 G (p + 1) r
    = if i = j ∧ i = k then
        (((bucket3 t j i k).countP fun x => decide (⌊x / w⌋ = (r : ℤ)) : ℕ) : K) / 2
      else (((bucket3 t j i k).countP fun x => decide (⌊x / w⌋ = (r : ℤ)) : ℕ) : K) at h3
  rw [h3, he j i k, bucket_angle_count]
  by_cases hjk : j = k
  · by_cases hij : i = j
    · have h4 : ¬ (j = k ∧ i ≠ j) := fun h => h.2 hij
      rw [if_pos (show i = j ∧ i = k from ⟨hij, hij.trans hjk⟩), if_pos hjk, if_neg h4]
      push_cast
      ring
    · have h4 : ¬ (i = j ∧ i = k) := fun h => hij h.1
      rw [if_neg h4, if_pos hjk, if_pos (show j = k ∧ i ≠ j from ⟨hjk, hij⟩)]
      push_cast
      ring
  · have h4 : ¬ (i = j ∧ i = k) := fun h => hjk (h.1.symm.trans h.2)
    have h5 : ¬ (j = k ∧ i ≠ j) := fun h => hjk h.1
    rw [if_neg h4, if_neg hjk, if_neg h5]
    push_cast
    ring

/-- C18, amended: for `w > 0`, element indices in `[0, n)` and non-negative angle samples,
after `Cell::BAD` then `Cell::BAD_Histogram` every element triple `i < n`, `j <= k < n`
has a column in which the entry of a row `r < 181` is the number of unordered pairs of
bonded-neighbor records (with different atom ids) of atoms of element `i`, one of
element `j` and the other of element `k`, whose angle `a` has `floor(a / w) = r`, when
`j < k` or `i = j = k`; when `j = k` and `i != j` the column is not halved and the entry
is twice that number. -/
theorem BAD_Histogram_pair_counts (m : Libm K) (rad2deg : K) (c : Cell K) (degree : Bool)
    (theta_cut w : K) (hw : 0 < w)
    (hel : ∀ a ∈ c.atoms, 0 ≤ a.element_id ∧ a.element_id < (c.elements.length : ℤ))
    (hb : ∀ a ∈ c.atoms, ∀ img ∈ a.bonded_atoms,
      0 ≤ img.element_id ∧ img.element_id < (c.elements.length : ℤ))
    (hnn : ∀ M ∈ c.atoms, ∀ X ∈ M.bonded_atoms, ∀ Y ∈ M.bonded_atoms,
      0 ≤ M.GetAngle m X Y * (if degree then rad2deg else 1)) :
    ∃ t G, BAD m rad2deg c degree = some { c with angles := t } ∧
      BAD_Histogram { c with angles := t } theta_cut w
        = some { c with angles := t, g_theta := G } ∧
      ∀ i j k, i < c.elements.length → j ≤ k → k < c.elements.length →
        ∃ col : ℕ, 1 ≤ col ∧ (tripleColumns c.elements.length)[col - 1]? = some (i, j, k) ∧
          ∀ r, r < 181 →
            entry2 G col r
              = if j = k ∧ i ≠ j then
                  2 * (unorderedAngleCount m (if degree then rad2deg else 1) w c.atoms
                    i j k r : K)
                else (unorderedAngleCount m (if degree then rad2deg else 1) w c.atoms
                    i j k r : K) := by
  obtain ⟨t, G, h1, h2, _, hent⟩ := BAD_Histogram_after_BAD m rad2deg c degree theta_cut w
    hw hel hb hnn
  refine ⟨t, G, h1, h2, ?_⟩
  intro i j k hi hjk hk
  obtain ⟨p, hp⟩ := exists_tripleColumn hi hjk hk
  exact ⟨p + 1, by omega, by simpa using hp, fun r hr => hent p i j k hp r hr⟩

end AngleHistogram

theorem GetAngle_linear :
    Atom.GetAngle (⟨Real.sqrt, Real.cos, Real.sin, Real.arccos⟩ : Libm ℝ)
        { mkAtom "Si" 0 ⟨0, 0, 0⟩ with
          bonded_atoms := [⟨1, 1, ⟨1, 0, 0⟩⟩, ⟨2, 1, ⟨-1, 0, 0⟩⟩] }
        ⟨1, 1, ⟨1, 0, 0⟩⟩ ⟨2, 1, ⟨-1, 0, 0⟩⟩ * (180 / Real.pi) = 180 := by
  have hpi : Real.pi ≠ 0 := Real.pi_ne_zero
  simp only [Atom.GetAngle, mkAtom, Vec3.dot, Vec3.norm, Vec3.sub]
  norm_num
  field_simp

theorem SiO2_angles_nonneg :
    ∀ M ∈ (cubicCell ℝ [{ mkAtom "Si" 0 ⟨0, 0, 0⟩ with
        bonded_atoms := [⟨1, 1, ⟨1, 0, 0⟩⟩, ⟨2, 1, ⟨-1, 0, 0⟩⟩] }] ["Si", "O"]).atoms,
      ∀ X ∈ M.bonded_atoms, ∀ Y ∈ M.bonded_atoms,
        0 ≤ M.GetAngle (⟨Real.sqrt, Real.cos, Real.sin, Real.arccos⟩ : Libm ℝ) X Y
          * (if true = true then 180 / Real.pi else 1) := by
  intro M _ X _ Y _
  rw [if_pos rfl]
  exact mul_nonneg (Real.arccos_nonneg _) (div_nonneg (by norm_num) Real.pi_pos.le)

theorem unorderedAngleCount_linear :
    unorderedAngleCount (⟨Real.sqrt, Real.cos, Real.sin, Real.arccos⟩ : Libm ℝ)
      (180 / Real.pi) 1
      (cubicCell ℝ [{ mkAtom "Si" 0 ⟨0, 0, 0⟩ with
        bonded_atoms := [⟨1, 1, ⟨1, 0, 0⟩⟩, ⟨2, 1, ⟨-1, 0, 0⟩⟩] }] ["Si", "O"]).atoms
      0 1 1 180 = 1 := by
  have hfloor : ⌊(180 : ℝ)⌋ = 180 := by
    rw [Int.floor_eq_iff]; norm_num
  simp only [unorderedAngleCount, cubicCell, unorderedPairs, List.map_cons, List.map_nil,
    List.append_nil, List.nil_append]
  rw [show ([{ mkAtom "Si" 0 ⟨0, 0, 0⟩ with
        bonded_atoms := [⟨1, 1, ⟨1, 0, 0⟩⟩, ⟨2, 1, ⟨-1, 0, 0⟩⟩] }] : List (Atom ℝ)).filter
      (fun M => decide (M.element_id = ((0 : ℕ) : ℤ)))
    = [{ mkAtom "Si" 0 ⟨0, 0, 0⟩ with
        bonded_atoms := [⟨1, 1, ⟨1, 0, 0⟩⟩, ⟨2, 1, ⟨-1, 0, 0⟩⟩] }] from by
      simp [mkAtom]]
  simp only [List.map_cons, List.map_nil, List.sum_cons, List.sum_nil, unorderedPairs,
    List.append_nil, add_zero, div_one]
  rw [List.countP_cons, List.countP_nil]
  simp only [GetAngle_linear, hfloor]
  simp

/-- C18, witness: a silicon atom (element `0`) between two oxygen atoms (element `1`) on a
line, angles in degrees, `w = 1`: the column of the triple `(0, 1, 1)` holds `2` in the
row `180`, twice the one unordered pair. -/
theorem BAD_Histogram_pair_counts_witness :
    ∃ t G,
      BAD (⟨Real.sqrt, Real.cos, Real.sin, Real.arccos⟩ : Libm ℝ) (180 / Real.pi)
          (cubicCell ℝ [{ mkAtom "Si" 0 ⟨0, 0, 0⟩ with
            bonded_atoms := [⟨1, 1, ⟨1, 0, 0⟩⟩, ⟨2, 1, ⟨-1, 0, 0⟩⟩] }] ["Si", "O"]) true
        = some { cubicCell ℝ [{ mkAtom "Si" 0 ⟨0, 0, 0⟩ with
            bonded_atoms := [⟨1, 1, ⟨1, 0, 0⟩⟩, ⟨2, 1, ⟨-1, 0, 0⟩⟩] }] ["Si", "O"] with
            angles := t } ∧
      BAD_Histogram { cubicCell ℝ [{ mkAtom "Si" 0 ⟨0, 0, 0⟩ with
            bonded_atoms := [⟨1, 1, ⟨1, 0, 0⟩⟩, ⟨2, 1, ⟨-1, 0, 0⟩⟩] }] ["Si", "O"] with
            angles := t } 180 1
        = some { cubicCell ℝ [{ mkAtom "Si" 0 ⟨0, 0, 0⟩ with
            bonded_atoms := [⟨1, 1, ⟨1, 0, 0⟩⟩, ⟨2, 1, ⟨-1, 0, 0⟩⟩] }] ["Si", "O"] with
            angles := t, g_theta := G } ∧
      ∃ col : ℕ, 1 ≤ col ∧ (tripleColumns 2)[col - 1]? = some (0, 1, 1) ∧
        entry2 G col 180 = 2 * 1 := by
  obtain ⟨t, G, h1, h2, h3⟩ := BAD_Histogram_pair_counts
    (⟨Real.sqrt, Real.cos, Real.sin, Real.arccos⟩ : Libm ℝ) (180 / Real.pi)
    (cubicCell ℝ [{ mkAtom "Si" 0 ⟨0, 0, 0⟩ with
      bonded_atoms := [⟨1, 1, ⟨1, 0, 0⟩⟩, ⟨2, 1, ⟨-1, 0, 0⟩⟩] }] ["Si", "O"]) true 180 1
    (by norm_num) (by simp [cubicCell, mkAtom]) (by simp [cubicCell, mkAtom])
    SiO2_angles_nonneg
  obtain ⟨col, hc1, hc2, hc3⟩ := h3 0 1 1 (by decide) (by decide) (by decide)
  refine ⟨t, G, h1, h2, col, hc1, hc2, ?_⟩
  have h4 := hc3 180 (by decide)
  rw [if_pos (show (1 : ℕ) = 1 ∧ (0 : ℕ) ≠ 1 from ⟨rfl, by decide⟩), if_pos rfl,
    unorderedAngleCount_linear] at h4
  rw [h4]
  norm_num

/-- C18, counterexample: a silicon atom (element `0`) between two oxygen atoms (element
`1`, atom ids `1` and `2`) on a line, angles in degrees, `w = 1`.  The column `3` of the
triple `(0, 1, 1)` holds `2` in the row `180`, while there is `1` unordered pair of
records with that angle: the pair is counted twice, because the column is halved only
for `i = j = k`. -/
theorem BAD_Histogram_counts_pair_twice :
    ∃ t G,
      BAD (⟨Real.sqrt, Real.cos, Real.sin, Real.arccos⟩ : Libm ℝ) (180 / Real.pi)
          (cubicCell ℝ [{ mkAtom "Si" 0 ⟨0, 0, 0⟩ with
            bonded_atoms := [⟨1, 1, ⟨1, 0, 0⟩⟩, ⟨2, 1, ⟨-1, 0, 0⟩⟩] }] ["Si", "O"]) true
        = some { cubicCell ℝ [{ mkAtom "Si" 0 ⟨0, 0, 0⟩ with
            bonded_atoms := [⟨1, 1, ⟨1, 0, 0⟩⟩, ⟨2, 1, ⟨-1, 0, 0⟩⟩] }] ["Si", "O"] with
            angles := t } ∧
      BAD_Histogram { cubicCell ℝ [{ mkAtom "Si" 0 ⟨0, 0, 0⟩ with
            bonded_atoms := [⟨1, 1, ⟨1, 0, 0⟩⟩, ⟨2, 1, ⟨-1, 0, 0⟩⟩] }] ["Si", "O"] with
            angles := t } 180 1
        = some { cubicCell ℝ [{ mkAtom "Si" 0 ⟨0, 0, 0⟩ with
            bonded_atoms := [⟨1, 1, ⟨1, 0, 0⟩⟩, ⟨2, 1, ⟨-1, 0, 0⟩⟩] }] ["Si", "O"] with
            angles := t, g_theta := G } ∧
      (tripleColumns 2)[2]? = some (0, 1, 1) ∧
      entry2 G 3 180 = 2 ∧
      unorderedAngleCount (⟨Real.sqrt, Real.cos, Real.sin, Real.arccos⟩ : Libm ℝ)
        (180 / Real.pi) 1
        (cubicCell ℝ [{ mkAtom "Si" 0 ⟨0, 0, 0⟩ with
          bonded_atoms := [⟨1, 1, ⟨1, 0, 0⟩⟩, ⟨2, 1, ⟨-1, 0, 0⟩⟩] }] ["Si", "O"]).atoms
        0 1 1 180 = 1 ∧
      entry2 G 3 180 ≠ ((1 : ℕ) : ℝ) := by
  obtain ⟨t, G, h1, h2, _, h3⟩ := BAD_Histogram_after_BAD
    (⟨Real.sqrt, Real.cos, Real.sin, Real.arccos⟩ : Libm ℝ) (180 / Real.pi)
    (cubicCell ℝ [{ mkAtom "Si" 0 ⟨0, 0, 0⟩ with
      bonded_atoms := [⟨1, 1, ⟨1, 0, 0⟩⟩, ⟨2, 1, ⟨-1, 0, 0⟩⟩] }] ["Si", "O"]) true 180 1
    (by norm_num) (by simp [cubicCell, mkAtom]) (by simp [cubicCell, mkAtom])
    SiO2_angles_nonneg
  have h4 := h3 2 0 1 1 (by rfl) 180 (by decide)
  rw [if_pos (show (1 : ℕ) = 1 ∧ (0 : ℕ) ≠ 1 from ⟨rfl, by decide⟩), if_pos rfl,
    unorderedAngleCount_linear] at h4
  have h5 : entry2 G 3 180 = 2 := by
    rw [h4]; norm_num
  refine ⟨t, G, h1, h2, by rfl, h5, unorderedAngleCount_linear, ?_⟩
  rw [h5]
  norm_num

end Correlation
